import Mathlib

/-!
Skill trees, characters and the battle simulator.

A shallow embedding of the C++ program (one translation unit: skill hierarchy,
`SkillTreeNode` / `SkillTree`, `Character` hierarchy, `Party`, `BattleSimulator`).

Conventions of the embedding.

* C++ `int` values are Lean `Int`; every statement is about executions in which no
  signed arithmetic leaves the range of `int` (signed overflow has no defined
  behaviour in C++). `size_t` values are `Nat`.
* A pointer to a tree node is the index path from the root to that node
  (`NodePath`); the null pointer is `none`. The non-owning `parent` back pointer of
  a node is the path with its last index removed, so it is not stored.
* A pointer to a party member is the member's index in the party.
* `rand()` is a stream of non-negative draws together with the number of draws
  already consumed (`Rng`); the distribution used by `generateRandom` and the
  skill factory are streams indexed by the number of earlier calls.
* A finite `double` is the rational number that is its value. An operation on
  `double` values is the exact operation followed by `roundDouble`, the rounding of
  IEEE 754 binary64 (to nearest, ties to even); the conversion of an `int` to
  `double` is exact. Every statement is about executions in which no
  `static_cast<int>` of a `double` leaves the range of `int` (such a conversion has
  no defined behaviour in C++), which excludes infinities and NaN.
* The logger writes to the console only. The one message that carries a result,
  the last line logged by `simulate`, is returned as a `BattleResult`.
-/

namespace SkillGame

/-! ## Part 1: definitions -/

/-- Index path from the root of a tree to one of its nodes: the embedding of a
`SkillTreeNode*`. -/
abbrev NodePath := List Nat

/-- Item: a named value (class `Item`). -/
structure Item where
  name : String
  value : Int
deriving DecidableEq, Repr

/-- Inventory: class `Inventory<T>` at `T = Item`, a vector with a capacity. -/
structure Inventory where
  items : List Item
  capacity : Nat
deriving DecidableEq, Repr

/-- The three concrete skill classes with the members each one adds. The `double`
member `modifier` of `PassiveSkill` is the rational number that is its value. -/
inductive SkillKind where
  | active (manaCost : Int)
  | passive (modifier : ℚ)
  | ultimate (manaCost : Int) (cooldown : Int)
deriving DecidableEq, Repr

/-- Skill: the members of the abstract class `Skill` and the concrete class of
the object. -/
structure Skill where
  name : String
  level : Int
  basePower : Int
  kind : SkillKind
deriving DecidableEq, Repr

/-- Member `getName` of `Skill`. -/
def Skill.getName (s : Skill) : String := s.name

/-- SkillTreeNode: the skill pointer (possibly null) and the owned children, in
order. -/
inductive SkillTreeNode where
  | mk (skill : Option Skill) (children : List SkillTreeNode)
deriving Repr

namespace SkillTreeNode

/-- Member `getSkill`. -/
def getSkill : SkillTreeNode → Option Skill
  | mk s _ => s

/-- The member `children`. -/
def getChildren : SkillTreeNode → List SkillTreeNode
  | mk _ c => c

/-- Constructor `SkillTreeNode(s, p)`: a node without children. -/
def new (s : Option Skill) : SkillTreeNode := mk s []

/-- Member `addChild`: pushes a fresh node holding `s` at the back of `children`
and returns a pointer to it, here its index in `children`. -/
def addChild (n : SkillTreeNode) (s : Option Skill) : SkillTreeNode × Nat :=
  (mk n.getSkill (n.getChildren ++ [new s]), n.getChildren.length)

/-- Dereference of a node pointer: the node reached from `t` along a path. -/
def nodeAt : SkillTreeNode → NodePath → Option SkillTreeNode
  | t, [] => some t
  | t, i :: p =>
    match t.getChildren[i]? with
    | some c => nodeAt c p
    | none => none

/-- Mutation through a node pointer: `f` is applied to the node at the path and
everything else is kept. A path that leads nowhere changes nothing. -/
def updateAt (f : SkillTreeNode → SkillTreeNode) : SkillTreeNode → NodePath → SkillTreeNode
  | t, [] => f t
  | t, i :: p =>
    match t.getChildren[i]? with
    | some c => mk t.getSkill (t.getChildren.set i (updateAt f c p))
    | none => t

/-- The test made by the visitor of `findNodeBySkillName`:
`node->getSkill() && node->getSkill()->getName() == name`. -/
def hasSkillName (name : String) (n : SkillTreeNode) : Bool :=
  match n.getSkill with
  | some sk => sk.getName == name
  | none => false

end SkillTreeNode

mutual
/-- Member template `dfs` of `SkillTreeNode`: calls `f` on the node itself, then
runs `dfs` on each child from left to right. The visitor's captured variables
are the threaded state; it receives the pointer (path) and the node. -/
def SkillTreeNode.dfs {σ : Type} (f : σ → NodePath → SkillTreeNode → σ) :
    SkillTreeNode → NodePath → σ → σ
  | .mk sk ch, path, st => dfsChildren f ch path 0 (f st path (.mk sk ch))
/-- The loop `for (auto& ch : children) ch->dfs(f)`, from child number `i` on. -/
def dfsChildren {σ : Type} (f : σ → NodePath → SkillTreeNode → σ) :
    List SkillTreeNode → NodePath → Nat → σ → σ
  | [], _, _, st => st
  | c :: cs, path, i, st => dfsChildren f cs path (i + 1) (c.dfs f (path ++ [i]) st)
end

mutual
/-- Pre-order listing of a subtree rooted at `path`: the node, then the listings
of its children from left to right. -/
def SkillTreeNode.preorder : SkillTreeNode → NodePath → List (NodePath × SkillTreeNode)
  | .mk sk ch, path => (path, .mk sk ch) :: preorderChildren ch path 0
/-- Pre-order listing of the children of the node at `path`, from child `i` on. -/
def preorderChildren : List SkillTreeNode → NodePath → Nat → List (NodePath × SkillTreeNode)
  | [], _, _ => []
  | c :: cs, path, i => c.preorder (path ++ [i]) ++ preorderChildren cs path (i + 1)
end

/-- SkillTree: class template `SkillTree<T>`, whose only member is the owning
root pointer. -/
structure SkillTree where
  root : Option SkillTreeNode

namespace SkillTree

/-- Default constructor: the empty tree. -/
def empty : SkillTree := ⟨none⟩

/-- Member `getRoot`. -/
def getRoot (t : SkillTree) : Option SkillTreeNode := t.root

/-- Member `findNodeBySkillName`: runs `dfs` from the root with a visitor that
stores the visited node in `result` whenever its skill has the name. -/
def findNodeBySkillName (t : SkillTree) (name : String) : Option NodePath :=
  match t.root with
  | none => none
  | some r =>
    r.dfs (fun result path node => if node.hasSkillName name then some path else result) [] none

/-- Member `insertUnder`: returns the tree afterwards and the returned pointer.
The last branch is a dangling `found`, which `findNodeBySkillName` never
returns. -/
def insertUnder (t : SkillTree) (parentSkillName : String) (s : Option Skill) :
    SkillTree × Option NodePath :=
  match t.root with
  | none => (⟨some (SkillTreeNode.new s)⟩, some [])
  | some r =>
    match t.findNodeBySkillName parentSkillName with
    | none => (t, none)
    | some found =>
      match r.nodeAt found with
      | some n =>
        (⟨some (r.updateAt (fun m => (m.addChild s).1) found)⟩, some (found ++ [(n.addChild s).2]))
      | none => (t, none)

/-- The nodes of a tree with their pointers, in depth-first pre-order. -/
def nodes (t : SkillTree) : List (NodePath × SkillTreeNode) :=
  match t.root with
  | none => []
  | some r => r.preorder []

/-- The node a pointer into the tree refers to. -/
def nodeAt (t : SkillTree) (p : NodePath) : Option SkillTreeNode :=
  match t.root with
  | none => none
  | some r => r.nodeAt p

/-- First node in pre-order whose skill has the name. -/
def firstNamed (t : SkillTree) (name : String) : Option NodePath :=
  (t.nodes.find? (fun x => x.2.hasSkillName name)).map (fun x => x.1)

/-- Last node in pre-order whose skill has the name. -/
def lastNamed (t : SkillTree) (name : String) : Option NodePath :=
  ((t.nodes.filter (fun x => x.2.hasSkillName name)).getLast?).map (fun x => x.1)

end SkillTree

/-- What a node shows of itself: its skill and the number of its children. -/
def SkillTreeNode.view (n : SkillTreeNode) : Option Skill × Nat :=
  (n.getSkill, n.getChildren.length)

/-- What a pointer into the tree shows of the node it refers to; `none` for a
pointer that refers to no node. -/
def SkillTree.view (t : SkillTree) (p : NodePath) : Option (Option Skill × Nat) :=
  (t.nodeAt p).map SkillTreeNode.view

/-- An active skill of level 1 with the default power and cost, for examples. -/
def exampleSkill (name : String) : Skill :=
  { name := name, level := 1, basePower := 12, kind := SkillKind.active 10 }

/-- A tree whose pre-order skill names are "A", "B", "A": the root "A" with the
children "B" and "A". -/
def treeABA : SkillTree :=
  ⟨some (SkillTreeNode.mk (some (exampleSkill "A"))
    [SkillTreeNode.new (some (exampleSkill "B")), SkillTreeNode.new (some (exampleSkill "A"))])⟩

/-! ### Characters -/

/-- The concrete class of a character object with the member that class adds:
plain `Character`, `Warrior` (rage), `Mage` (spellPower) or `Archer` (agility). -/
inductive CharacterClass where
  | base
  | warrior (rage : Int)
  | mage (spellPower : Int)
  | archer (agility : Int)
deriving DecidableEq, Repr

/-- Character: the data members of class `Character` (the logger reference
apart) and the concrete class of the object. -/
structure Character where
  name : String
  hp : Int
  mana : Int
  attackPower : Int
  defense : Int
  level : Int
  ownedSkills : List Skill
  inventory : Inventory
  cls : CharacterClass
deriving DecidableEq, Repr

/-- Rng: the state of `rand()`, a stream of draws and the number of draws made. -/
structure Rng where
  stream : Nat → Nat
  pos : Nat

/-- One call of `rand()`: the draw and the state afterwards. -/
def Rng.rand (g : Rng) : Nat × Rng :=
  (g.stream g.pos, { g with pos := g.pos + 1 })

namespace Character

/-- Constructor `Character(n, log)`. -/
def new (n : String) : Character :=
  { name := n, hp := 100, mana := 50, attackPower := 10, defense := 5, level := 1,
    ownedSkills := [], inventory := { items := [], capacity := 10 },
    cls := CharacterClass.base }

/-- Member `getHP`. -/
def getHP (c : Character) : Int := c.hp

/-- Member `getMana`. -/
def getMana (c : Character) : Int := c.mana

/-- Member `getDefense`. -/
def getDefense (c : Character) : Int := c.defense

/-- Member `getName`. -/
def getName (c : Character) : String := c.name

/-- Member `takeDamage`: `hp -= d; if (hp < 0) hp = 0;`. -/
def takeDamage (c : Character) (d : Int) : Character :=
  let hp1 := c.hp - d
  { c with hp := if hp1 < 0 then 0 else hp1 }

/-- Member `levelUp`. -/
def levelUp (c : Character) : Character :=
  { c with level := c.level + 1, hp := c.hp + 10, mana := c.mana + 5,
           attackPower := c.attackPower + 2, defense := c.defense + 1 }

/-- The body of `Character::attack`: one draw of `rand()` for the variance, the
damage floored at zero and handed to the target's `takeDamage`. Returns the
target afterwards, the damage and the state of `rand()`. -/
def attackBase (self target : Character) (g : Rng) : Character × Int × Rng :=
  let raw := self.attackPower + self.level * 2
  let (r, g1) := g.rand
  let variance := Int.tmod (r : Int) (self.level + 3)
  let dmg := max 0 (raw + variance - target.getDefense)
  (target.takeDamage dmg, dmg, g1)

/-- The body of `Warrior::attack` for a warrior whose rage is `rage`. Returns the
attacker afterwards (only its rage changes), the target, the returned damage and
the state of `rand()`. -/
def attackWarrior (self target : Character) (rage : Int) (g : Rng) :
    Character × Character × Int × Rng :=
  let rage1 := min 100 (rage + 10)
  let (target1, base, g1) := self.attackBase target g
  if rage1 ≥ 50 then
    let bonus := 5 + self.level
    let target2 := target1.takeDamage bonus
    ({ self with cls := CharacterClass.warrior 0 }, target2, base + bonus, g1)
  else
    ({ self with cls := CharacterClass.warrior rage1 }, target1, base, g1)

/-- The body of `Archer::attack` for an archer whose agility is `agility`: one
draw for the critical hit, then `Character::attack`. -/
def attackArcher (self target : Character) (agility : Int) (g : Rng) :
    Character × Character × Int × Rng :=
  let chance := min 50 (agility + self.level)
  let (r0, g1) := g.rand
  let r := Int.tmod (r0 : Int) 100
  if r < chance then
    let (target1, base, g2) := self.attackBase target g1
    (self, target1, base + 7, g2)
  else
    let (target1, base, g2) := self.attackBase target g1
    (self, target1, base, g2)

/-- The virtual call `self.attack(target)`, dispatched on the class of `self`
(`Mage` does not override `attack`). Returns the attacker and the target
afterwards, the returned damage and the state of `rand()`. -/
def attack (self target : Character) (g : Rng) : Character × Character × Int × Rng :=
  match self.cls with
  | CharacterClass.warrior rage => self.attackWarrior target rage g
  | CharacterClass.archer agility => self.attackArcher target agility g
  | _ =>
    let (target1, dmg, g1) := self.attackBase target g
    (self, target1, dmg, g1)

end Character

/-- Constructor `Warrior(n, log)`. -/
def Warrior.new (n : String) : Character :=
  let c := Character.new n
  { c with attackPower := c.attackPower + 5, defense := c.defense + 3,
           cls := CharacterClass.warrior 0 }

/-- Constructor `Mage(n, log)`. -/
def Mage.new (n : String) : Character :=
  let c := Character.new n
  { c with mana := c.mana + 30, cls := CharacterClass.mage 10 }

/-- Constructor `Archer(n, log)`. -/
def Archer.new (n : String) : Character :=
  let c := Character.new n
  { c with attackPower := c.attackPower + 2, cls := CharacterClass.archer 12 }

/-! ### Parties and the battle simulator -/

/-- Party: the owned members, in order. -/
structure Party where
  members : List Character
deriving DecidableEq, Repr

namespace Party

/-- Member `addMember`. -/
def addMember (p : Party) (c : Character) : Party := ⟨p.members ++ [c]⟩

/-- Member `getMember`: the null pointer past the end. -/
def getMember (p : Party) (idx : Nat) : Option Character := p.members[idx]?

/-- Member `size`. -/
def size (p : Party) : Nat := p.members.length

/-- Write back through a member pointer. -/
def setMember (p : Party) (idx : Nat) (c : Character) : Party := ⟨p.members.set idx c⟩

end Party

/-- The last line `simulate` logs: "Party A defeated!", "Party B defeated!" or
"Battle ended after max turns.". -/
inductive BattleResult where
  | partyADefeated
  | partyBDefeated
  | maxTurnsReached
deriving DecidableEq, Repr

/-- One call of `attack` made by `simulate`, recorded where the call is made: the
turn, whether the call is `ca->attack(*cb)` (side A attacks) or `cb->attack(*ca)`,
the pointers `ca` and `cb` returned by `randomAlive`, both parties as they were
when the two were selected, and the number of draws of `rand()` made before. -/
structure AttackEvent where
  turn : Nat
  attackerIsA : Bool
  ca : Nat
  cb : Nat
  a : Party
  b : Party
  drawsBefore : Nat
deriving DecidableEq, Repr

/-- What a run of `simulate` leaves behind: the logged result, both parties, the
state of `rand()`, the turn counter and the attacks made, in order. -/
structure BattleOutcome where
  result : BattleResult
  a : Party
  b : Party
  rng : Rng
  turn : Nat
  attacks : List AttackEvent

namespace BattleSimulator

/-- Private member `allDead`: false as soon as a member with `getHP() > 0` is
met. -/
def allDead (p : Party) : Bool :=
  (List.range p.size).all (fun i =>
    match p.getMember i with
    | some c => !(decide (c.getHP > 0))
    | none => true)

/-- The vector `alive` built by `randomAlive`: pointers to the members with
`getHP() > 0`, in party order, each with the member it refers to. -/
def aliveMembers (p : Party) : List (Nat × Character) :=
  (List.range p.size).filterMap (fun i =>
    match p.getMember i with
    | some c => if c.getHP > 0 then some (i, c) else none
    | none => none)

/-- Private member `randomAlive`: the null pointer without a draw when nobody
is alive, else `alive[rand() % alive.size()]`. -/
def randomAlive (p : Party) (g : Rng) : Option (Nat × Character) × Rng :=
  let alive := aliveMembers p
  if alive.isEmpty then (none, g)
  else
    let (r, g1) := g.rand
    (alive[r % alive.length]?, g1)

/-- The loop of `simulate`, with `remaining = 50 - turn` iterations left before
the condition `turn < 50` fails. -/
def simulateLoop : Nat → Nat → Party → Party → Rng → List AttackEvent → BattleOutcome
  | 0, turn, a, b, g, attacks =>
    { result := BattleResult.maxTurnsReached, a := a, b := b, rng := g, turn := turn,
      attacks := attacks }
  | remaining + 1, turn, a, b, g, attacks =>
    if allDead a then
      { result := BattleResult.partyADefeated, a := a, b := b, rng := g, turn := turn,
        attacks := attacks }
    else if allDead b then
      { result := BattleResult.partyBDefeated, a := a, b := b, rng := g, turn := turn,
        attacks := attacks }
    else
      let (ca, g1) := randomAlive a g
      let (cb, g2) := randomAlive b g1
      match ca, cb with
      | some (ia, x), some (ib, y) =>
        if turn % 2 = 0 then
          let (x1, y1, _, g3) := x.attack y g2
          let ev : AttackEvent :=
            { turn := turn, attackerIsA := true, ca := ia, cb := ib, a := a, b := b,
              drawsBefore := g.pos }
          simulateLoop remaining (turn + 1) (a.setMember ia x1) (b.setMember ib y1) g3
            (attacks ++ [ev])
        else
          let (y1, x1, _, g3) := y.attack x g2
          let ev : AttackEvent :=
            { turn := turn, attackerIsA := false, ca := ia, cb := ib, a := a, b := b,
              drawsBefore := g.pos }
          simulateLoop remaining (turn + 1) (a.setMember ia x1) (b.setMember ib y1) g3
            (attacks ++ [ev])
      | _, _ =>
        { result := BattleResult.maxTurnsReached, a := a, b := b, rng := g2, turn := turn,
          attacks := attacks }

/-- Member `simulate`: the loop started at turn 0 with 50 turns left. -/
def simulate (a b : Party) (g : Rng) : BattleOutcome :=
  simulateLoop 50 0 a b g []

end BattleSimulator

/-- What the selection of a turn looks like: `ca` and `cb` are the results of the
two calls of `randomAlive`, made on the parties as they are with `rand()` where
the turn found it, and both refer to members with positive hit points. -/
def Selected (stream : Nat → Nat) (ev : AttackEvent) : Prop :=
  ∃ x y,
    (BattleSimulator.randomAlive ev.a ⟨stream, ev.drawsBefore⟩).1 = some (ev.ca, x) ∧
    (BattleSimulator.randomAlive ev.b
      (BattleSimulator.randomAlive ev.a ⟨stream, ev.drawsBefore⟩).2).1 = some (ev.cb, y) ∧
    ev.a.getMember ev.ca = some x ∧ ev.b.getMember ev.cb = some y ∧
    x.getHP > 0 ∧ y.getHP > 0

/-- What one turn of the loop of `simulate` does, for the turn counter `k`, to the
state `(a, b, g)` it starts in: the two calls of `randomAlive` return a pointer
`ca` into party A and a pointer `cb` into party B, both to members with positive
hit points; when `k` is even the one call `ca->attack(*cb)` is made, when `k` is
odd the one call `cb->attack(*ca)`; the state `(a1, b1, g1)` afterwards is the
state before with these two members as that call leaves them and with `rand()`
after the draws of the two selections and of the call. `ev` is the record of the
call. -/
def AttackTurn (k : Nat) (a b : Party) (g : Rng) (a1 b1 : Party) (g1 : Rng)
    (ev : AttackEvent) : Prop :=
  ∃ ia ib x y ga gb,
    BattleSimulator.randomAlive a g = (some (ia, x), ga) ∧
    BattleSimulator.randomAlive b ga = (some (ib, y), gb) ∧
    a.getMember ia = some x ∧ b.getMember ib = some y ∧ x.getHP > 0 ∧ y.getHP > 0 ∧
    ev = ⟨k, decide (k % 2 = 0), ia, ib, a, b, g.pos⟩ ∧
    (k % 2 = 0 →
      a1 = a.setMember ia (x.attack y gb).1 ∧ b1 = b.setMember ib (x.attack y gb).2.1 ∧
      g1 = (x.attack y gb).2.2.2) ∧
    (k % 2 = 1 →
      b1 = b.setMember ib (y.attack x gb).1 ∧ a1 = a.setMember ia (y.attack x gb).2.1 ∧
      g1 = (y.attack x gb).2.2.2)

/-- A character as the public members can leave it: a fresh `Character` whose
hit points were moved to `hp` by `takeDamage(100 - hp)`. -/
def fighter (n : String) (hp : Int) : Character :=
  (Character.new n).takeDamage (100 - hp)

/-- The draws of `rand()` that are all zero. -/
def zeroRng : Rng := { stream := fun _ => 0, pos := 0 }

/-- A party of one fresh warrior. -/
def partyThorin : Party := ⟨[Warrior.new "Thorin"]⟩

/-- A party whose only member has one hit point left. -/
def partyWeak : Party := ⟨[fighter "Orc" 1]⟩

/-- A party whose only member has no hit points left. -/
def partyFallen : Party := ⟨[fighter "Orc" 0]⟩

/-- The party without members. -/
def partyNobody : Party := ⟨[]⟩

/-- The attack of turn 0 in the battle of `partyThorin` against `partyWeak`. -/
def firstStrike : AttackEvent := ⟨0, true, 0, 0, partyThorin, partyWeak, 0⟩

/-- A party of one plain character with 175 hit points. -/
def partyLasting : Party := ⟨[fighter "Ann" 175]⟩

/-- A party of one plain character with 1000 hit points. -/
def partySturdy : Party := ⟨[fighter "Bob" 1000]⟩

/-! ### Random generation of a skill tree -/

/-- GenState: the state of `generateRandom` between two statements: the tree
under the root, the queue of (node pointer, depth) pairs, the number of draws
made from the distribution and the number of calls made to the skill factory. -/
structure GenState where
  root : SkillTreeNode
  queue : List (NodePath × Int)
  drawn : Nat
  made : Nat

/-- The statement `SkillTreeNode* child = node->addChild(s)` with `node` given as
a pointer into the tree: the tree afterwards and the pointer to the new child.
A pointer that refers to no node changes nothing. -/
def addChildAt (root : SkillTreeNode) (node : NodePath) (s : Option Skill) :
    SkillTreeNode × NodePath :=
  match root.nodeAt node with
  | some n => (root.updateAt (fun m => (m.addChild s).1) node, node ++ [(n.addChild s).2])
  | none => (root, node)

/-- The loop `for (int i = 0; i < nc; i++)` of `generateRandom`, with `count`
iterations left: each one takes a skill from the factory, adds a child under
`node` and pushes the child with depth `depth + 1` at the back of the queue. -/
def addChildrenLoop (skillFactory : Nat → Option Skill) (node : NodePath) (depth : Int) :
    Nat → GenState → GenState
  | 0, st => st
  | count + 1, st =>
    let s := skillFactory st.made
    let (root1, child) := addChildAt st.root node s
    addChildrenLoop skillFactory node depth count
      { st with root := root1, queue := st.queue ++ [(child, depth + 1)], made := st.made + 1 }

/-- The loop `while (!q.empty())` of `generateRandom`, run for at most `fuel`
evaluations of its condition; `none` when the fuel runs out first.
`distChildren lo hi k` is the value of call number `k` of a
`uniform_int_distribution<int>(lo, hi)`. -/
def generateLoop (skillFactory : Nat → Option Skill) (distChildren : Int → Int → Nat → Int)
    (maxDepth maxChildren : Int) : Nat → GenState → Option GenState
  | 0, _ => none
  | fuel + 1, st =>
    match st.queue with
    | [] => some st
    | (node, depth) :: rest =>
      if depth ≥ maxDepth then
        generateLoop skillFactory distChildren maxDepth maxChildren fuel { st with queue := rest }
      else
        let nc := distChildren 0 maxChildren st.drawn
        generateLoop skillFactory distChildren maxDepth maxChildren fuel
          (addChildrenLoop skillFactory node depth nc.toNat
            { st with queue := rest, drawn := st.drawn + 1 })

/-- The state in which `generateRandom` enters its loop: a fresh root holding the
first skill of the factory, queued with depth 1. -/
def generateStart (skillFactory : Nat → Option Skill) : GenState :=
  { root := SkillTreeNode.new (skillFactory 0), queue := [([], 1)], drawn := 0, made := 1 }

/-- Member `generateRandom` of `SkillTree`: the tree it leaves in `root` (the
former content of the tree is dropped), `none` when the fuel runs out. -/
def SkillTree.generateRandom (skillFactory : Nat → Option Skill)
    (distChildren : Int → Int → Nat → Int) (maxDepth maxChildren : Int) (fuel : Nat) :
    Option SkillTree :=
  (generateLoop skillFactory distChildren maxDepth maxChildren fuel
    (generateStart skillFactory)).map (fun st => ⟨some st.root⟩)

/-- The weight of a queue entry whose depth is `k` levels above `maxDepth`: an
upper bound on the loop iterations this entry and its descendants take when no
node gets more than `maxChildren` children. -/
def genWeight (maxChildren : Nat) : Nat → Nat
  | 0 => 1
  | k + 1 => 1 + maxChildren * genWeight maxChildren k

/-- Fuel that is enough for `generateRandom` when every draw is at most
`maxChildren`. -/
def genFuel (maxDepth maxChildren : Int) : Nat :=
  genWeight maxChildren.toNat (maxDepth - 1).toNat + 1

/-- A skill factory that hands out active skills named after the call number. -/
def countingFactory (k : Nat) : Option Skill :=
  some (exampleSkill (toString (k + 1)))

/-- The distribution that always draws its upper bound. -/
def drawMax (_lo hi : Int) (_k : Nat) : Int := hi

/-- The invariant of the loop of `generateRandom`: every node has at most
`maxChildren` children and lies fewer than `max 1 maxDepth` levels below the
root; every queued pointer refers to a node without children and is queued with
its level counted from 1; no pointer is queued twice. -/
def GenInv (maxDepth maxChildren : Int) (root : SkillTreeNode)
    (queue : List (NodePath × Int)) : Prop :=
  (∀ p sk k, (root.nodeAt p).map SkillTreeNode.view = some (sk, k) →
    (k : Int) ≤ maxChildren ∧ (p.length : Int) + 1 ≤ max 1 maxDepth) ∧
  (∀ e ∈ queue, (∃ sk, (root.nodeAt e.1).map SkillTreeNode.view = some (sk, 0)) ∧
    e.2 = (e.1.length : Int) + 1) ∧
  (queue.map Prod.fst).Nodup

/-- The total weight of the queue entries. -/
def queueWeight (maxDepth : Int) (maxChildren : Nat) (queue : List (NodePath × Int)) : Nat :=
  (queue.map (fun e => genWeight maxChildren (maxDepth - e.2).toNat)).sum

/-! ### Skills: effective power, upgrade and application -/

/-- Rounding of a rational number to the nearest integer, a tie going to the even
one. -/
def roundHalfEven (q : ℚ) : Int :=
  if q - ⌊q⌋ < 1 / 2 then ⌊q⌋
  else if 1 / 2 < q - ⌊q⌋ then ⌊q⌋ + 1
  else if ⌊q⌋ % 2 = 0 then ⌊q⌋ else ⌊q⌋ + 1

/-- The exponent of the unit in the last place of the binary64 format at `q`: 52
below the binary exponent of `q` (53 significant bits), and -1074 in the subnormal
range. -/
def ulpExp (q : ℚ) : Int := max (Int.log 2 |q| - 52) (-1074)

/-- The `double` an exact result is rounded to: the nearest multiple of the unit
in the last place, a tie going to the even significand (IEEE 754 binary64, round
to nearest even). -/
def roundDouble (q : ℚ) : ℚ := (roundHalfEven (q / 2 ^ ulpExp q) : ℚ) * 2 ^ ulpExp q

/-- The conversion `static_cast<int>` of a `double`, which drops the fractional
part (rounds toward zero). -/
def truncToInt (q : ℚ) : Int :=
  if 0 ≤ q then ⌊q⌋ else ⌈q⌉

/-- The condition under which `static_cast<int>` of a `double` has defined
behaviour: the value without its fractional part is a value of the 32 bit
`int`. -/
def castDefined (q : ℚ) : Prop := -(2 : ℚ) ^ 31 - 1 < q ∧ q < 2 ^ 31

namespace Skill

/-- The virtual member `effectivePower`, dispatched on the concrete class:
`basePower + level * 5` for `ActiveSkill`,
`basePower + static_cast<int>(level * (modifier * 100))` for `PassiveSkill` and
`basePower + level * 12` for `UltimateSkill`. In the passive case `modifier * 100`
is a product of two `double` values (the `int` 100 converted), rounded to
`double`; `level` is converted to `double` and the second product is rounded
again, then converted to `int`. -/
def effectivePower (s : Skill) : Int :=
  match s.kind with
  | SkillKind.active _ => s.basePower + s.level * 5
  | SkillKind.passive modifier =>
    s.basePower + truncToInt (roundDouble ((s.level : ℚ) * roundDouble (modifier * 100)))
  | SkillKind.ultimate _ _ => s.basePower + s.level * 12

/-- Member `upgrade`: `level++; basePower = basePower + 2;`. -/
def upgrade (s : Skill) : Skill :=
  { s with level := s.level + 1, basePower := s.basePower + 2 }

/-- The body of `ActiveSkill::apply`: one draw of `rand()` for the variance, the
damage floored at 1 and handed to the target's `takeDamage`. Returns the target
afterwards, the damage and the state of `rand()`. -/
def applyActive (s : Skill) (target : Character) (g : Rng) : Character × Int × Rng :=
  let p := s.effectivePower
  let (r, g1) := g.rand
  let variance := Int.tmod (r : Int) 5
  let dmg := max 1 (p + variance - target.getDefense)
  (target.takeDamage dmg, dmg, g1)

/-- The body of `UltimateSkill::apply`: the damage floored at 5 and handed to the
target's `takeDamage`. Returns the target afterwards and the damage. -/
def applyUltimate (s : Skill) (target : Character) : Character × Int :=
  let p := s.effectivePower
  let dmg := max 5 (p - target.getDefense)
  (target.takeDamage dmg, dmg)

/-- The virtual call `sk->apply(target)`, dispatched on the concrete class;
`PassiveSkill::apply` only prints. Returns the target afterwards and the state of
`rand()`. -/
def apply (s : Skill) (target : Character) (g : Rng) : Character × Rng :=
  match s.kind with
  | SkillKind.active _ => ((s.applyActive target g).1, (s.applyActive target g).2.2)
  | SkillKind.passive _ => (target, g)
  | SkillKind.ultimate _ _ => ((s.applyUltimate target).1, g)

end Skill

/-! ### Characters: skill use and the remaining mutators -/

namespace Character

/-- Member `skillCount`. -/
def skillCount (c : Character) : Nat := c.ownedSkills.length

/-- Member `equipSkill` for a non-null skill (a null one is ignored by the
source). -/
def equipSkill (c : Character) (s : Skill) : Character :=
  { c with ownedSkills := c.ownedSkills ++ [s] }

/-- Member `battleShout` of `Warrior`. -/
def battleShout (c : Character) : Character :=
  { c with attackPower := c.attackPower + 2 }

/-- The rage counter of a warrior (0 for the other classes, which have none). -/
def rage (c : Character) : Int :=
  match c.cls with
  | CharacterClass.warrior r => r
  | _ => 0

/-- The body of `Character::useSkill`, for a target that is another object: an
index past the end is a no-op (with a warning), else the skill is applied.
Returns the target afterwards and the state of `rand()`; the caster does not
change. -/
def useSkillBase (self : Character) (idx : Nat) (target : Character) (g : Rng) :
    Character × Rng :=
  if idx ≥ self.ownedSkills.length then (target, g)
  else
    match self.ownedSkills[idx]? with
    | some sk => sk.apply target g
    | none => (target, g)

/-- The body of `Mage::useSkill`, for a target that is another object: an index
past the end or too little mana is a no-op (with a warning); else the cost
`max(5, effectivePower / 3)` is taken from the mana and the skill is applied.
Returns the caster and the target afterwards and the state of `rand()`. -/
def useSkillMage (self : Character) (idx : Nat) (target : Character) (g : Rng) :
    Character × Character × Rng :=
  if idx ≥ self.skillCount then (self, target, g)
  else
    match self.ownedSkills[idx]? with
    | some sk =>
      let cost := max 5 (Int.tdiv sk.effectivePower 3)
      if self.mana < cost then (self, target, g)
      else
        let self1 := { self with mana := self.mana - cost }
        (self1, (sk.apply target g).1, (sk.apply target g).2)
    | none => (self, target, g)

/-- The virtual call `self.useSkill(idx, target)`, dispatched on the class of
`self` (only `Mage` overrides it). -/
def useSkill (self : Character) (idx : Nat) (target : Character) (g : Rng) :
    Character × Character × Rng :=
  match self.cls with
  | CharacterClass.mage _ => self.useSkillMage idx target g
  | _ => (self, (self.useSkillBase idx target g).1, (self.useSkillBase idx target g).2)

end Character

/-! ### Inventory -/

namespace Item

/-- Member `getName`. -/
def getName (it : Item) : String := it.name

end Item

namespace Inventory

/-- Constructor `Inventory(cap)`: no items. -/
def new (cap : Nat) : Inventory := { items := [], capacity := cap }

/-- Member `snapshot`: a copy of the items. -/
def snapshot (inv : Inventory) : List Item := inv.items

/-- Member `add`: the returned flag and the inventory afterwards. -/
def add (inv : Inventory) (it : Item) : Bool × Inventory :=
  if inv.items.length ≥ inv.capacity then (false, inv)
  else (true, { inv with items := inv.items ++ [it] })

/-- The algorithm `std::remove_if` on the items: the kept items moved to the
front in their order, and the position of the new logical end. -/
def removeIfKept (items : List Item) (n : String) : List Item × Nat :=
  (items.filter (fun it => !(it.getName == n)), (items.filter (fun it => !(it.getName == n))).length)

/-- Member `removeIfName`: nothing happens when `remove_if` returns the end of
the vector; else the tail from the returned position on is erased. -/
def removeIfName (inv : Inventory) (n : String) : Bool × Inventory :=
  let (kept, it) := removeIfKept inv.items n
  if it = inv.items.length then (false, inv)
  else (true, { inv with items := kept.take it })

/-- The loop of `findByName` from position `i` on: the pointer to the first item
with the name, here its index. -/
def findFrom (n : String) : List Item → Nat → Option Nat
  | [], _ => none
  | it :: rest, i => if it.getName == n then some i else findFrom n rest (i + 1)

/-- Member `findByName`: the null pointer when no item has the name. -/
def findByName (inv : Inventory) (n : String) : Option Nat :=
  findFrom n inv.items 0

end Inventory

/-- A call of `add` or `removeIfName` on an inventory. -/
inductive InventoryOp where
  | add (it : Item)
  | removeIfName (n : String)
deriving DecidableEq, Repr

/-- The inventory after one call. -/
def InventoryOp.run (inv : Inventory) : InventoryOp → Inventory
  | InventoryOp.add it => (inv.add it).2
  | InventoryOp.removeIfName n => (inv.removeIfName n).2

/-- A call of a public member that can change a warrior: `attack` on a target
with a state of `rand()`, `levelUp`, `takeDamage`, `battleShout`, `equipSkill`,
`useSkill` on another character, and `add` / `removeIfName` on its inventory. -/
inductive WarriorOp where
  | attack (target : Character) (g : Rng)
  | levelUp
  | takeDamage (d : Int)
  | battleShout
  | equipSkill (s : Skill)
  | useSkill (idx : Nat) (target : Character) (g : Rng)
  | addItem (it : Item)
  | removeItem (n : String)

/-- The warrior after one call. -/
def WarriorOp.run (w : Character) : WarriorOp → Character
  | WarriorOp.attack target g => (w.attack target g).1
  | WarriorOp.levelUp => w.levelUp
  | WarriorOp.takeDamage d => w.takeDamage d
  | WarriorOp.battleShout => w.battleShout
  | WarriorOp.equipSkill s => w.equipSkill s
  | WarriorOp.useSkill idx target g => (w.useSkill idx target g).1
  | WarriorOp.addItem it => { w with inventory := (w.inventory.add it).2 }
  | WarriorOp.removeItem n => { w with inventory := (w.inventory.removeIfName n).2 }

/-- The active skill "Fireball" of the demonstration: power 20, cost 12. -/
def fireball : Skill :=
  { name := "Fireball", level := 1, basePower := 20, kind := SkillKind.active 12 }

/-- A fresh mage who has equipped "Fireball". -/
def merlin : Character := (Mage.new "Merlin").equipSkill fireball

/-- A passive skill with the given modifier, at level 1 with base power 5. -/
def passiveSkill (modifier : ℚ) : Skill :=
  { name := "Toughness", level := 1, basePower := 5, kind := SkillKind.passive modifier }

/-- The passive skill of level 1 and base power 5 whose modifier is the literal
`0.03`, that is the `double` nearest to 3/100. -/
def threePercent : Skill := passiveSkill (roundDouble (3 / 100))

/-- The inventory of the unit test: capacity 3 holding "Sword", "Shield",
"Potion". -/
def fullInventory : Inventory :=
  { items := [⟨"Sword", 10⟩, ⟨"Shield", 20⟩, ⟨"Potion", 30⟩], capacity := 3 }

/-! ### Size, levels and level order of a tree -/

mutual
/-- The number of nodes of the subtree under a node, the node included. -/
def SkillTreeNode.size : SkillTreeNode → Nat
  | .mk _ ch => 1 + sizeChildren ch
/-- The number of nodes of the subtrees under a list of children. -/
def sizeChildren : List SkillTreeNode → Nat
  | [] => 0
  | c :: cs => c.size + sizeChildren cs
end

mutual
/-- The number of levels below a node: 0 for a node without children. -/
def SkillTreeNode.height : SkillTreeNode → Nat
  | .mk _ ch => heightChildren ch
/-- The largest `height + 1` over a list of children, 0 for the empty list. -/
def heightChildren : List SkillTreeNode → Nat
  | [] => 0
  | c :: cs => max (c.height + 1) (heightChildren cs)
end

/-- Concatenation of `f i c` over the elements `c` of a list, `i` being the
position of `c` counted from `start`. -/
def bindIdx {α β : Type} (f : Nat → α → List β) : List α → Nat → List β
  | [], _ => []
  | c :: cs, start => f start c ++ bindIdx f cs (start + 1)

/-- The nodes exactly `k` levels below a node, from left to right, each with the
pointer that leads to it from that node. -/
def SkillTreeNode.atDepth : Nat → SkillTreeNode → List (NodePath × SkillTreeNode)
  | 0, t => [([], t)]
  | k + 1, t =>
    bindIdx (fun i c => (SkillTreeNode.atDepth k c).map (fun x => (i :: x.1, x.2)))
      t.getChildren 0

/-- The level order (breadth-first) listing of a tree: level 0, then level 1, and
so on down to the last level, every level from left to right. -/
def SkillTreeNode.levelOrder (t : SkillTreeNode) : List (NodePath × SkillTreeNode) :=
  (List.range (t.height + 1)).flatMap (fun k => t.atDepth k)

/-- Left-to-right order of two pointers: at the first index where they differ the
first one has the smaller index. -/
def pathLexLt : NodePath → NodePath → Prop
  | [], [] => False
  | [], _ :: _ => True
  | _ :: _, [] => False
  | a :: p, b :: q => a < b ∨ (a = b ∧ pathLexLt p q)

/-- The order of the level order listing on pointers: a higher level first, and
within a level from left to right. -/
def levelOrderLt (p q : NodePath) : Prop :=
  p.length < q.length ∨ (p.length = q.length ∧ pathLexLt p q)

/-- The breadth-first invariant of the loop of `generateRandom`. The nodes made
so far, in the order they were made, are the pointers of `done` followed by the
queued pointers; this list holds every node of the tree, is in level order, and
its entry number `i` holds the skill of call number `i` of the factory; queued
nodes have no children; the children of a node were made one after the other. -/
def BfsInv (skillFactory : Nat → Option Skill) (root : SkillTreeNode)
    (queue : List (NodePath × Int)) (made : Nat) (done : List NodePath) : Prop :=
  (done ++ queue.map Prod.fst).length = made ∧
  (∀ p, (root.nodeAt p).map SkillTreeNode.view ≠ none ↔ p ∈ done ++ queue.map Prod.fst) ∧
  (∀ i p, (done ++ queue.map Prod.fst)[i]? = some p →
    ∃ k, (root.nodeAt p).map SkillTreeNode.view = some (skillFactory i, k)) ∧
  (done ++ queue.map Prod.fst).Pairwise levelOrderLt ∧
  (∀ p ∈ queue.map Prod.fst, ∃ sk, (root.nodeAt p).map SkillTreeNode.view = some (sk, 0)) ∧
  (∀ p sk k, (root.nodeAt p).map SkillTreeNode.view = some (sk, k) →
    ∃ m, ∀ i, i < k → (done ++ queue.map Prod.fst)[m + i]? = some (p ++ [i]))

/-- The counting invariant of the loop of `generateRandom`: the tree has as many
nodes as the factory was called, and the nodes made plus the nodes the queued
entries can still produce stay within the weight of the root entry. -/
def CountInv (maxDepth maxChildren : Int) (st : GenState) : Prop :=
  st.root.size = st.made ∧
  st.made + (st.queue.map (fun e => genWeight maxChildren.toNat (maxDepth - e.2).toNat - 1)).sum
    ≤ genWeight maxChildren.toNat (maxDepth - 1).toNat

/-- The loop of `generateRandom` started in a state comes to its end: from some
amount of fuel on it returns a state. -/
def GenTerminates (skillFactory : Nat → Option Skill) (distChildren : Int → Int → Nat → Int)
    (maxDepth maxChildren : Int) (st : GenState) : Prop :=
  ∃ N, ∀ fuel, N ≤ fuel →
    (generateLoop skillFactory distChildren maxDepth maxChildren fuel st).isSome = true

/-- A skill factory that hands out the labels 1, 2, 3, ...: the skill of call
number `k` (from 0) carries the label `k + 1` as its level. -/
def labelFactory (k : Nat) : Option Skill :=
  some { name := "L", level := (k : Int) + 1, basePower := 0, kind := SkillKind.active 0 }

/-- The label of the skill a node holds. -/
def labelOf (n : SkillTreeNode) : Option Int := n.getSkill.map (fun s => s.level)

/-- The distribution whose draws are 2, 1, 0, 0, ... -/
def drawTwoOne (_lo _hi : Int) (k : Nat) : Int :=
  if k = 0 then 2 else if k = 1 then 1 else 0

/-! ### Sequences of attacks -/

/-- The character after a sequence of its own calls of `attack`, each with its
target and the state of `rand()` it finds. -/
def attackSequence (c : Character) (attacks : List (Character × Rng)) : Character :=
  attacks.foldl (fun w a => (w.attack a.1 a.2).1) c

/-- The test `rage >= 50` that `Warrior::attack` makes after it has raised the
rage by 10 (capped at 100): whether the next attack of the warrior triggers the
rage bonus. -/
def rageBonusFires (w : Character) : Bool :=
  decide (min 100 (w.rage + 10) ≥ 50)

/-- Four attacks on a sturdy target, all draws 0. -/
def fourAttacks : List (Character × Rng) :=
  List.replicate 4 (fighter "Orc" 1000, zeroRng)

/-- A state of `rand()` whose first draw is 0 (a critical hit for every archer
with a positive chance) and whose later draws are 3. -/
def criticalRng : Rng := { stream := fun k => if k = 0 then 0 else 3, pos := 0 }

/-- A state of `rand()` whose first draw is 99 (never a critical hit) and whose
later draws are 3. -/
def plainRng : Rng := { stream := fun k => if k = 0 then 99 else 3, pos := 0 }

/-! ## Part 2: theorems -/

/-! ### Depth-first traversal and pre-order -/

mutual
theorem dfs_eq_foldl {σ : Type} (f : σ → NodePath → SkillTreeNode → σ) :
    ∀ (t : SkillTreeNode) (path : NodePath) (st : σ),
      t.dfs f path st = (t.preorder path).foldl (fun s x => f s x.1 x.2) st
  | .mk sk ch, path, st => by
    simp only [SkillTreeNode.dfs, SkillTreeNode.preorder, List.foldl_cons]
    exact dfsChildren_eq_foldl f ch path 0 _
theorem dfsChildren_eq_foldl {σ : Type} (f : σ → NodePath → SkillTreeNode → σ) :
    ∀ (ch : List SkillTreeNode) (path : NodePath) (i : Nat) (st : σ),
      dfsChildren f ch path i st = (preorderChildren ch path i).foldl (fun s x => f s x.1 x.2) st
  | [], _, _, _ => by simp [dfsChildren, preorderChildren]
  | c :: cs, path, i, st => by
    simp only [dfsChildren, preorderChildren, List.foldl_append]
    rw [dfs_eq_foldl f c]
    exact dfsChildren_eq_foldl f cs path (i + 1) _
end

theorem foldl_overwrite {α β : Type} (p : α → Bool) (g : α → β) (l : List α) (init : Option β) :
    l.foldl (fun r x => if p x then some (g x) else r) init =
      match (l.filter p).getLast? with
      | some x => some (g x)
      | none => init := by
  induction l using List.reverseRecOn with
  | nil => simp
  | append_singleton l a ih =>
    rw [List.foldl_append, ih]
    by_cases h : p a = true
    · simp [List.filter_append, h]
    · simp [List.filter_append, h]

theorem nodeAt_cons (t : SkillTreeNode) (i : Nat) (p : NodePath) :
    t.nodeAt (i :: p) = (t.getChildren[i]?).bind (fun c => c.nodeAt p) := by
  simp only [SkillTreeNode.nodeAt]
  cases t.getChildren[i]? <;> rfl

mutual
theorem preorder_sound :
    ∀ (t : SkillTreeNode) (base : NodePath) (x : NodePath × SkillTreeNode),
      x ∈ t.preorder base → ∃ q, x.1 = base ++ q ∧ t.nodeAt q = some x.2
  | .mk sk ch, base, x, hx => by
    simp only [SkillTreeNode.preorder, List.mem_cons] at hx
    rcases hx with rfl | hx
    · exact ⟨[], by simp, rfl⟩
    · obtain ⟨j, c, q, hj, hq, hn⟩ := preorderChildren_sound ch base 0 x hx
      refine ⟨j :: q, by simpa using hq, ?_⟩
      rw [nodeAt_cons]
      simp [SkillTreeNode.getChildren, hj, hn]
theorem preorderChildren_sound :
    ∀ (ch : List SkillTreeNode) (base : NodePath) (i : Nat) (x : NodePath × SkillTreeNode),
      x ∈ preorderChildren ch base i →
        ∃ j c q, ch[j]? = some c ∧ x.1 = base ++ (i + j) :: q ∧ c.nodeAt q = some x.2
  | [], _, _, x, hx => by simp [preorderChildren] at hx
  | c :: cs, base, i, x, hx => by
    simp only [preorderChildren, List.mem_append] at hx
    rcases hx with hx | hx
    · obtain ⟨q, hq, hn⟩ := preorder_sound c (base ++ [i]) x hx
      exact ⟨0, c, q, by simp, by simpa using hq, hn⟩
    · obtain ⟨j, d, q, hj, hq, hn⟩ := preorderChildren_sound cs base (i + 1) x hx
      refine ⟨j + 1, d, q, by simpa using hj, ?_, hn⟩
      rw [hq]
      congr 2
      omega
end

theorem preorderChildren_complete (ch : List SkillTreeNode) (base : NodePath) :
    ∀ (i j : Nat) (c : SkillTreeNode), ch[j]? = some c →
      ∀ x ∈ c.preorder (base ++ [i + j]), x ∈ preorderChildren ch base i := by
  induction ch with
  | nil => intro i j c h; simp at h
  | cons d ds ih =>
    intro i j c h x hx
    simp only [preorderChildren, List.mem_append]
    cases j with
    | zero =>
      simp at h
      subst h
      exact Or.inl (by simpa using hx)
    | succ j =>
      right
      apply ih (i + 1) j c (by simpa using h)
      have : i + 1 + j = i + (j + 1) := by omega
      rw [this]
      exact hx

theorem preorder_complete (q : NodePath) :
    ∀ (t : SkillTreeNode) (base : NodePath) (n : SkillTreeNode),
      t.nodeAt q = some n → (base ++ q, n) ∈ t.preorder base := by
  induction q with
  | nil =>
    intro t base n h
    cases t with
    | mk sk ch =>
      simp only [SkillTreeNode.nodeAt, Option.some.injEq] at h
      subst h
      simp [SkillTreeNode.preorder]
  | cons i q ih =>
    intro t base n h
    cases t with
    | mk sk ch =>
      rw [nodeAt_cons] at h
      simp only [SkillTreeNode.getChildren] at h
      cases hc : ch[i]? with
      | none => simp [hc] at h
      | some c =>
        simp only [hc, Option.some_bind] at h
        have h1 := ih c (base ++ [i]) n h
        simp only [SkillTreeNode.preorder, List.mem_cons]
        right
        apply preorderChildren_complete ch base 0 i c hc
        simpa using h1

theorem mem_nodes_iff (t : SkillTree) (p : NodePath) (n : SkillTreeNode) :
    (p, n) ∈ t.nodes ↔ t.nodeAt p = some n := by
  cases t with
  | mk root =>
    cases root with
    | none => simp [SkillTree.nodes, SkillTree.nodeAt]
    | some r =>
      simp only [SkillTree.nodes, SkillTree.nodeAt]
      constructor
      · intro h
        obtain ⟨q, hq, hn⟩ := preorder_sound r [] (p, n) h
        simp only [List.nil_append] at hq
        subst hq
        exact hn
      · intro h
        simpa using preorder_complete p r [] n h

theorem findNodeBySkillName_eq_lastNamed (t : SkillTree) (name : String) :
    t.findNodeBySkillName name = t.lastNamed name := by
  cases t with
  | mk root =>
    cases root with
    | none => simp [SkillTree.findNodeBySkillName, SkillTree.lastNamed, SkillTree.nodes]
    | some r =>
      simp only [SkillTree.findNodeBySkillName, SkillTree.lastNamed, SkillTree.nodes]
      rw [dfs_eq_foldl]
      rw [foldl_overwrite (fun x : NodePath × SkillTreeNode => x.2.hasSkillName name)
        (fun x => x.1)]
      cases (List.filter (fun x : NodePath × SkillTreeNode => x.2.hasSkillName name)
        (r.preorder [])).getLast? <;> rfl

/-! ### Adding a child through a pointer -/

theorem getChildren_mk (s : Option Skill) (c : List SkillTreeNode) :
    (SkillTreeNode.mk s c).getChildren = c := rfl

theorem getSkill_mk (s : Option Skill) (c : List SkillTreeNode) :
    (SkillTreeNode.mk s c).getSkill = s := rfl

theorem view_updateAt_addChild (s : Option Skill) (p : NodePath) :
    ∀ (r n : SkillTreeNode), r.nodeAt p = some n → ∀ q : NodePath,
      ((r.updateAt (fun m => (m.addChild s).1) p).nodeAt q).map SkillTreeNode.view =
        if q = p then some (n.getSkill, n.getChildren.length + 1)
        else if q = p ++ [n.getChildren.length] then some (s, 0)
        else (r.nodeAt q).map SkillTreeNode.view := by
  induction p with
  | nil =>
    intro r n h q
    simp only [SkillTreeNode.nodeAt, Option.some.injEq] at h
    subst h
    cases r with
    | mk sk ch =>
      simp only [SkillTreeNode.updateAt, SkillTreeNode.addChild, SkillTreeNode.getSkill,
        SkillTreeNode.getChildren, List.nil_append]
      cases q with
      | nil => simp [SkillTreeNode.nodeAt, SkillTreeNode.view, SkillTreeNode.getSkill,
          SkillTreeNode.getChildren]
      | cons i q =>
        rw [nodeAt_cons, nodeAt_cons]
        simp only [SkillTreeNode.getChildren]
        rcases Nat.lt_trichotomy i ch.length with hi | hi | hi
        · have : (ch ++ [SkillTreeNode.new s])[i]? = ch[i]? := List.getElem?_append_left hi
          rw [this]
          have hne : ¬ (i :: q = [ch.length]) := by
            intro h; simp at h; omega
          simp [hne]
        · subst hi
          have : (ch ++ [SkillTreeNode.new s])[ch.length]? = some (SkillTreeNode.new s) := by
            simp
          rw [this]
          have h2 : ch[ch.length]? = none := by simp
          rw [h2]
          cases q with
          | nil => simp [SkillTreeNode.nodeAt, SkillTreeNode.view, SkillTreeNode.new,
              SkillTreeNode.getSkill, SkillTreeNode.getChildren]
          | cons k q =>
            simp [nodeAt_cons, SkillTreeNode.new, SkillTreeNode.getChildren]
        · have : (ch ++ [SkillTreeNode.new s])[i]? = none := by
            apply List.getElem?_eq_none
            simp; omega
          rw [this]
          have h2 : ch[i]? = none := List.getElem?_eq_none (by omega)
          rw [h2]
          have hne : ¬ (i :: q = [ch.length]) := by
            intro h; simp at h; omega
          simp [hne]
  | cons j p ih =>
    intro r n h q
    cases r with
    | mk sk ch =>
      rw [nodeAt_cons] at h
      simp only [getChildren_mk] at h
      cases hc : ch[j]? with
      | none => simp [hc] at h
      | some c =>
        simp only [hc, Option.some_bind] at h
        have hj : j < ch.length := by
          by_contra hge
          rw [List.getElem?_eq_none (by omega)] at hc
          cases hc
        simp only [SkillTreeNode.updateAt, getChildren_mk, hc, getSkill_mk]
        cases q with
        | nil =>
          simp [SkillTreeNode.nodeAt, SkillTreeNode.view, getSkill_mk, getChildren_mk]
        | cons i q =>
          rw [nodeAt_cons, nodeAt_cons]
          simp only [getChildren_mk, List.getElem?_set]
          by_cases hij : j = i
          · subst hij
            simp only [if_true, hj, hc, Option.some_bind]
            rw [ih c n h q]
            simp
          · have h1 : ¬ (i :: q = j :: p) := by
              intro h; simp at h; omega
            have h2 : ¬ (i :: q = j :: p ++ [n.getChildren.length]) := by
              intro h; simp at h; omega
            have hij2 : ¬ i = j := fun h => hij h.symm
            simp [hij, hij2, h1]

/-! ### Lookup by name and insertion -/

theorem getLast?_filter_split {α : Type} (p : α → Bool) (l : List α) (x : α)
    (h : (l.filter p).getLast? = some x) :
    ∃ before after, l = before ++ x :: after ∧ p x = true ∧ ∀ y ∈ after, p y = false := by
  induction l using List.reverseRecOn with
  | nil => simp at h
  | append_singleton l a ih =>
    by_cases ha : p a = true
    · have hx : a = x := by simpa [List.filter_append, ha] using h
      subst hx
      exact ⟨l, [], rfl, ha, by simp⟩
    · have hx : (l.filter p).getLast? = some x := by
        simpa [List.filter_append, ha] using h
      obtain ⟨before, after, hl, hp, hafter⟩ := ih hx
      refine ⟨before, after ++ [a], by simp [hl], hp, ?_⟩
      intro y hy
      rcases List.mem_append.mp hy with hy | hy
      · exact hafter y hy
      · simp only [List.mem_singleton] at hy
        subst hy
        simpa using ha

theorem lastNamed_eq_none_iff (t : SkillTree) (name : String) :
    t.lastNamed name = none ↔
      ∀ p n, t.nodeAt p = some n → n.hasSkillName name = false := by
  simp only [SkillTree.lastNamed, Option.map_eq_none', List.getLast?_eq_none_iff,
    List.filter_eq_nil_iff]
  constructor
  · intro h p n hn
    have := h (p, n) ((mem_nodes_iff t p n).mpr hn)
    simpa using this
  · intro h x hx
    have := h x.1 x.2 ((mem_nodes_iff t x.1 x.2).mp hx)
    simp [this]

theorem lastNamed_split (t : SkillTree) (name : String) (p : NodePath)
    (h : t.lastNamed name = some p) :
    ∃ n before after, t.nodes = before ++ (p, n) :: after ∧ n.hasSkillName name = true ∧
      ∀ x ∈ after, x.2.hasSkillName name = false := by
  simp only [SkillTree.lastNamed, Option.map_eq_some'] at h
  obtain ⟨x, hx, hp⟩ := h
  obtain ⟨before, after, hl, hpx, hafter⟩ :=
    getLast?_filter_split (fun x : NodePath × SkillTreeNode => x.2.hasSkillName name) _ x hx
  subst hp
  exact ⟨x.2, before, after, hl, hpx, hafter⟩

theorem lastNamed_nodeAt (t : SkillTree) (name : String) (p : NodePath)
    (h : t.lastNamed name = some p) :
    ∃ n, t.nodeAt p = some n ∧ n.hasSkillName name = true := by
  obtain ⟨n, before, after, hl, hn, _⟩ := lastNamed_split t name p h
  refine ⟨n, (mem_nodes_iff t p n).mp ?_, hn⟩
  rw [hl]
  simp

/-- C1, as amended: `findNodeBySkillName` returns the last node in depth-first
pre-order whose skill has the name (the listing of the nodes splits at the
returned node into the nodes before it and the nodes after it, none of which
has the name), and it returns the null pointer exactly when no node of the tree
has a skill of that name. -/
theorem findNodeBySkillName_returns_last (t : SkillTree) (name : String) :
    t.findNodeBySkillName name = t.lastNamed name ∧
    (∀ p, t.findNodeBySkillName name = some p →
      ∃ n before after, t.nodes = before ++ (p, n) :: after ∧
        n.hasSkillName name = true ∧ ∀ x ∈ after, x.2.hasSkillName name = false) ∧
    (t.findNodeBySkillName name = none ↔
      ∀ p n, t.nodeAt p = some n → n.hasSkillName name = false) := by
  refine ⟨findNodeBySkillName_eq_lastNamed t name, ?_, ?_⟩
  · intro p hp
    rw [findNodeBySkillName_eq_lastNamed] at hp
    exact lastNamed_split t name p hp
  · rw [findNodeBySkillName_eq_lastNamed]
    exact lastNamed_eq_none_iff t name

/-- C1, counterexample: on the tree whose pre-order skill names are "A", "B",
"A" the first node named "A" is the root, and `findNodeBySkillName` returns the
second child of the root, the last node named "A". -/
theorem findNodeBySkillName_not_first :
    treeABA.nodes.map (fun x => x.2.getSkill.map Skill.getName) = [some "A", some "B", some "A"] ∧
    treeABA.firstNamed "A" = some [] ∧
    treeABA.findNodeBySkillName "A" = some [1] ∧
    treeABA.findNodeBySkillName "A" ≠ treeABA.firstNamed "A" := by
  decide

theorem insertUnder_of_lastNamed (t : SkillTree) (name : String) (s : Option Skill)
    (parent : NodePath) (n : SkillTreeNode) (r : SkillTreeNode) (hr : t.root = some r)
    (hl : t.lastNamed name = some parent) (hn : r.nodeAt parent = some n) :
    t.insertUnder name s =
      (⟨some (r.updateAt (fun m => (m.addChild s).1) parent)⟩,
        some (parent ++ [n.getChildren.length])) := by
  rw [← findNodeBySkillName_eq_lastNamed] at hl
  simp only [SkillTree.insertUnder, hr, hl, hn, SkillTreeNode.addChild]

/-- C2, as amended: when some node's skill is named `parentName`,
`insertUnder(parentName, s)` returns a pointer to a new node that holds `s`, has
no children and is the new last child of the last node in depth-first pre-order
whose skill is named `parentName`; that parent gains exactly this one child and
every other pointer shows the same skill and the same number of children as
before (pointers that referred to no node still refer to none). -/
theorem insertUnder_attaches_under_last (t : SkillTree) (parentName : String)
    (s : Option Skill)
    (h : ∃ p n, t.nodeAt p = some n ∧ n.hasSkillName parentName = true) :
    ∃ parent sk k,
      t.lastNamed parentName = some parent ∧
      t.view parent = some (sk, k) ∧
      (t.insertUnder parentName s).2 = some (parent ++ [k]) ∧
      ∀ q, (t.insertUnder parentName s).1.view q =
        if q = parent then some (sk, k + 1)
        else if q = parent ++ [k] then some (s, 0)
        else t.view q := by
  obtain ⟨p0, n0, hn0, hname0⟩ := h
  cases hl : t.lastNamed parentName with
  | none =>
    have := (lastNamed_eq_none_iff t parentName).mp hl p0 n0 hn0
    rw [this] at hname0
    cases hname0
  | some parent =>
    obtain ⟨n, hn, _⟩ := lastNamed_nodeAt t parentName parent hl
    cases hroot : t.root with
    | none => simp [SkillTree.nodeAt, hroot] at hn
    | some r =>
      have hn1 : r.nodeAt parent = some n := by simpa [SkillTree.nodeAt, hroot] using hn
      refine ⟨parent, n.getSkill, n.getChildren.length, rfl, ?_, ?_, ?_⟩
      · simp [SkillTree.view, hn, SkillTreeNode.view]
      · rw [insertUnder_of_lastNamed t parentName s parent n r hroot hl hn1]
      · intro q
        rw [insertUnder_of_lastNamed t parentName s parent n r hroot hl hn1]
        simp only [SkillTree.view, SkillTree.nodeAt, hroot]
        exact view_updateAt_addChild s parent r n hn1 q

/-- C2, witness: the amended statement at the tree "A", "B", "A" with the parent
name "A". -/
theorem insertUnder_attaches_under_last_witness :
    (∃ p n, treeABA.nodeAt p = some n ∧ n.hasSkillName "A" = true) ∧
    ∃ parent sk k,
      treeABA.lastNamed "A" = some parent ∧
      treeABA.view parent = some (sk, k) ∧
      (treeABA.insertUnder "A" (some (exampleSkill "C"))).2 = some (parent ++ [k]) ∧
      ∀ q, (treeABA.insertUnder "A" (some (exampleSkill "C"))).1.view q =
        if q = parent then some (sk, k + 1)
        else if q = parent ++ [k] then some (some (exampleSkill "C"), 0)
        else treeABA.view q :=
  ⟨⟨[], _, rfl, by decide⟩,
    insertUnder_attaches_under_last treeABA "A" (some (exampleSkill "C"))
      ⟨[], _, rfl, by decide⟩⟩

/-- C2, counterexample: on the tree "A", "B", "A" the first node in pre-order
named "A" is the root, but `insertUnder("A", s)` returns a child of the second
"A" (pointer `[1, 0]`); the root keeps its two children and gets no new one. -/
theorem insertUnder_not_under_first :
    treeABA.firstNamed "A" = some [] ∧
    (treeABA.insertUnder "A" (some (exampleSkill "C"))).2 = some [1, 0] ∧
    (treeABA.insertUnder "A" (some (exampleSkill "C"))).1.view [] =
      some (some (exampleSkill "A"), 2) ∧
    (treeABA.insertUnder "A" (some (exampleSkill "C"))).1.view [2] = none ∧
    (treeABA.insertUnder "A" (some (exampleSkill "C"))).1.view [1, 0] =
      some (some (exampleSkill "C"), 0) := by
  decide

/-- C3: `insertUnder` returns the null pointer if and only if the tree is
non-empty and no node's skill is named `parentName`; whenever it returns the null
pointer the tree is unchanged; on the empty tree it returns, for every
`parentName`, a pointer to the root of the new tree, which is a single node
holding `s`. -/
theorem insertUnder_null_iff (t : SkillTree) (parentName : String) (s : Option Skill) :
    ((t.insertUnder parentName s).2 = none ↔
      (t.root ≠ none ∧ ∀ p n, t.nodeAt p = some n → n.hasSkillName parentName = false)) ∧
    ((t.insertUnder parentName s).2 = none → (t.insertUnder parentName s).1 = t) ∧
    (SkillTree.empty.insertUnder parentName s).2 = some [] ∧
    (SkillTree.empty.insertUnder parentName s).1.root = some (SkillTreeNode.new s) ∧
    (SkillTree.empty.insertUnder parentName s).1.view [] = some (s, 0) := by
  refine ⟨?_, ?_, rfl, rfl, rfl⟩
  · cases hroot : t.root with
    | none => simp [SkillTree.insertUnder, hroot]
    | some r =>
      cases hl : t.lastNamed parentName with
      | none =>
        have hf := hl
        rw [← findNodeBySkillName_eq_lastNamed] at hf
        have := (lastNamed_eq_none_iff t parentName).mp hl
        simp only [SkillTree.insertUnder, hroot, hf, reduceCtorEq, ne_eq, not_false_eq_true,
          true_and, true_iff]
        exact this
      | some parent =>
        obtain ⟨n, hn, hname⟩ := lastNamed_nodeAt t parentName parent hl
        have hn1 : r.nodeAt parent = some n := by simpa [SkillTree.nodeAt, hroot] using hn
        rw [insertUnder_of_lastNamed t parentName s parent n r hroot hl hn1]
        simp only [reduceCtorEq, ne_eq, not_false_eq_true, true_and, false_iff, not_forall]
        exact ⟨parent, n, hn, by simp [hname]⟩
  · cases hroot : t.root with
    | none => simp [SkillTree.insertUnder, hroot]
    | some r =>
      cases hl : t.lastNamed parentName with
      | none =>
        have hf := hl
        rw [← findNodeBySkillName_eq_lastNamed] at hf
        simp [SkillTree.insertUnder, hroot, hf]
      | some parent =>
        obtain ⟨n, hn, hname⟩ := lastNamed_nodeAt t parentName parent hl
        have hn1 : r.nodeAt parent = some n := by simpa [SkillTree.nodeAt, hroot] using hn
        rw [insertUnder_of_lastNamed t parentName s parent n r hroot hl hn1]
        simp

/-! ### Random generation -/

theorem nodeAt_append (p q : NodePath) :
    ∀ r : SkillTreeNode, r.nodeAt (p ++ q) = (r.nodeAt p).bind (fun n => n.nodeAt q) := by
  induction p with
  | nil => intro r; simp [SkillTreeNode.nodeAt]
  | cons i p ih =>
    intro r
    rw [List.cons_append, nodeAt_cons, nodeAt_cons]
    cases r.getChildren[i]? with
    | none => rfl
    | some c => simp only [Option.some_bind]; exact ih c

theorem view_past_last_child (r : SkillTreeNode) (node : NodePath) (sk : Option Skill) (i : Nat)
    (h : (r.nodeAt node).map SkillTreeNode.view = some (sk, i)) :
    (r.nodeAt (node ++ [i])).map SkillTreeNode.view = none := by
  rw [nodeAt_append]
  cases hn : r.nodeAt node with
  | none => rfl
  | some n =>
    rw [hn] at h
    simp only [Option.map_some', SkillTreeNode.view, Option.some.injEq, Prod.mk.injEq] at h
    simp only [Option.some_bind, nodeAt_cons]
    rw [List.getElem?_eq_none (by omega)]
    rfl

theorem addChildAt_view (r : SkillTreeNode) (node : NodePath) (s sk : Option Skill) (i : Nat)
    (h : (r.nodeAt node).map SkillTreeNode.view = some (sk, i)) :
    (addChildAt r node s).2 = node ++ [i] ∧
    ∀ q, ((addChildAt r node s).1.nodeAt q).map SkillTreeNode.view =
      if q = node then some (sk, i + 1)
      else if q = node ++ [i] then some (s, 0)
      else (r.nodeAt q).map SkillTreeNode.view := by
  cases hn : r.nodeAt node with
  | none => rw [hn] at h; cases h
  | some n =>
    rw [hn] at h
    simp only [Option.map_some', SkillTreeNode.view, Option.some.injEq, Prod.mk.injEq] at h
    obtain ⟨h1, h2⟩ := h
    subst h1 h2
    simp only [addChildAt, hn, SkillTreeNode.addChild, true_and]
    exact view_updateAt_addChild s node r n hn

theorem genWeight_pos (mc k : Nat) : 1 ≤ genWeight mc k := by
  cases k with
  | zero => simp [genWeight]
  | succ k => simp only [genWeight]; omega

theorem queueWeight_append (maxDepth : Int) (mc : Nat) (q1 q2 : List (NodePath × Int)) :
    queueWeight maxDepth mc (q1 ++ q2) = queueWeight maxDepth mc q1 + queueWeight maxDepth mc q2 := by
  simp [queueWeight]

theorem addChildrenLoop_spec (skillFactory : Nat → Option Skill) (node : NodePath)
    (depth maxDepth maxChildren : Int) (hmc : 0 ≤ maxChildren)
    (hdepth : depth = (node.length : Int) + 1) (hlt : depth < maxDepth) (count : Nat) :
    ∀ (st : GenState) (sk : Option Skill) (i : Nat),
      GenInv maxDepth maxChildren st.root st.queue →
      (st.root.nodeAt node).map SkillTreeNode.view = some (sk, i) →
      ((i + count : Nat) : Int) ≤ maxChildren →
      node ∉ st.queue.map Prod.fst →
      GenInv maxDepth maxChildren (addChildrenLoop skillFactory node depth count st).root
        (addChildrenLoop skillFactory node depth count st).queue ∧
      queueWeight maxDepth maxChildren.toNat
          (addChildrenLoop skillFactory node depth count st).queue =
        queueWeight maxDepth maxChildren.toNat st.queue +
          count * genWeight maxChildren.toNat (maxDepth - (depth + 1)).toNat := by
  induction count with
  | zero =>
    intro st sk i hinv _ _ _
    exact ⟨hinv, by simp [addChildrenLoop]⟩
  | succ count ih =>
    intro st sk i hinv hview hle hnotin
    obtain ⟨hchild, hviews⟩ := addChildAt_view st.root node (skillFactory st.made) sk i hview
    obtain ⟨hI1, hI2, hI3⟩ := hinv
    have hnone := view_past_last_child st.root node sk i hview
    have hne : node ++ [i] ≠ node := by
      intro h
      have := congrArg List.length h
      simp at this
    have hqueue : ∀ e ∈ st.queue, e.1 ≠ node ∧ e.1 ≠ node ++ [i] := by
      intro e he
      refine ⟨?_, ?_⟩
      · intro h
        exact hnotin (List.mem_map.mpr ⟨e, he, h⟩)
      · intro h
        obtain ⟨⟨sk1, hv⟩, _⟩ := hI2 e he
        rw [h, hnone] at hv
        cases hv
    have key : addChildrenLoop skillFactory node depth (count + 1) st =
        addChildrenLoop skillFactory node depth count
          { st with root := (addChildAt st.root node (skillFactory st.made)).1,
                    queue := st.queue ++ [(node ++ [i], depth + 1)],
                    made := st.made + 1 } := by
      conv_lhs => rw [addChildrenLoop]
      simp only [← hchild]
    rw [key]
    have hinv1 : GenInv maxDepth maxChildren (addChildAt st.root node (skillFactory st.made)).1
        (st.queue ++ [(node ++ [i], depth + 1)]) := by
      refine ⟨?_, ?_, ?_⟩
      · intro p sk1 k hp
        rw [hviews p] at hp
        by_cases h1 : p = node
        · rw [if_pos h1] at hp
          simp only [Option.some.injEq, Prod.mk.injEq] at hp
          obtain ⟨_, hk⟩ := hp
          subst h1
          refine ⟨by push_cast at hle ⊢; omega, (hI1 p sk i hview).2⟩
        · rw [if_neg h1] at hp
          by_cases h2 : p = node ++ [i]
          · rw [if_pos h2] at hp
            simp only [Option.some.injEq, Prod.mk.injEq] at hp
            obtain ⟨_, hk⟩ := hp
            subst h2
            refine ⟨by omega, ?_⟩
            simp only [List.length_append, List.length_singleton]
            push_cast
            omega
          · rw [if_neg h2] at hp
            exact hI1 p sk1 k hp
      · intro e he
        rcases List.mem_append.mp he with he | he
        · obtain ⟨hn1, hn2⟩ := hqueue e he
          rw [hviews e.1, if_neg hn1, if_neg hn2]
          exact hI2 e he
        · simp only [List.mem_singleton] at he
          subst he
          refine ⟨⟨skillFactory st.made, ?_⟩, ?_⟩
          · rw [hviews, if_neg hne, if_pos rfl]
          · simp only [List.length_append, List.length_singleton]
            push_cast
            omega
      · rw [List.map_append, List.nodup_append]
        refine ⟨hI3, by simp, ?_⟩
        intro a ha ha2
        simp only [List.map_cons, List.map_nil, List.mem_singleton] at ha2
        obtain ⟨e, he, hea⟩ := List.mem_map.mp ha
        exact (hqueue e he).2 (hea.trans ha2)
    have hview1 : ((addChildAt st.root node (skillFactory st.made)).1.nodeAt node).map
        SkillTreeNode.view = some (sk, i + 1) := by
      rw [hviews, if_pos rfl]
    have hnotin1 : node ∉ (st.queue ++ [(node ++ [i], depth + 1)]).map Prod.fst := by
      rw [List.map_append, List.mem_append]
      rintro (h | h)
      · exact hnotin h
      · simp only [List.map_cons, List.map_nil, List.mem_singleton] at h
        exact hne h.symm
    obtain ⟨hres, hw⟩ := ih
      { st with root := (addChildAt st.root node (skillFactory st.made)).1,
                queue := st.queue ++ [(node ++ [i], depth + 1)],
                made := st.made + 1 } sk (i + 1) hinv1 hview1
      (by have : i + 1 + count = i + (count + 1) := by omega
          rw [this]; exact hle) hnotin1
    refine ⟨hres, ?_⟩
    rw [hw, queueWeight_append]
    simp only [queueWeight, List.map_cons, List.map_nil, List.sum_cons, List.sum_nil]
    ring

theorem generateLoop_spec (skillFactory : Nat → Option Skill)
    (distChildren : Int → Int → Nat → Int) (maxDepth maxChildren : Int)
    (hmc : 0 ≤ maxChildren)
    (hdraw : ∀ k, 0 ≤ distChildren 0 maxChildren k ∧ distChildren 0 maxChildren k ≤ maxChildren)
    (fuel : Nat) :
    ∀ st : GenState, GenInv maxDepth maxChildren st.root st.queue →
      queueWeight maxDepth maxChildren.toNat st.queue + 1 ≤ fuel →
      ∃ st1, generateLoop skillFactory distChildren maxDepth maxChildren fuel st = some st1 ∧
        GenInv maxDepth maxChildren st1.root st1.queue := by
  induction fuel with
  | zero => intro st _ h; omega
  | succ fuel ih =>
    intro st hinv hfuel
    cases hq : st.queue with
    | nil =>
      refine ⟨st, ?_, hinv⟩
      simp only [generateLoop, hq]
    | cons e rest =>
      obtain ⟨node, depth⟩ := e
      obtain ⟨hI1, hI2, hI3⟩ := hinv
      rw [hq] at hI2 hI3 hfuel
      have hrest : GenInv maxDepth maxChildren st.root rest := by
        refine ⟨hI1, fun e he => hI2 e (List.mem_cons_of_mem _ he), ?_⟩
        simp only [List.map_cons, List.nodup_cons] at hI3
        exact hI3.2
      have hwq : queueWeight maxDepth maxChildren.toNat ((node, depth) :: rest) =
          genWeight maxChildren.toNat (maxDepth - depth).toNat +
            queueWeight maxDepth maxChildren.toNat rest := by
        simp [queueWeight]
      rw [hwq] at hfuel
      by_cases hge : depth ≥ maxDepth
      · have hpos := genWeight_pos maxChildren.toNat (maxDepth - depth).toNat
        obtain ⟨st1, hst1, hinv1⟩ := ih { st with queue := rest } hrest (by simp only; omega)
        refine ⟨st1, ?_, hinv1⟩
        simp only [generateLoop, hq, hge, if_true]
        exact hst1
      · have hlt : depth < maxDepth := by omega
        obtain ⟨⟨sk, hview⟩, hdepth⟩ := hI2 (node, depth) (List.mem_cons_self _ _)
        simp only at hview hdepth
        have hnotin : node ∉ rest.map Prod.fst := by
          simp only [List.map_cons, List.nodup_cons] at hI3
          exact hI3.1
        obtain ⟨hd0, hd1⟩ := hdraw st.drawn
        have hcount : ((0 + (distChildren 0 maxChildren st.drawn).toNat : Nat) : Int)
            ≤ maxChildren := by
          rw [Nat.zero_add, Int.toNat_of_nonneg hd0]
          exact hd1
        obtain ⟨hinv2, hw2⟩ := addChildrenLoop_spec skillFactory node depth maxDepth maxChildren
          hmc hdepth hlt (distChildren 0 maxChildren st.drawn).toNat
          { st with queue := rest, drawn := st.drawn + 1 } sk 0 hrest hview hcount hnotin
        have hk : (maxDepth - depth).toNat = (maxDepth - (depth + 1)).toNat + 1 := by omega
        have hnc : (distChildren 0 maxChildren st.drawn).toNat ≤ maxChildren.toNat := by omega
        have hmul := Nat.mul_le_mul_right
          (genWeight maxChildren.toNat (maxDepth - (depth + 1)).toNat) hnc
        rw [hk, genWeight] at hfuel
        obtain ⟨st1, hst1, hinv1⟩ := ih _ hinv2 (by rw [hw2]; simp only; omega)
        refine ⟨st1, ?_, hinv1⟩
        simp only [generateLoop, hq, hge, if_false]
        exact hst1

theorem generateStart_inv (skillFactory : Nat → Option Skill) (maxDepth maxChildren : Int)
    (hmc : 0 ≤ maxChildren) :
    GenInv maxDepth maxChildren (generateStart skillFactory).root
      (generateStart skillFactory).queue := by
  refine ⟨?_, ?_, ?_⟩
  · intro p sk k hp
    cases p with
    | nil =>
      simp only [generateStart, SkillTreeNode.new, SkillTreeNode.nodeAt, Option.map_some',
        SkillTreeNode.view, getChildren_mk, List.length_nil, Option.some.injEq,
        Prod.mk.injEq] at hp
      obtain ⟨_, hk⟩ := hp
      subst hk
      simp only [List.length_nil]
      refine ⟨by simp [hmc], ?_⟩
      exact le_max_left (1 : Int) maxDepth
    | cons i p =>
      simp [generateStart, SkillTreeNode.new, nodeAt_cons, getChildren_mk] at hp
  · intro e he
    simp only [generateStart, List.mem_singleton] at he
    subst he
    exact ⟨⟨skillFactory 0, rfl⟩, by simp⟩
  · simp [generateStart]

/-- C4, as amended: for every skill factory, every `maxDepth >= 0`, every
`maxChildren >= 0` and every sequence of child-count draws in
`[0, maxChildren]`, `generateRandom` finishes (with any fuel from `genFuel` on) and
in the tree it builds every node lies at most `maxDepth` levels below the root and
has at most `maxChildren` children. -/
theorem generateRandom_depth_and_children (skillFactory : Nat → Option Skill)
    (distChildren : Int → Int → Nat → Int) (maxDepth maxChildren : Int)
    (hmd : 0 ≤ maxDepth) (hmc : 0 ≤ maxChildren)
    (hdraw : ∀ k, 0 ≤ distChildren 0 maxChildren k ∧ distChildren 0 maxChildren k ≤ maxChildren)
    (fuel : Nat) (hfuel : genFuel maxDepth maxChildren ≤ fuel) :
    ∃ t, SkillTree.generateRandom skillFactory distChildren maxDepth maxChildren fuel = some t ∧
      t.root ≠ none ∧
      ∀ p n, t.nodeAt p = some n →
        (p.length : Int) ≤ maxDepth ∧ (n.getChildren.length : Int) ≤ maxChildren := by
  have hw : queueWeight maxDepth maxChildren.toNat (generateStart skillFactory).queue + 1
      ≤ fuel := by
    have : queueWeight maxDepth maxChildren.toNat (generateStart skillFactory).queue =
        genWeight maxChildren.toNat (maxDepth - 1).toNat := by
      simp [queueWeight, generateStart]
    rw [this]
    exact hfuel
  obtain ⟨st1, hst1, hinv, _, _⟩ := generateLoop_spec skillFactory distChildren maxDepth
    maxChildren hmc hdraw fuel (generateStart skillFactory)
    (generateStart_inv skillFactory maxDepth maxChildren hmc) hw
  refine ⟨⟨some st1.root⟩, ?_, by simp, ?_⟩
  · simp only [SkillTree.generateRandom, hst1, Option.map_some']
  · intro p n hp
    simp only [SkillTree.nodeAt] at hp
    have := hinv p n.getSkill n.getChildren.length (by rw [hp]; rfl)
    refine ⟨?_, this.1⟩
    have h2 := this.2
    rcases le_total (1 : Int) maxDepth with h | h
    · rw [max_eq_right h] at h2; omega
    · rw [max_eq_left h] at h2; omega

/-- C4, witness: the amended statement at `maxDepth = 3`, `maxChildren = 2` with
every draw equal to 2. -/
theorem generateRandom_depth_and_children_witness :
    (0 : Int) ≤ 3 ∧ (0 : Int) ≤ 2 ∧
    (∀ k, 0 ≤ drawMax 0 2 k ∧ drawMax 0 2 k ≤ 2) ∧
    genFuel 3 2 ≤ 8 ∧
    ∃ t, SkillTree.generateRandom countingFactory drawMax 3 2 8 = some t ∧
      t.root ≠ none ∧
      ∀ p n, t.nodeAt p = some n →
        (p.length : Int) ≤ 3 ∧ (n.getChildren.length : Int) ≤ 2 :=
  ⟨by decide, by decide, fun _ => ⟨(by decide : (0 : Int) ≤ 2), (by decide : (2 : Int) ≤ 2)⟩,
    by decide,
    generateRandom_depth_and_children countingFactory drawMax 3 2 (by decide) (by decide)
      (fun _ => ⟨(by decide : (0 : Int) ≤ 2), (by decide : (2 : Int) ≤ 2)⟩) 8 (by decide)⟩

/-- C4, counterexample: with `maxDepth = -1` (and `maxChildren = 2`, draws within
`[0, 2]`) `generateRandom` builds the tree that is a single root, and the root,
at depth 0 from the root, is deeper than `maxDepth`. -/
theorem generateRandom_negative_maxDepth :
    (0 : Int) ≤ 2 ∧ (∀ k, 0 ≤ drawMax 0 2 k ∧ drawMax 0 2 k ≤ 2) ∧ genFuel (-1) 2 ≤ 2 ∧
    ∃ t, SkillTree.generateRandom countingFactory drawMax (-1) 2 2 = some t ∧
      ∃ p n, t.nodeAt p = some n ∧ ¬ ((p.length : Int) ≤ -1) :=
  ⟨by decide, fun _ => ⟨(by decide : (0 : Int) ≤ 2), (by decide : (2 : Int) ≤ 2)⟩, by decide,
    ⟨some (SkillTreeNode.new (countingFactory 0))⟩, rfl, [], _, rfl, by decide⟩

/-! ### The battle simulator -/

open BattleSimulator

theorem allDead_eq_true_iff (p : Party) :
    allDead p = true ↔ ∀ c ∈ p.members, ¬ (c.hp > 0) := by
  simp only [allDead, List.all_eq_true, List.mem_range, Party.size, Party.getMember]
  constructor
  · intro h c hc
    obtain ⟨i, hi, rfl⟩ := List.mem_iff_getElem.mp hc
    have := h i hi
    simpa [List.getElem?_eq_getElem hi, Character.getHP] using this
  · intro h i hi
    have := h p.members[i] (List.getElem_mem hi)
    simpa [List.getElem?_eq_getElem hi, Character.getHP] using this

theorem allDead_eq_false_iff (p : Party) :
    allDead p = false ↔ ∃ c ∈ p.members, c.hp > 0 := by
  rw [← Bool.not_eq_true, allDead_eq_true_iff]
  push_neg
  rfl

theorem mem_aliveMembers (p : Party) (i : Nat) (c : Character) :
    (i, c) ∈ aliveMembers p ↔ p.getMember i = some c ∧ c.hp > 0 := by
  simp only [aliveMembers, List.mem_filterMap, List.mem_range, Party.size, Party.getMember,
    Character.getHP]
  constructor
  · rintro ⟨j, hj, h⟩
    rw [List.getElem?_eq_getElem hj] at h
    simp only at h
    split at h
    · simp only [Option.some.injEq, Prod.mk.injEq] at h
      obtain ⟨rfl, rfl⟩ := h
      exact ⟨List.getElem?_eq_getElem hj, by assumption⟩
    · cases h
  · rintro ⟨h, hc⟩
    have hi : i < p.members.length := by
      by_contra hge
      rw [List.getElem?_eq_none (by omega)] at h
      cases h
    refine ⟨i, hi, ?_⟩
    rw [h]
    simp [hc]

theorem randomAlive_selects_alive (p : Party) (g : Rng) (i : Nat) (c : Character)
    (h : (randomAlive p g).1 = some (i, c)) : p.getMember i = some c ∧ c.hp > 0 := by
  simp only [randomAlive] at h
  split at h
  · cases h
  · simp only [Rng.rand] at h
    exact (mem_aliveMembers p i c).mp (List.getElem?_mem h)

theorem randomAlive_of_not_allDead (p : Party) (g : Rng) (h : allDead p = false) :
    ∃ ic, randomAlive p g = (some ic, g.rand.2) := by
  obtain ⟨c, hc, hhp⟩ := (allDead_eq_false_iff p).mp h
  obtain ⟨i, hi, rfl⟩ := List.mem_iff_getElem.mp hc
  have hmem : (i, p.members[i]) ∈ aliveMembers p :=
    (mem_aliveMembers p i _).mpr ⟨List.getElem?_eq_getElem hi, hhp⟩
  have hne : aliveMembers p ≠ [] := List.ne_nil_of_mem hmem
  have hpos : 0 < (aliveMembers p).length := List.length_pos.mpr hne
  have hlt : g.stream g.pos % (aliveMembers p).length < (aliveMembers p).length :=
    Nat.mod_lt _ hpos
  refine ⟨(aliveMembers p)[g.stream g.pos % (aliveMembers p).length], ?_⟩
  simp only [randomAlive, Rng.rand]
  rw [if_neg (by simpa using hne)]
  rw [List.getElem?_eq_getElem hlt]

theorem attackBase_stream (self target : Character) (g : Rng) :
    (self.attackBase target g).2.2.stream = g.stream := rfl

theorem attack_stream (self target : Character) (g : Rng) :
    (self.attack target g).2.2.2.stream = g.stream := by
  unfold Character.attack
  split
  · unfold Character.attackWarrior
    simp only
    split <;> rfl
  · unfold Character.attackArcher
    simp only
    split <;> rfl
  · rfl

theorem simulateLoop_step (remaining turn : Nat) (a b : Party) (g : Rng)
    (attacks : List AttackEvent) (ha : allDead a = false) (hb : allDead b = false) :
    ∃ ia ib a1 b1 g1,
      g1.stream = g.stream ∧
      Selected g.stream (⟨turn, decide (turn % 2 = 0), ia, ib, a, b, g.pos⟩ : AttackEvent) ∧
      simulateLoop (remaining + 1) turn a b g attacks =
        simulateLoop remaining (turn + 1) a1 b1 g1
          (attacks ++ [(⟨turn, decide (turn % 2 = 0), ia, ib, a, b, g.pos⟩ : AttackEvent)]) := by
  obtain ⟨⟨ia, x⟩, hra⟩ := randomAlive_of_not_allDead a g ha
  obtain ⟨⟨ib, y⟩, hrb⟩ := randomAlive_of_not_allDead b g.rand.2 hb
  obtain ⟨hx, hxhp⟩ := randomAlive_selects_alive a g ia x (by rw [hra])
  obtain ⟨hy, hyhp⟩ := randomAlive_selects_alive b g.rand.2 ib y (by rw [hrb])
  have hsel : Selected g.stream (⟨turn, decide (turn % 2 = 0), ia, ib, a, b, g.pos⟩ : AttackEvent) :=
    ⟨x, y, by simp only [hra], by simp only [hra, hrb], hx, hy, hxhp, hyhp⟩
  by_cases ht : turn % 2 = 0
  · refine ⟨ia, ib, a.setMember ia (x.attack y g.rand.2.rand.2).1,
      b.setMember ib (x.attack y g.rand.2.rand.2).2.1, (x.attack y g.rand.2.rand.2).2.2.2,
      ?_, hsel, ?_⟩
    · rw [attack_stream]; rfl
    · simp only [simulateLoop, ha, hb, hra, hrb, ht, if_true, Bool.false_eq_true, if_false,
        decide_True]
  · refine ⟨ia, ib, a.setMember ia (y.attack x g.rand.2.rand.2).2.1,
      b.setMember ib (y.attack x g.rand.2.rand.2).1, (y.attack x g.rand.2.rand.2).2.2.2,
      ?_, hsel, ?_⟩
    · rw [attack_stream]; rfl
    · simp only [simulateLoop, ha, hb, hra, hrb, ht, if_false, Bool.false_eq_true,
        decide_False]

theorem simulateLoop_attacks (remaining : Nat) :
    ∀ (turn : Nat) (a b : Party) (g : Rng) (attacks : List AttackEvent),
      ∃ new : List AttackEvent,
        (simulateLoop remaining turn a b g attacks).attacks = attacks ++ new ∧
        new.length ≤ remaining ∧
        (simulateLoop remaining turn a b g attacks).turn = turn + new.length ∧
        ∀ k ev, new[k]? = some ev →
          ev.turn = turn + k ∧ ev.attackerIsA = decide ((turn + k) % 2 = 0) ∧
            Selected g.stream ev := by
  induction remaining with
  | zero =>
    intro turn a b g attacks
    exact ⟨[], by simp [simulateLoop], by simp, by simp [simulateLoop], by simp⟩
  | succ n ih =>
    intro turn a b g attacks
    cases ha : allDead a with
    | true => exact ⟨[], by simp [simulateLoop, ha], by simp, by simp [simulateLoop, ha], by simp⟩
    | false =>
      cases hb : allDead b with
      | true =>
        exact ⟨[], by simp [simulateLoop, ha, hb], by simp, by simp [simulateLoop, ha, hb],
          by simp⟩
      | false =>
        obtain ⟨ia, ib, a1, b1, g1, hg1, hsel, hstep⟩ :=
          simulateLoop_step n turn a b g attacks ha hb
        obtain ⟨new, hatt, hlen, hturn, hev⟩ := ih (turn + 1) a1 b1 g1 (attacks ++
          [(⟨turn, decide (turn % 2 = 0), ia, ib, a, b, g.pos⟩ : AttackEvent)])
        refine ⟨(⟨turn, decide (turn % 2 = 0), ia, ib, a, b, g.pos⟩ : AttackEvent) :: new, ?_, ?_, ?_, ?_⟩
        · rw [hstep, hatt]; simp
        · simp; omega
        · rw [hstep, hturn]; simp; omega
        · intro k ev hk
          cases k with
          | zero =>
            simp only [List.getElem?_cons_zero, Option.some.injEq] at hk
            subst hk
            exact ⟨rfl, rfl, hsel⟩
          | succ k =>
            simp only [List.getElem?_cons_succ] at hk
            obtain ⟨h1, h2, h3⟩ := hev k ev hk
            refine ⟨by omega, ?_, hg1 ▸ h3⟩
            rw [h2]
            congr 2
            omega

theorem simulateLoop_allDead_a (remaining turn : Nat) (a b : Party) (g : Rng)
    (attacks : List AttackEvent) (ha : allDead a = true) :
    simulateLoop (remaining + 1) turn a b g attacks =
      { result := BattleResult.partyADefeated, a := a, b := b, rng := g, turn := turn,
        attacks := attacks } := by
  simp only [simulateLoop, ha, if_true]

theorem simulateLoop_allDead_b (remaining turn : Nat) (a b : Party) (g : Rng)
    (attacks : List AttackEvent) (ha : allDead a = false) (hb : allDead b = true) :
    simulateLoop (remaining + 1) turn a b g attacks =
      { result := BattleResult.partyBDefeated, a := a, b := b, rng := g, turn := turn,
        attacks := attacks } := by
  simp only [simulateLoop, ha, hb, if_true, Bool.false_eq_true, if_false]

theorem simulate_eq (a b : Party) (g : Rng) :
    simulate a b g = simulateLoop (49 + 1) 0 a b g [] := rfl

/-- C5, as amended: when party A consists of a single member with 0 HP,
`simulate` stops at the first check of its first iteration with "Party A
defeated"; when party B consists of a single member with 0 HP it stops at the
second check of the first iteration with "Party B defeated" provided party A has
a living member, and at the first check with "Party A defeated" when party A has
none. In every one of these cases no attack is issued, no draw is made, the turn
counter stays 0 and both parties are unchanged. -/
theorem simulate_dead_singleton (a b : Party) (g : Rng) (c : Character)
    (hc : c.getHP = 0) (h : a.members = [c] ∨ b.members = [c]) :
    (simulate a b g).attacks = [] ∧ (simulate a b g).turn = 0 ∧
    (simulate a b g).a = a ∧ (simulate a b g).b = b ∧ (simulate a b g).rng = g ∧
    (a.members = [c] → (simulate a b g).result = BattleResult.partyADefeated) ∧
    (b.members = [c] → (∃ x ∈ a.members, x.getHP > 0) →
      (simulate a b g).result = BattleResult.partyBDefeated) ∧
    (b.members = [c] → (∀ x ∈ a.members, ¬ x.getHP > 0) →
      (simulate a b g).result = BattleResult.partyADefeated) := by
  have hdead : ∀ p : Party, p.members = [c] → allDead p = true := by
    intro p hp
    rw [allDead_eq_true_iff, hp]
    intro x hx
    simp only [List.mem_singleton] at hx
    subst hx
    simp only [Character.getHP] at hc
    omega
  cases hA : allDead a with
  | true =>
    have hno : ¬ ∃ x ∈ a.members, x.getHP > 0 := by
      intro hex
      have := (allDead_eq_false_iff a).mpr hex
      rw [hA] at this
      cases this
    rw [simulate_eq, simulateLoop_allDead_a 49 0 a b g [] hA]
    exact ⟨rfl, rfl, rfl, rfl, rfl, fun _ => rfl, fun _ hex => absurd hex hno, fun _ _ => rfl⟩
  | false =>
    have hB : b.members = [c] := by
      rcases h with h | h
      · rw [hdead a h] at hA; cases hA
      · exact h
    have hna : ¬ a.members = [c] := by
      intro h1; rw [hdead a h1] at hA; cases hA
    have hall : ¬ ∀ x ∈ a.members, ¬ x.getHP > 0 := by
      intro hall
      have := (allDead_eq_true_iff a).mpr hall
      rw [hA] at this
      cases this
    rw [simulate_eq, simulateLoop_allDead_b 49 0 a b g [] hA (hdead b hB)]
    exact ⟨rfl, rfl, rfl, rfl, rfl, fun h1 => absurd h1 hna, fun _ _ => rfl,
      fun _ h2 => absurd h2 hall⟩

/-- C5, witness: a fresh warrior against a party whose only member has 0 HP. -/
theorem simulate_dead_singleton_witness :
    (fighter "Orc" 0).getHP = 0 ∧
    (partyThorin.members = [fighter "Orc" 0] ∨ partyFallen.members = [fighter "Orc" 0]) ∧
    (simulate partyThorin partyFallen zeroRng).attacks = [] ∧
    (simulate partyThorin partyFallen zeroRng).turn = 0 ∧
    (simulate partyThorin partyFallen zeroRng).a = partyThorin ∧
    (simulate partyThorin partyFallen zeroRng).b = partyFallen ∧
    (simulate partyThorin partyFallen zeroRng).rng = zeroRng ∧
    (partyThorin.members = [fighter "Orc" 0] →
      (simulate partyThorin partyFallen zeroRng).result = BattleResult.partyADefeated) ∧
    (partyFallen.members = [fighter "Orc" 0] → (∃ x ∈ partyThorin.members, x.getHP > 0) →
      (simulate partyThorin partyFallen zeroRng).result = BattleResult.partyBDefeated) ∧
    (partyFallen.members = [fighter "Orc" 0] → (∀ x ∈ partyThorin.members, ¬ x.getHP > 0) →
      (simulate partyThorin partyFallen zeroRng).result = BattleResult.partyADefeated) :=
  ⟨by decide, Or.inr (by decide),
    simulate_dead_singleton partyThorin partyFallen zeroRng (fighter "Orc" 0) (by decide)
      (Or.inr (by decide))⟩

/-- C5, counterexample: party B consists of a single member with 0 HP and party A
has no member at all; `simulate` reports "Party A defeated", not party B's
defeat. -/
theorem simulate_dead_singleton_reports_A :
    partyFallen.members.map Character.getHP = [0] ∧
    (simulate partyNobody partyFallen zeroRng).result = BattleResult.partyADefeated ∧
    (simulate partyNobody partyFallen zeroRng).result ≠ BattleResult.partyBDefeated := by
  decide

/-- C6: `randomAlive` only ever returns a pointer to a member whose HP is
positive, and in every turn in which `simulate` issues an attack the attacker
and the target are the two results of `randomAlive` on the parties as they are
at that moment, both with HP > 0. -/
theorem simulate_never_selects_dead (a b : Party) (g : Rng) :
    (∀ (p : Party) (g1 : Rng) (i : Nat) (c : Character),
      (randomAlive p g1).1 = some (i, c) → p.getMember i = some c ∧ c.getHP > 0) ∧
    (∀ ev ∈ (simulate a b g).attacks, Selected g.stream ev) := by
  refine ⟨fun p g1 i c h => randomAlive_selects_alive p g1 i c h, ?_⟩
  intro ev hev
  obtain ⟨new, hatt, _, _, hsel⟩ := simulateLoop_attacks 50 0 a b g []
  simp only [simulate, hatt, List.nil_append] at hev
  obtain ⟨k, hk⟩ := List.mem_iff_getElem?.mp hev
  exact (hsel k ev hk).2.2

/-- C6, witness: the attack of turn 0 of a fresh warrior against a member with one
hit point. -/
theorem simulate_never_selects_dead_witness :
    firstStrike ∈ (simulate partyThorin partyWeak zeroRng).attacks ∧
    Selected zeroRng.stream firstStrike :=
  ⟨by decide, (simulate_never_selects_dead partyThorin partyWeak zeroRng).2 firstStrike
    (by decide)⟩

/-- C7, the code at the failing input: one plain character with 175 HP against
one with 1000 HP and all draws 0. Every attack deals 7, the 25th attack of side B
is the attack of turn 49 and takes the last hit points of side A; the loop ends on
the turn cap and `simulate` logs "Battle ended after max turns." although party A
has no living member. -/
theorem simulate_max_turns_with_dead_party :
    (simulate partyLasting partySturdy zeroRng).result = BattleResult.maxTurnsReached ∧
    (simulate partyLasting partySturdy zeroRng).turn = 50 ∧
    (simulate partyLasting partySturdy zeroRng).attacks.length = 50 ∧
    (simulate partyLasting partySturdy zeroRng).a.members.map Character.getHP = [0] ∧
    allDead (simulate partyLasting partySturdy zeroRng).a = true := by
  decide

theorem simulateLoop_turn (remaining turn : Nat) (a b : Party) (g : Rng)
    (attacks : List AttackEvent) (ha : allDead a = false) (hb : allDead b = false) :
    ∃ a1 b1 g1 ev,
      AttackTurn turn a b g a1 b1 g1 ev ∧
      simulateLoop (remaining + 1) turn a b g attacks =
        simulateLoop remaining (turn + 1) a1 b1 g1 (attacks ++ [ev]) := by
  obtain ⟨⟨ia, x⟩, hra⟩ := randomAlive_of_not_allDead a g ha
  obtain ⟨⟨ib, y⟩, hrb⟩ := randomAlive_of_not_allDead b g.rand.2 hb
  obtain ⟨hx, hxhp⟩ := randomAlive_selects_alive a g ia x (by rw [hra])
  obtain ⟨hy, hyhp⟩ := randomAlive_selects_alive b g.rand.2 ib y (by rw [hrb])
  by_cases ht : turn % 2 = 0
  · refine ⟨a.setMember ia (x.attack y g.rand.2.rand.2).1,
      b.setMember ib (x.attack y g.rand.2.rand.2).2.1, (x.attack y g.rand.2.rand.2).2.2.2,
      (⟨turn, decide (turn % 2 = 0), ia, ib, a, b, g.pos⟩ : AttackEvent), ?_, ?_⟩
    · exact ⟨ia, ib, x, y, g.rand.2, g.rand.2.rand.2, hra, hrb, hx, hy, hxhp, hyhp, rfl,
        fun _ => ⟨rfl, rfl, rfl⟩, fun h1 => by omega⟩
    · simp only [simulateLoop, ha, hb, hra, hrb, ht, if_true, Bool.false_eq_true, if_false,
        decide_True]
  · refine ⟨a.setMember ia (y.attack x g.rand.2.rand.2).2.1,
      b.setMember ib (y.attack x g.rand.2.rand.2).1, (y.attack x g.rand.2.rand.2).2.2.2,
      (⟨turn, decide (turn % 2 = 0), ia, ib, a, b, g.pos⟩ : AttackEvent), ?_, ?_⟩
    · exact ⟨ia, ib, x, y, g.rand.2, g.rand.2.rand.2, hra, hrb, hx, hy, hxhp, hyhp, rfl,
        fun h0 => absurd h0 ht, fun _ => ⟨rfl, rfl, rfl⟩⟩
    · simp only [simulateLoop, ha, hb, hra, hrb, ht, if_false, Bool.false_eq_true,
        decide_False]

theorem simulateLoop_chain (remaining : Nat) :
    ∀ (turn : Nat) (a b : Party) (g : Rng) (attacks : List AttackEvent),
      ∃ (new : List AttackEvent) (st : Nat → Party × Party × Rng),
        (simulateLoop remaining turn a b g attacks).attacks = attacks ++ new ∧
        new.length ≤ remaining ∧
        (simulateLoop remaining turn a b g attacks).turn = turn + new.length ∧
        (new.length < remaining →
          allDead (simulateLoop remaining turn a b g attacks).a = true ∨
          allDead (simulateLoop remaining turn a b g attacks).b = true) ∧
        st 0 = (a, b, g) ∧
        st new.length = ((simulateLoop remaining turn a b g attacks).a,
          (simulateLoop remaining turn a b g attacks).b,
          (simulateLoop remaining turn a b g attacks).rng) ∧
        ∀ k ev, new[k]? = some ev →
          allDead (st k).1 = false ∧ allDead (st k).2.1 = false ∧
          AttackTurn (turn + k) (st k).1 (st k).2.1 (st k).2.2
            (st (k + 1)).1 (st (k + 1)).2.1 (st (k + 1)).2.2 ev := by
  induction remaining with
  | zero =>
    intro turn a b g attacks
    exact ⟨[], fun _ => (a, b, g), by simp [simulateLoop], by simp, by simp [simulateLoop],
      by simp, rfl, by simp [simulateLoop], by simp⟩
  | succ n ih =>
    intro turn a b g attacks
    cases ha : allDead a with
    | true =>
      rw [simulateLoop_allDead_a n turn a b g attacks ha]
      exact ⟨[], fun _ => (a, b, g), by simp, by simp, by simp, fun _ => Or.inl ha, rfl, rfl,
        by simp⟩
    | false =>
      cases hb : allDead b with
      | true =>
        rw [simulateLoop_allDead_b n turn a b g attacks ha hb]
        exact ⟨[], fun _ => (a, b, g), by simp, by simp, by simp, fun _ => Or.inr hb, rfl, rfl,
          by simp⟩
      | false =>
        obtain ⟨a1, b1, g1, ev, hturn, hstep⟩ := simulateLoop_turn n turn a b g attacks ha hb
        obtain ⟨new, st, hatt, hlen, htn, hdead, h0, hlast, hev⟩ :=
          ih (turn + 1) a1 b1 g1 (attacks ++ [ev])
        rw [hstep]
        refine ⟨ev :: new, fun k => match k with | 0 => (a, b, g) | j + 1 => st j,
          ?_, ?_, ?_, ?_, rfl, ?_, ?_⟩
        · rw [hatt]; simp
        · simp only [List.length_cons]; omega
        · rw [htn]; simp only [List.length_cons]; omega
        · intro hlt
          simp only [List.length_cons] at hlt
          exact hdead (by omega)
        · simp only [List.length_cons]
          exact hlast
        · intro k e hk
          cases k with
          | zero =>
            simp only [List.getElem?_cons_zero, Option.some.injEq] at hk
            subst hk
            simp only [Nat.add_zero, h0]
            exact ⟨ha, hb, hturn⟩
          | succ k =>
            simp only [List.getElem?_cons_succ] at hk
            obtain ⟨h1, h2, h3⟩ := hev k e hk
            refine ⟨h1, h2, ?_⟩
            have e1 : turn + (k + 1) = turn + 1 + k := by omega
            rw [e1]
            exact h3

/-- C8: `simulate` returns for every pair of parties and every sequence of draws,
after at most 50 attacks, one per counted turn, and it stops before 50 only
because a party has no living member. The states `st 0`, `st 1`, ... at the
start of the turns begin with the arguments and end with what `simulate` leaves;
in the turn `k` both parties have a living member, `randomAlive` picks a living
member of each, and the step from `st k` to `st (k + 1)` is exactly the one call
`attack` of the pick of party A on the pick of party B when `k` is even, and of
the pick of party B on the pick of party A when `k` is odd. -/
theorem simulate_attacks_alternate (a b : Party) (g : Rng) :
    (simulate a b g).attacks.length ≤ 50 ∧
    (simulate a b g).turn = (simulate a b g).attacks.length ∧
    ((simulate a b g).attacks.length < 50 →
      allDead (simulate a b g).a = true ∨ allDead (simulate a b g).b = true) ∧
    ∃ st : Nat → Party × Party × Rng,
      st 0 = (a, b, g) ∧
      st (simulate a b g).attacks.length =
        ((simulate a b g).a, (simulate a b g).b, (simulate a b g).rng) ∧
      ∀ k ev, (simulate a b g).attacks[k]? = some ev →
        allDead (st k).1 = false ∧ allDead (st k).2.1 = false ∧
        AttackTurn k (st k).1 (st k).2.1 (st k).2.2
          (st (k + 1)).1 (st (k + 1)).2.1 (st (k + 1)).2.2 ev := by
  obtain ⟨new, st, hatt, hlen, hturn, hdead, h0, hlast, hev⟩ :=
    simulateLoop_chain 50 0 a b g []
  simp only [List.nil_append, Nat.zero_add] at hatt hturn hev
  simp only [simulate, hatt]
  refine ⟨hlen, hturn, hdead, st, h0, hlast, hev⟩

/-- C8, witness: in the battle of a fresh warrior against a member with one hit
point there is exactly one attack; it is the attack of turn 0, made by the warrior
of side A on the member of side B, and it leads from the arguments to the state
`simulate` leaves. -/
theorem simulate_attacks_alternate_witness :
    (simulate partyThorin partyWeak zeroRng).attacks.length = 1 ∧
    ∃ ev a1 b1 g1,
      (simulate partyThorin partyWeak zeroRng).attacks[0]? = some ev ∧
      (a1, b1, g1) = ((simulate partyThorin partyWeak zeroRng).a,
        (simulate partyThorin partyWeak zeroRng).b,
        (simulate partyThorin partyWeak zeroRng).rng) ∧
      AttackTurn 0 partyThorin partyWeak zeroRng a1 b1 g1 ev := by
  have hlen : (simulate partyThorin partyWeak zeroRng).attacks.length = 1 := by decide
  obtain ⟨_, _, _, st, h0, hlast, hev⟩ :=
    simulate_attacks_alternate partyThorin partyWeak zeroRng
  have hlt : 0 < (simulate partyThorin partyWeak zeroRng).attacks.length := by omega
  obtain ⟨_, _, hturn⟩ := hev 0 _ (List.getElem?_eq_getElem hlt)
  rw [hlen] at hlast
  rw [h0] at hturn
  refine ⟨hlen, _, (st 1).1, (st 1).2.1, (st 1).2.2, List.getElem?_eq_getElem hlt, hlast, ?_⟩
  exact hturn

/-- C10: `takeDamage(d)` sets HP to `max(0, h - d)` and changes no other member;
for `d >= h` the HP afterwards is exactly 0, and HP is never negative after
`takeDamage`. -/
theorem takeDamage_floor (c : Character) (d : Int) :
    c.takeDamage d = { c with hp := max 0 (c.hp - d) } ∧
    (d ≥ c.hp → (c.takeDamage d).getHP = 0) ∧
    0 ≤ (c.takeDamage d).getHP := by
  have h : (if c.hp - d < 0 then 0 else c.hp - d) = max 0 (c.hp - d) := by
    split <;> omega
  refine ⟨?_, ?_, ?_⟩
  · simp only [Character.takeDamage, h]
  · intro hd
    simp only [Character.takeDamage, Character.getHP, h]
    omega
  · simp only [Character.takeDamage, Character.getHP, h]
    omega

theorem simulateLoop_even_step (remaining turn : Nat) (a b : Party) (g g1 g2 : Rng)
    (attacks : List AttackEvent) (ia ib : Nat) (x y : Character)
    (ha : allDead a = false) (hb : allDead b = false)
    (hra : randomAlive a g = (some (ia, x), g1)) (hrb : randomAlive b g1 = (some (ib, y), g2))
    (ht : turn % 2 = 0) :
    simulateLoop (remaining + 1) turn a b g attacks =
      simulateLoop remaining (turn + 1) (a.setMember ia (x.attack y g2).1)
        (b.setMember ib (x.attack y g2).2.1) (x.attack y g2).2.2.2
        (attacks ++ [(⟨turn, true, ia, ib, a, b, g.pos⟩ : AttackEvent)]) := by
  simp only [simulateLoop, ha, hb, hra, hrb, ht, if_true, Bool.false_eq_true, if_false,
    decide_True]

theorem allDead_singleton (c : Character) :
    allDead ⟨[c]⟩ = !(decide (c.hp > 0)) := by
  simp [allDead, Party.size, Party.getMember, Character.getHP, List.range_succ]

theorem randomAlive_singleton (c : Character) (g : Rng) (h : c.hp > 0) :
    randomAlive ⟨[c]⟩ g = (some (0, c), g.rand.2) := by
  simp [randomAlive, aliveMembers, Party.size, Party.getMember, Character.getHP, h, Rng.rand,
    List.range_succ, Nat.mod_one]

theorem warrior_attack_one_hp (n : String) (b : Character) (g : Rng)
    (hhp : b.hp = 1) (hdef : b.defense = 5) :
    (Warrior.new n).attack b g =
      ({ Warrior.new n with cls := CharacterClass.warrior 10 }, { b with hp := 0 },
        12 + Int.tmod (g.stream g.pos : Int) 4, g.rand.2) := by
  have h0 : 0 ≤ Int.tmod (g.stream g.pos : Int) 4 := Int.tmod_nonneg _ (Int.ofNat_nonneg _)
  simp only [Character.attack, Warrior.new, Character.new, Character.attackWarrior,
    Character.attackBase, Character.getDefense, Character.takeDamage, Rng.rand, hdef, hhp]
  norm_num
  refine ⟨fun h => by omega, ?_⟩
  rw [max_eq_right (by omega)]
  omega

/-- C9: for party A made of one fresh warrior (attack power 15, defense 8, level
1, 100 HP) and party B made of one character with defense 5 and 1 HP, whatever
the draws are: the warrior's attack deals at least 12 and leaves the target with
exactly 0 HP, and `simulate` issues exactly one attack, the attack of turn 0 by
side A, then reports "Party B defeated" at the second check of turn 1, with the
warrior's HP still 100 (only its rage moved, to 10). -/
theorem simulate_warrior_defeats_one_hp (n : String) (b : Character) (g : Rng)
    (hhp : b.hp = 1) (hdef : b.defense = 5) :
    (∀ g1 : Rng, 12 ≤ ((Warrior.new n).attack b g1).2.2.1 ∧
      ((Warrior.new n).attack b g1).2.1.getHP = 0) ∧
    (simulate ⟨[Warrior.new n]⟩ ⟨[b]⟩ g).result = BattleResult.partyBDefeated ∧
    (simulate ⟨[Warrior.new n]⟩ ⟨[b]⟩ g).attacks =
      [(⟨0, true, 0, 0, ⟨[Warrior.new n]⟩, ⟨[b]⟩, g.pos⟩ : AttackEvent)] ∧
    (simulate ⟨[Warrior.new n]⟩ ⟨[b]⟩ g).turn = 1 ∧
    (simulate ⟨[Warrior.new n]⟩ ⟨[b]⟩ g).b = ⟨[{ b with hp := 0 }]⟩ ∧
    (simulate ⟨[Warrior.new n]⟩ ⟨[b]⟩ g).a =
      ⟨[{ Warrior.new n with cls := CharacterClass.warrior 10 }]⟩ ∧
    (simulate ⟨[Warrior.new n]⟩ ⟨[b]⟩ g).a.members.map Character.getHP = [100] := by
  have hw : (Warrior.new n).hp > 0 := by
    show (100 : Int) > 0
    decide
  have hb : b.hp > 0 := by omega
  have hAd : allDead ⟨[Warrior.new n]⟩ = false := by
    rw [allDead_singleton]; simp [hw]
  have hBd : allDead ⟨[b]⟩ = false := by
    rw [allDead_singleton]; simp [hb]
  have hstep := simulateLoop_even_step 49 0 ⟨[Warrior.new n]⟩ ⟨[b]⟩ g g.rand.2 g.rand.2.rand.2 []
    0 0 (Warrior.new n) b hAd hBd (randomAlive_singleton _ g hw)
    (randomAlive_singleton _ g.rand.2 hb) rfl
  rw [warrior_attack_one_hp n b _ hhp hdef] at hstep
  have hAd1 : allDead (Party.setMember ⟨[Warrior.new n]⟩ 0
      { Warrior.new n with cls := CharacterClass.warrior 10 }) = false := by
    simp only [Party.setMember, List.set_cons_zero]
    rw [allDead_singleton]
    show (!decide ((100 : Int) > 0)) = false
    decide
  have hBd1 : allDead (Party.setMember ⟨[b]⟩ 0 { b with hp := 0 }) = true := by
    simp only [Party.setMember, List.set_cons_zero]
    rw [allDead_singleton]
    show (!decide ((0 : Int) > 0)) = true
    decide
  rw [simulateLoop_allDead_b 48 1 _ _ _ _ hAd1 hBd1] at hstep
  refine ⟨?_, ?_⟩
  · intro g1
    rw [warrior_attack_one_hp n b g1 hhp hdef]
    have h0 : 0 ≤ Int.tmod (g1.stream g1.pos : Int) 4 := Int.tmod_nonneg _ (Int.ofNat_nonneg _)
    exact ⟨by simp only; omega, rfl⟩
  · rw [simulate_eq, hstep]
    exact ⟨rfl, rfl, rfl, rfl, rfl, rfl⟩

/-- C9, witness: the warrior "Thorin" against a plain character brought down to
one hit point, with all draws 0. -/
theorem simulate_warrior_defeats_one_hp_witness :
    (fighter "Orc" 1).hp = 1 ∧ (fighter "Orc" 1).defense = 5 ∧
    (simulate ⟨[Warrior.new "Thorin"]⟩ ⟨[fighter "Orc" 1]⟩ zeroRng).result =
      BattleResult.partyBDefeated ∧
    (simulate ⟨[Warrior.new "Thorin"]⟩ ⟨[fighter "Orc" 1]⟩ zeroRng).attacks.length = 1 ∧
    (simulate ⟨[Warrior.new "Thorin"]⟩ ⟨[fighter "Orc" 1]⟩ zeroRng).a.members.map
      Character.getHP = [100] := by
  have h := simulate_warrior_defeats_one_hp "Thorin" (fighter "Orc" 1) zeroRng (by decide)
    (by decide)
  refine ⟨by decide, by decide, h.2.1, ?_, h.2.2.2.2.2.2⟩
  rw [h.2.2.1]
  rfl

/-! ### Attacks, rage and skill use -/

theorem takeDamage_eq (c : Character) (d : Int) :
    c.takeDamage d = { c with hp := max 0 (c.hp - d) } := by
  have h : (if c.hp - d < 0 then 0 else c.hp - d) = max 0 (c.hp - d) := by
    split <;> omega
  simp only [Character.takeDamage, h]

/-- C11: `Character::attack` draws the variance `v = rand() % (level + 3)`, which
lies in `0..level+2` (for `level + 3 > 0`), returns the damage
`max(0, attackPower + 2*level + v - target.defense)` and leaves the target with
HP `max(0, oldHP - damage)` and every other member as before; the call on a plain
character or a mage (the classes that do not override `attack`) returns the
attacker unchanged. -/
theorem attackBase_damage (self target : Character) (g : Rng) :
    (0 < self.level + 3 →
      0 ≤ Int.tmod (g.stream g.pos : Int) (self.level + 3) ∧
      Int.tmod (g.stream g.pos : Int) (self.level + 3) ≤ self.level + 2) ∧
    (self.attackBase target g).2.1 =
      max 0 (self.attackPower + 2 * self.level
        + Int.tmod (g.stream g.pos : Int) (self.level + 3) - target.defense) ∧
    (self.attackBase target g).1 =
      { target with hp := max 0 (target.hp - (self.attackBase target g).2.1) } ∧
    (self.attackBase target g).2.2 = g.rand.2 ∧
    ((self.cls = CharacterClass.base ∨ ∃ sp, self.cls = CharacterClass.mage sp) →
      self.attack target g =
        (self, (self.attackBase target g).1, (self.attackBase target g).2.1,
          (self.attackBase target g).2.2)) := by
  refine ⟨?_, ?_, ?_, rfl, ?_⟩
  · intro h
    have h1 := Int.tmod_nonneg (self.level + 3) (Int.ofNat_nonneg (g.stream g.pos))
    have h2 := Int.tmod_lt_of_pos (g.stream g.pos : Int) h
    exact ⟨h1, by omega⟩
  · simp only [Character.attackBase, Rng.rand, Character.getDefense]
    congr 1
    ring
  · simp only [Character.attackBase, Rng.rand]
    exact takeDamage_eq _ _
  · rintro (h | ⟨sp, h⟩) <;> simp only [Character.attack, h]

theorem attackWarrior_rage (self target : Character) (r : Int) (g : Rng) :
    (50 ≤ min 100 (r + 10) →
      (self.attackWarrior target r g).1 = { self with cls := CharacterClass.warrior 0 } ∧
      (self.attackWarrior target r g).2.1 =
        ((self.attackBase target g).1).takeDamage (5 + self.level) ∧
      (self.attackWarrior target r g).2.2.1 = (self.attackBase target g).2.1 + (5 + self.level)) ∧
    (min 100 (r + 10) < 50 →
      (self.attackWarrior target r g).1 =
        { self with cls := CharacterClass.warrior (min 100 (r + 10)) } ∧
      (self.attackWarrior target r g).2.1 = (self.attackBase target g).1 ∧
      (self.attackWarrior target r g).2.2.1 = (self.attackBase target g).2.1) := by
  constructor
  · intro h
    simp only [Character.attackWarrior, ge_iff_le, h, if_true, and_self]
  · intro h
    have h1 : ¬ (50 ≤ min 100 (r + 10)) := by omega
    simp only [Character.attackWarrior, ge_iff_le, h1, if_false, and_self]

theorem WarriorOp_run_rage (w : Character) (r : Int) (hw : w.cls = CharacterClass.warrior r)
    (hr : 0 ≤ r ∧ r ≤ 100) (op : WarriorOp) :
    ∃ r1, (op.run w).cls = CharacterClass.warrior r1 ∧ 0 ≤ r1 ∧ r1 ≤ 100 := by
  cases op with
  | attack target g =>
    simp only [WarriorOp.run, Character.attack, hw]
    by_cases h : 50 ≤ min 100 (r + 10)
    · rw [((attackWarrior_rage w target r g).1 h).1]
      exact ⟨0, rfl, by omega, by omega⟩
    · rw [((attackWarrior_rage w target r g).2 (by omega)).1]
      exact ⟨min 100 (r + 10), rfl, by omega, by omega⟩
  | levelUp => exact ⟨r, by simp only [WarriorOp.run, Character.levelUp, hw], hr⟩
  | takeDamage d => exact ⟨r, by simp only [WarriorOp.run, Character.takeDamage, hw], hr⟩
  | battleShout => exact ⟨r, by simp only [WarriorOp.run, Character.battleShout, hw], hr⟩
  | equipSkill s => exact ⟨r, by simp only [WarriorOp.run, Character.equipSkill, hw], hr⟩
  | useSkill idx target g =>
    exact ⟨r, by simp only [WarriorOp.run, Character.useSkill, hw], hr⟩
  | addItem it => exact ⟨r, by simp only [WarriorOp.run, hw], hr⟩
  | removeItem n => exact ⟨r, by simp only [WarriorOp.run, hw], hr⟩

theorem warrior_reachable_rage (n : String) (ops : List WarriorOp) :
    ∃ r, (ops.foldl WarriorOp.run (Warrior.new n)).cls = CharacterClass.warrior r ∧
      0 ≤ r ∧ r ≤ 100 := by
  induction ops using List.reverseRecOn with
  | nil => exact ⟨0, rfl, by omega, by omega⟩
  | append_singleton ops op ih =>
    obtain ⟨r, hr, h0, h1⟩ := ih
    rw [List.foldl_append]
    exact WarriorOp_run_rage _ r hr ⟨h0, h1⟩ op

/-- C12: every warrior reached from the constructor by any sequence of calls of
its public members (`attack`, `levelUp`, `takeDamage`, `battleShout`,
`equipSkill`, `useSkill`, inventory changes) has a rage counter between 0 and 100;
and an attack of such a warrior in which the rage bonus is triggered (the rage
raised by 10 and capped at 100 is at least 50) hands `5 + level` to the target as
a further `takeDamage`, returns the base damage plus `5 + level` and leaves the
rage counter at exactly 0. -/
theorem warrior_rage_bounds (n : String) (ops : List WarriorOp) (target : Character)
    (g : Rng) :
    (0 ≤ (ops.foldl WarriorOp.run (Warrior.new n)).rage ∧
      (ops.foldl WarriorOp.run (Warrior.new n)).rage ≤ 100) ∧
    (∃ r, (ops.foldl WarriorOp.run (Warrior.new n)).cls = CharacterClass.warrior r) ∧
    (50 ≤ min 100 ((ops.foldl WarriorOp.run (Warrior.new n)).rage + 10) →
      (((ops.foldl WarriorOp.run (Warrior.new n)).attack target g).1).rage = 0 ∧
      ((ops.foldl WarriorOp.run (Warrior.new n)).attack target g).2.1 =
        (((ops.foldl WarriorOp.run (Warrior.new n)).attackBase target g).1).takeDamage
          (5 + (ops.foldl WarriorOp.run (Warrior.new n)).level) ∧
      ((ops.foldl WarriorOp.run (Warrior.new n)).attack target g).2.2.1 =
        ((ops.foldl WarriorOp.run (Warrior.new n)).attackBase target g).2.1 +
          (5 + (ops.foldl WarriorOp.run (Warrior.new n)).level)) := by
  obtain ⟨r, hr, h0, h1⟩ := warrior_reachable_rage n ops
  generalize ops.foldl WarriorOp.run (Warrior.new n) = w at hr ⊢
  have hrage : w.rage = r := by simp only [Character.rage, hr]
  refine ⟨by rw [hrage]; exact ⟨h0, h1⟩, ⟨r, hr⟩, ?_⟩
  intro h
  rw [hrage] at h
  obtain ⟨ha, hb, hc⟩ := (attackWarrior_rage w target r g).1 h
  simp only [Character.attack, hr]
  refine ⟨?_, hb, hc⟩
  rw [ha]
  rfl

/-- C12, witness: after four attacks of a fresh warrior the rage is 40, and the
fifth attack triggers the bonus and leaves the rage at 0. -/
theorem warrior_rage_bounds_witness :
    (50 ≤ min 100 (((List.replicate 4 (WarriorOp.attack (fighter "Orc" 1000) zeroRng)).foldl
      WarriorOp.run (Warrior.new "Thorin")).rage + 10)) ∧
    ((((List.replicate 4 (WarriorOp.attack (fighter "Orc" 1000) zeroRng)).foldl
      WarriorOp.run (Warrior.new "Thorin")).attack (fighter "Orc" 1000) zeroRng).1).rage = 0 :=
  ⟨by decide,
    ((warrior_rage_bounds "Thorin" (List.replicate 4 (WarriorOp.attack (fighter "Orc" 1000) zeroRng))
      (fighter "Orc" 1000) zeroRng).2.2 (by decide)).1⟩

/-- C13: `Mage::useSkill` on a valid index whose skill has effective power `p`,
with `cost = max(5, p / 3)` (the quotient rounded toward zero): when the mana is at
least the cost, the mana is lowered by exactly the cost, nothing else of the mage
changes and the target is what the skill's `apply` leaves; when the mana is below
the cost, or the index is past the end, the mage, the target and `rand()` are all
unchanged. The virtual call on a mage runs this body. -/
theorem useSkillMage_spec (self target : Character) (idx : Nat) (g : Rng) :
    (∀ sk, self.ownedSkills[idx]? = some sk →
      max 5 (Int.tdiv sk.effectivePower 3) ≤ self.mana →
      self.useSkillMage idx target g =
        ({ self with mana := self.mana - max 5 (Int.tdiv sk.effectivePower 3) },
          (sk.apply target g).1, (sk.apply target g).2)) ∧
    (∀ sk, self.ownedSkills[idx]? = some sk →
      self.mana < max 5 (Int.tdiv sk.effectivePower 3) →
      self.useSkillMage idx target g = (self, target, g)) ∧
    (self.ownedSkills.length ≤ idx → self.useSkillMage idx target g = (self, target, g)) ∧
    (∀ sp, self.cls = CharacterClass.mage sp →
      self.useSkill idx target g = self.useSkillMage idx target g) := by
  refine ⟨?_, ?_, ?_, ?_⟩
  · intro sk hsk hm
    have hlt : ¬ (idx ≥ self.skillCount) := by
      intro hge
      rw [List.getElem?_eq_none (by simpa [Character.skillCount] using hge)] at hsk
      cases hsk
    have hm1 : ¬ (self.mana < max 5 (Int.tdiv sk.effectivePower 3)) := by omega
    simp only [Character.useSkillMage, hlt, if_false, hsk, hm1]
  · intro sk hsk hm
    have hlt : ¬ (idx ≥ self.skillCount) := by
      intro hge
      rw [List.getElem?_eq_none (by simpa [Character.skillCount] using hge)] at hsk
      cases hsk
    simp only [Character.useSkillMage, hlt, if_false, hsk, hm, if_true]
  · intro h
    have hge : idx ≥ self.skillCount := by simpa [Character.skillCount] using h
    simp only [Character.useSkillMage, hge, if_true]
  · intro sp h
    simp only [Character.useSkill, h]

/-- C13, witness: a fresh mage (mana 80) casts "Fireball" (effective power 25,
cost 8) and is left with mana 72. -/
theorem useSkillMage_spec_witness :
    merlin.ownedSkills[0]? = some fireball ∧
    max 5 (Int.tdiv fireball.effectivePower 3) ≤ merlin.mana ∧
    merlin.useSkillMage 0 (fighter "Orc" 100) zeroRng =
      ({ merlin with mana := merlin.mana - max 5 (Int.tdiv fireball.effectivePower 3) },
        (fireball.apply (fighter "Orc" 100) zeroRng).1,
        (fireball.apply (fighter "Orc" 100) zeroRng).2) ∧
    (merlin.useSkillMage 0 (fighter "Orc" 100) zeroRng).1.mana = 72 := by
  have h := (useSkillMage_spec merlin (fighter "Orc" 100) 0 zeroRng).1 fireball (by decide)
    (by decide)
  refine ⟨by decide, by decide, h, ?_⟩
  rw [h]
  decide

/-! ### Effective power -/

/-! #### Rounding to `double` -/

theorem two_zpow_pos (e : Int) : (0 : ℚ) < 2 ^ e := zpow_pos (by norm_num) e

theorem roundHalfEven_intCast (n : Int) : roundHalfEven (n : ℚ) = n := by
  unfold roundHalfEven
  rw [Int.floor_intCast]
  simp

theorem roundHalfEven_bounds (q : ℚ) :
    ⌊q⌋ ≤ roundHalfEven q ∧ roundHalfEven q ≤ ⌊q⌋ + 1 := by
  unfold roundHalfEven
  split_ifs <;> omega

theorem roundHalfEven_mono {a b : ℚ} (h : a ≤ b) : roundHalfEven a ≤ roundHalfEven b := by
  have hf := Int.floor_mono h
  rcases lt_or_eq_of_le hf with hlt | heq
  · have h1 := (roundHalfEven_bounds a).2
    have h2 := (roundHalfEven_bounds b).1
    omega
  · unfold roundHalfEven
    rw [← heq]
    have hr : a - ⌊a⌋ ≤ b - ⌊a⌋ := by linarith
    split_ifs <;> first | omega | (exfalso; linarith)

theorem roundHalfEven_up {q : ℚ} (h : 1 / 2 ≤ q - ⌊q⌋) (hodd : ⌊q⌋ % 2 = 1) :
    roundHalfEven q = ⌊q⌋ + 1 := by
  unfold roundHalfEven
  split_ifs <;> first | omega | (exfalso; linarith)

theorem roundHalfEven_of_up {q : ℚ} (h : roundHalfEven q = ⌊q⌋ + 1) : 1 / 2 ≤ q - ⌊q⌋ := by
  unfold roundHalfEven at h
  split_ifs at h <;> first | omega | linarith

theorem roundHalfEven_neg (q : ℚ) : roundHalfEven (-q) = -roundHalfEven q := by
  by_cases hq : q = (⌊q⌋ : ℚ)
  · rw [hq, ← Int.cast_neg, roundHalfEven_intCast, roundHalfEven_intCast]
  · have h1 : (⌊q⌋ : ℚ) < q := lt_of_le_of_ne (Int.floor_le q) (Ne.symm hq)
    have h2 : q < ⌊q⌋ + 1 := Int.lt_floor_add_one q
    have hfl : ⌊-q⌋ = -⌊q⌋ - 1 := by
      rw [Int.floor_eq_iff]
      push_cast
      constructor <;> linarith
    unfold roundHalfEven
    rw [hfl]
    push_cast
    split_ifs <;> first | omega | (exfalso; linarith)


theorem roundHalfEven_up_of_lt {q : ℚ} (h : 1 / 2 < q - ⌊q⌋) :
    roundHalfEven q = ⌊q⌋ + 1 := by
  unfold roundHalfEven
  split_ifs <;> first | omega | (exfalso; linarith)

theorem roundHalfEven_eq_of_abs_lt {q : ℚ} {n : Int} (h : |q - n| < 1 / 2) :
    roundHalfEven q = n := by
  rw [abs_lt] at h
  obtain ⟨h1, h2⟩ := h
  by_cases hn : (n : ℚ) ≤ q
  · have hfl : ⌊q⌋ = n := by
      rw [Int.floor_eq_iff]
      constructor <;> linarith
    unfold roundHalfEven
    rw [hfl, if_pos (by linarith)]
  · have hfl : ⌊q⌋ = n - 1 := by
      rw [Int.floor_eq_iff]
      push_cast
      constructor <;> linarith
    rw [roundHalfEven_up_of_lt (by rw [hfl]; push_cast; linarith), hfl]
    omega

theorem two_zpow_toNat {d : Int} (hd : 0 ≤ d) : (2 : ℚ) ^ d = ((2 ^ d.toNat : Int) : ℚ) := by
  obtain ⟨n, rfl⟩ := Int.eq_ofNat_of_zero_le hd
  simp

theorem two_zpow_sub (a b : Int) : (2 : ℚ) ^ (a - b) * 2 ^ b = 2 ^ a := by
  rw [← zpow_add₀ (by norm_num : (2 : ℚ) ≠ 0)]
  congr 1
  omega

/-- A value on the grid of `q`: an integer multiple of the unit in the last place
at `q`. -/
theorem roundDouble_le_grid {q : ℚ} {N : Int} (h : q ≤ N * 2 ^ ulpExp q) :
    roundDouble q ≤ N * 2 ^ ulpExp q := by
  unfold roundDouble
  have hp := two_zpow_pos (ulpExp q)
  have h1 : q / 2 ^ ulpExp q ≤ N := by rw [div_le_iff₀ hp]; exact h
  have h2 := roundHalfEven_mono h1
  rw [roundHalfEven_intCast] at h2
  have h3 : (roundHalfEven (q / 2 ^ ulpExp q) : ℚ) ≤ N := by exact_mod_cast h2
  exact mul_le_mul_of_nonneg_right h3 hp.le

theorem grid_le_roundDouble {q : ℚ} {N : Int} (h : (N : ℚ) * 2 ^ ulpExp q ≤ q) :
    (N : ℚ) * 2 ^ ulpExp q ≤ roundDouble q := by
  unfold roundDouble
  have hp := two_zpow_pos (ulpExp q)
  have h1 : (N : ℚ) ≤ q / 2 ^ ulpExp q := by rw [le_div_iff₀ hp]; exact h
  have h2 := roundHalfEven_mono h1
  rw [roundHalfEven_intCast] at h2
  have h3 : (N : ℚ) ≤ (roundHalfEven (q / 2 ^ ulpExp q) : ℚ) := by exact_mod_cast h2
  exact mul_le_mul_of_nonneg_right h3 hp.le

/-- A power of two `2 ^ k` with `ulpExp q <= k`, times an integer, is on the grid
of `q`. -/
theorem grid_of_le {q : ℚ} {k : Int} (N : Int) (hk : ulpExp q ≤ k) :
    ∃ M : Int, (N : ℚ) * 2 ^ k = (M : ℚ) * 2 ^ ulpExp q := by
  refine ⟨N * 2 ^ (k - ulpExp q).toNat, ?_⟩
  rw [← two_zpow_sub k (ulpExp q), two_zpow_toNat (by omega : 0 ≤ k - ulpExp q)]
  push_cast
  ring

theorem roundDouble_le_of_le {q : ℚ} {k : Int} (N : Int) (hk : ulpExp q ≤ k)
    (h : q ≤ N * 2 ^ k) : roundDouble q ≤ N * 2 ^ k := by
  obtain ⟨M, hM⟩ := grid_of_le (q := q) N hk
  rw [hM] at h ⊢
  exact roundDouble_le_grid h

theorem le_roundDouble_of_le {q : ℚ} {k : Int} (N : Int) (hk : ulpExp q ≤ k)
    (h : (N : ℚ) * 2 ^ k ≤ q) : (N : ℚ) * 2 ^ k ≤ roundDouble q := by
  obtain ⟨M, hM⟩ := grid_of_le (q := q) N hk
  rw [hM] at h ⊢
  exact grid_le_roundDouble h

theorem roundDouble_zero : roundDouble 0 = 0 := by
  unfold roundDouble
  rw [zero_div, ← Int.cast_zero, roundHalfEven_intCast]
  simp

theorem roundDouble_neg (q : ℚ) : roundDouble (-q) = -roundDouble q := by
  unfold roundDouble ulpExp
  rw [abs_neg, neg_div, roundHalfEven_neg]
  push_cast
  ring

theorem log_le_self {q : ℚ} (hq : 0 < q) : (2 : ℚ) ^ Int.log 2 q ≤ q := by
  have := Int.zpow_log_le_self (b := 2) (by norm_num) hq
  simpa using this

theorem self_lt_log_succ (q : ℚ) : q < (2 : ℚ) ^ (Int.log 2 q + 1) := by
  have := Int.lt_zpow_succ_log_self (b := 2) (by norm_num) q
  simpa using this

theorem roundDouble_mono_pos {a b : ℚ} (ha : 0 < a) (h : a ≤ b) :
    roundDouble a ≤ roundDouble b := by
  have hb : 0 < b := lt_of_lt_of_le ha h
  have hlog : Int.log 2 a ≤ Int.log 2 b := Int.log_mono_right ha h
  have hea : ulpExp a = max (Int.log 2 a - 52) (-1074) := by
    unfold ulpExp; rw [abs_of_pos ha]
  have heb : ulpExp b = max (Int.log 2 b - 52) (-1074) := by
    unfold ulpExp; rw [abs_of_pos hb]
  rcases eq_or_lt_of_le (show ulpExp a ≤ ulpExp b by rw [hea, heb]; omega) with he | he
  · unfold roundDouble
    rw [he]
    have hp := two_zpow_pos (ulpExp b)
    have h1 : a / 2 ^ ulpExp b ≤ b / 2 ^ ulpExp b := div_le_div_of_nonneg_right h hp.le
    have h2 : (roundHalfEven (a / 2 ^ ulpExp b) : ℚ) ≤ roundHalfEven (b / 2 ^ ulpExp b) := by
      exact_mod_cast roundHalfEven_mono h1
    exact mul_le_mul_of_nonneg_right h2 hp.le
  · have hlt : Int.log 2 a < Int.log 2 b := by omega
    have hebk : ulpExp b ≤ Int.log 2 b := by omega
    have heak : ulpExp a ≤ Int.log 2 b := by omega
    have hpb : (2 : ℚ) ^ Int.log 2 b ≤ b := log_le_self hb
    have hpa : a ≤ (2 : ℚ) ^ Int.log 2 b := by
      have h1 := self_lt_log_succ a
      have h2 : (2 : ℚ) ^ (Int.log 2 a + 1) ≤ 2 ^ Int.log 2 b :=
        zpow_le_zpow_right₀ (by norm_num) (by omega)
      linarith
    have h1 := roundDouble_le_of_le (q := a) 1 heak (by simpa using hpa)
    have h2 := le_roundDouble_of_le (q := b) 1 hebk (by simpa using hpb)
    linarith

theorem roundDouble_nonneg {q : ℚ} (h : 0 ≤ q) : 0 ≤ roundDouble q := by
  have := grid_le_roundDouble (q := q) (N := 0) (by simpa using h)
  simpa using this

theorem roundDouble_nonpos {q : ℚ} (h : q ≤ 0) : roundDouble q ≤ 0 := by
  have := roundDouble_le_grid (q := q) (N := 0) (by simpa using h)
  simpa using this

/-- Rounding to `double` is monotone. -/
theorem roundDouble_mono {a b : ℚ} (h : a ≤ b) : roundDouble a ≤ roundDouble b := by
  rcases lt_or_le 0 a with ha | ha
  · exact roundDouble_mono_pos ha h
  · rcases le_or_lt 0 b with hb | hb
    · exact le_trans (roundDouble_nonpos ha) (roundDouble_nonneg hb)
    · have := roundDouble_mono_pos (a := -b) (b := -a) (by linarith) (by linarith)
      rw [roundDouble_neg, roundDouble_neg] at this
      linarith


theorem log_lt_of_lt {q : ℚ} {k : Int} (hq : 0 < q) (h : q < 2 ^ k) : Int.log 2 q < k := by
  have := (Int.lt_zpow_iff_log_lt (R := ℚ) (b := 2) (by norm_num) (x := k) hq).mp
    (by simpa using h)
  exact this

theorem le_log_of_le {q : ℚ} {k : Int} (hq : 0 < q) (h : 2 ^ k ≤ q) : k ≤ Int.log 2 q := by
  have := (Int.zpow_le_iff_le_log (R := ℚ) (b := 2) (by norm_num) (x := k) hq).mp
    (by simpa using h)
  exact this

theorem ulpExp_eq {q : ℚ} {k : Int} (hlo : 2 ^ k ≤ |q|) (hhi : |q| < 2 ^ (k + 1))
    (hk : -1022 ≤ k) : ulpExp q = k - 52 := by
  have hq : 0 < |q| := lt_of_lt_of_le (two_zpow_pos k) hlo
  have h1 := log_lt_of_lt hq hhi
  have h2 := le_log_of_le hq hlo
  unfold ulpExp
  omega

theorem ulpExp_le {q : ℚ} {k : Int} (hq : q ≠ 0) (hk : -1074 ≤ k) (h : |q| < 2 ^ (k + 53)) :
    ulpExp q ≤ k := by
  have h1 := log_lt_of_lt (abs_pos.mpr hq) h
  unfold ulpExp
  omega

/-- An integer below `2 ^ 53` in absolute value is a `double`. -/
theorem roundDouble_intCast {n : Int} (h : |(n : ℚ)| < 2 ^ 53) : roundDouble (n : ℚ) = n := by
  by_cases hn : n = 0
  · subst hn
    simpa using roundDouble_zero
  · have hq : (n : ℚ) ≠ 0 := by exact_mod_cast hn
    have h53 : (2 : ℚ) ^ ((0 : Int) + 53) = 2 ^ 53 := by norm_num
    have he : ulpExp (n : ℚ) ≤ 0 := ulpExp_le hq (by norm_num) (by rw [h53]; exact h)
    have h1 := roundDouble_le_of_le (q := (n : ℚ)) n he (by simp)
    have h2 := le_roundDouble_of_le (q := (n : ℚ)) n he (by simp)
    simp only [zpow_zero, mul_one] at h1 h2
    exact le_antisymm h1 h2

theorem roundDouble_succ_of_round_up {a : ℚ} {n : Int} (ha : 0 < a) (han : a < n)
    (hn : (n : ℚ) ≤ roundDouble a) (hb : a + 1 < 2 ^ 52) :
    (n : ℚ) + 1 ≤ roundDouble (a + 1) := by
  have ha1 : 0 < a + 1 := by linarith
  have hea : ulpExp a = max (Int.log 2 a - 52) (-1074) := by
    unfold ulpExp; rw [abs_of_pos ha]
  have he1 : ulpExp (a + 1) = max (Int.log 2 (a + 1) - 52) (-1074) := by
    unfold ulpExp; rw [abs_of_pos ha1]
  have hlog : Int.log 2 a ≤ Int.log 2 (a + 1) := Int.log_mono_right ha (by linarith)
  have h52 : (2 : ℚ) ^ (52 : Int) = 2 ^ 52 := by norm_num
  have hl1 : Int.log 2 (a + 1) < 52 := log_lt_of_lt ha1 (by rw [h52]; exact hb)
  have hee : ulpExp a ≤ ulpExp (a + 1) := by omega
  have he1neg : ulpExp (a + 1) ≤ -1 := by omega
  have hpa := two_zpow_pos (ulpExp a)
  have hp1 := two_zpow_pos (ulpExp (a + 1))
  have hpp : (2 : ℚ) ^ ulpExp a ≤ 2 ^ ulpExp (a + 1) := zpow_le_zpow_right₀ (by norm_num) hee
  -- the integer `n` on the grid of `a`
  have hNa : ((n * 2 ^ (-ulpExp a).toNat : Int) : ℚ) * 2 ^ ulpExp a = n := by
    have := two_zpow_sub 0 (ulpExp a)
    rw [zero_sub, two_zpow_toNat (by omega : 0 ≤ -ulpExp a)] at this
    push_cast at this ⊢
    rw [mul_assoc, this]
    simp
  have hN1 : (((n + 1) * 2 ^ (-ulpExp (a + 1)).toNat : Int) : ℚ) * 2 ^ ulpExp (a + 1) =
      n + 1 := by
    have := two_zpow_sub 0 (ulpExp (a + 1))
    rw [zero_sub, two_zpow_toNat (by omega : 0 ≤ -ulpExp (a + 1))] at this
    push_cast at this ⊢
    rw [mul_assoc, this]
    simp
  generalize hNdef : (n * 2 ^ (-ulpExp a).toNat : Int) = N at hNa
  have hMeven : ((n + 1) * 2 ^ (-ulpExp (a + 1)).toNat : Int) % 2 = 0 := by
    apply Int.emod_eq_zero_of_dvd
    apply Dvd.dvd.mul_left
    exact dvd_pow_self 2 (by omega)
  generalize hMdef : ((n + 1) * 2 ^ (-ulpExp (a + 1)).toNat : Int) = M at hN1 hMeven
  -- `a` is at most half a unit below `n`
  have hAlt : a / 2 ^ ulpExp a < N := by
    rw [div_lt_iff₀ hpa, hNa]; exact han
  have hfl : ⌊a / 2 ^ ulpExp a⌋ < N := Int.floor_lt.mpr hAlt
  have hNle : N ≤ roundHalfEven (a / 2 ^ ulpExp a) := by
    have h1 : (N : ℚ) * 2 ^ ulpExp a ≤ (roundHalfEven (a / 2 ^ ulpExp a) : ℚ) * 2 ^ ulpExp a := by
      rw [hNa]; exact hn
    have h2 := le_of_mul_le_mul_right h1 hpa
    exact_mod_cast h2
  have hb2 := (roundHalfEven_bounds (a / 2 ^ ulpExp a)).2
  have hup : roundHalfEven (a / 2 ^ ulpExp a) = ⌊a / 2 ^ ulpExp a⌋ + 1 := by omega
  have hflN : ⌊a / 2 ^ ulpExp a⌋ = N - 1 := by omega
  have hfrac := roundHalfEven_of_up hup
  rw [hflN] at hfrac
  push_cast at hfrac
  have hgap : (n : ℚ) - a ≤ 2 ^ ulpExp a / 2 := by
    have h1 : (N : ℚ) - 1 / 2 ≤ a / 2 ^ ulpExp a := by linarith
    rw [le_div_iff₀ hpa] at h1
    have h2 : ((N : ℚ) - 1 / 2) * 2 ^ ulpExp a = n - 2 ^ ulpExp a / 2 := by
      rw [sub_mul, hNa]; ring
    linarith
  -- the same gap below `n + 1`
  have hB1 : (a + 1) / 2 ^ ulpExp (a + 1) < M := by
    rw [div_lt_iff₀ hp1, hN1]; linarith
  have hB2 : (M : ℚ) - 1 / 2 ≤ (a + 1) / 2 ^ ulpExp (a + 1) := by
    rw [le_div_iff₀ hp1, sub_mul, hN1]
    linarith
  have hflB : ⌊(a + 1) / 2 ^ ulpExp (a + 1)⌋ = M - 1 := by
    rw [Int.floor_eq_iff]
    push_cast
    constructor <;> linarith
  have hrB : roundHalfEven ((a + 1) / 2 ^ ulpExp (a + 1)) = M := by
    rw [roundHalfEven_up (by rw [hflB]; push_cast; linarith) (by rw [hflB]; omega), hflB]
    omega
  unfold roundDouble
  rw [hrB, hN1]

/-- A step of at least 1 between two values that are not negative moves the
integer part of the rounded value by at least 1. -/
theorem floor_roundDouble_step {a b : ℚ} (ha : 0 ≤ a) (hab : a + 1 ≤ b) (hb : b < 2 ^ 52) :
    ⌊roundDouble a⌋ + 1 ≤ ⌊roundDouble b⌋ := by
  have h0 : 0 ≤ roundDouble a := roundDouble_nonneg ha
  have hn0 : 0 ≤ ⌊roundDouble a⌋ := Int.floor_nonneg.mpr h0
  have hn : (⌊roundDouble a⌋ : ℚ) ≤ roundDouble a := Int.floor_le _
  have key : ((⌊roundDouble a⌋ + 1 : Int) : ℚ) ≤ roundDouble b := by
    by_cases hcase : (⌊roundDouble a⌋ : ℚ) ≤ a
    · have h1 : ((⌊roundDouble a⌋ + 1 : Int) : ℚ) ≤ b := by push_cast; linarith
      have h2 := roundDouble_mono h1
      rw [roundDouble_intCast] at h2
      · exact h2
      · rw [abs_of_nonneg (by exact_mod_cast (by omega : (0 : Int) ≤ ⌊roundDouble a⌋ + 1))]
        have : (2 : ℚ) ^ 52 < 2 ^ 53 := by norm_num
        linarith
    · have han : a < (⌊roundDouble a⌋ : ℚ) := not_le.mp hcase
      have hapos : 0 < a := by
        rcases eq_or_lt_of_le ha with h | h
        · exfalso
          rw [← h, roundDouble_zero] at han
          simp at han
        · exact h
      have h1 := roundDouble_succ_of_round_up hapos han hn (by linarith)
      have h2 := roundDouble_mono hab
      push_cast
      linarith
  exact Int.le_floor.mpr key

theorem truncToInt_neg (q : ℚ) : truncToInt (-q) = -truncToInt q := by
  unfold truncToInt
  rcases lt_trichotomy q 0 with h | h | h
  · rw [if_pos (by linarith), if_neg (by linarith), Int.floor_neg]
  · subst h; simp
  · rw [if_neg (by linarith), if_pos (by linarith), Int.ceil_neg]


theorem roundDouble_eq_of_near {q : ℚ} {k n : Int} (hlo : 2 ^ k ≤ |q|)
    (hhi : |q| < 2 ^ (k + 1)) (hk : -1022 ≤ k) (hn : |q / 2 ^ (k - 52) - n| < 1 / 2) :
    roundDouble q = n * 2 ^ (k - 52) := by
  unfold roundDouble
  rw [ulpExp_eq hlo hhi hk, roundHalfEven_eq_of_abs_lt hn]

/-- The literal `0.03` as a `double`. -/
theorem roundDouble_three_hundredths :
    roundDouble (3 / 100) = 1080863910568919 / 36028797018963968 := by
  rw [roundDouble_eq_of_near (k := -6) (n := 8646911284551352)]
  · norm_num
  · norm_num [abs_of_pos]
  · norm_num [abs_of_pos]
  · norm_num
  · norm_num [abs_lt]

theorem roundDouble_three_hundredths_mul :
    roundDouble (roundDouble (3 / 100) * 100) = 3 := by
  rw [roundDouble_three_hundredths, roundDouble_eq_of_near (k := 1) (n := 6755399441055744)]
  · norm_num
  · norm_num [abs_of_pos]
  · norm_num [abs_of_pos]
  · norm_num
  · norm_num [abs_lt]


theorem truncToInt_mono {a b : ℚ} (h : a ≤ b) : truncToInt a ≤ truncToInt b := by
  unfold truncToInt
  split
  · rename_i ha
    rw [if_pos (le_trans ha h)]
    exact Int.floor_mono h
  · rename_i ha
    split
    · rename_i hb
      have h1 : ⌈a⌉ ≤ 0 := Int.ceil_le.mpr (by push_cast; exact le_of_lt (not_le.mp ha))
      have h2 : 0 ≤ ⌊b⌋ := Int.floor_nonneg.mpr hb
      omega
    · exact Int.ceil_mono h

theorem truncToInt_of_nonneg {q : ℚ} (h : 0 ≤ q) : truncToInt q = ⌊q⌋ := by
  unfold truncToInt
  rw [if_pos h]

theorem truncToInt_intCast (n : Int) : truncToInt (n : ℚ) = n := by
  unfold truncToInt
  split <;> simp

theorem roundDouble_natLit {n : Int} (h : |(n : ℚ)| < 2 ^ 53) :
    truncToInt (roundDouble (n : ℚ)) = n := by
  rw [roundDouble_intCast h, truncToInt_intCast]

/-- The passive part of the effective power does not fall when the level rises,
for a rounded product `modifier * 100` that is not negative. -/
theorem passivePart_mono {x : ℚ} {l1 l2 : Int} (hx : 0 ≤ x) (h : l1 ≤ l2) :
    truncToInt (roundDouble ((l1 : ℚ) * x)) ≤ truncToInt (roundDouble ((l2 : ℚ) * x)) := by
  apply truncToInt_mono
  apply roundDouble_mono
  have : (l1 : ℚ) ≤ l2 := by exact_mod_cast h
  exact mul_le_mul_of_nonneg_right this hx

theorem lt_of_roundDouble_lt {q : ℚ} {n : Int} (hn : |(n : ℚ)| < 2 ^ 53)
    (h : roundDouble q < n) : q < n := by
  by_contra hge
  have := roundDouble_mono (not_lt.mp hge)
  rw [roundDouble_intCast hn] at this
  linarith

theorem lt_of_lt_roundDouble {q : ℚ} {n : Int} (hn : |(n : ℚ)| < 2 ^ 53)
    (h : (n : ℚ) < roundDouble q) : (n : ℚ) < q := by
  by_contra hge
  have := roundDouble_mono (not_lt.mp hge)
  rw [roundDouble_intCast hn] at this
  linarith

theorem bounds_of_castDefined {q : ℚ} (h : castDefined (roundDouble q)) :
    -(2 : ℚ) ^ 31 - 1 < q ∧ q < 2 ^ 31 := by
  obtain ⟨h1, h2⟩ := h
  constructor
  · have := lt_of_lt_roundDouble (q := q) (n := -2147483649) (by norm_num [abs_of_neg])
      (by push_cast; norm_num at h1 ⊢; linarith)
    push_cast at this
    norm_num at this ⊢
    linarith
  · have := lt_of_roundDouble_lt (q := q) (n := 2147483648) (by norm_num [abs_of_pos])
      (by push_cast; norm_num at h2 ⊢; linarith)
    push_cast at this
    norm_num at this ⊢
    linarith

/-- The passive part of the effective power rises with the level when the rounded
product `modifier * 100` is at least 1 and both conversions to `int` are
defined. -/
theorem passivePart_strict {x : ℚ} {l1 l2 : Int} (hx : 1 ≤ x) (h : l1 < l2)
    (hd1 : castDefined (roundDouble ((l1 : ℚ) * x)))
    (hd2 : castDefined (roundDouble ((l2 : ℚ) * x))) :
    truncToInt (roundDouble ((l1 : ℚ) * x)) < truncToInt (roundDouble ((l2 : ℚ) * x)) := by
  have hq : (l1 : ℚ) + 1 ≤ (l2 : ℚ) := by exact_mod_cast h
  have hb1 := bounds_of_castDefined hd1
  have hb2 := bounds_of_castDefined hd2
  have hstep : (l1 : ℚ) * x + 1 ≤ (l2 : ℚ) * x := by nlinarith
  rcases le_or_lt 0 l1 with h0 | h0
  · have hl1 : (0 : ℚ) ≤ (l1 : ℚ) := by exact_mod_cast h0
    have ha : 0 ≤ (l1 : ℚ) * x := by positivity
    have hb : (l2 : ℚ) * x < 2 ^ 52 := by
      have : (2 : ℚ) ^ 31 < 2 ^ 52 := by norm_num
      linarith [hb2.2]
    have := floor_roundDouble_step ha hstep hb
    rw [truncToInt_of_nonneg (roundDouble_nonneg ha),
      truncToInt_of_nonneg (roundDouble_nonneg (by linarith))]
    omega
  · rcases le_or_lt l2 0 with h2 | h2
    · have hl2 : (l2 : ℚ) ≤ 0 := by exact_mod_cast h2
      have ha : 0 ≤ -((l2 : ℚ) * x) := by nlinarith
      have hb : -((l1 : ℚ) * x) < 2 ^ 52 := by
        have : (2 : ℚ) ^ 31 + 1 < 2 ^ 52 := by norm_num
        linarith [hb1.1]
      have := floor_roundDouble_step ha (by linarith) hb
      have e1 : truncToInt (roundDouble ((l1 : ℚ) * x)) =
          -⌊roundDouble (-((l1 : ℚ) * x))⌋ := by
        rw [← truncToInt_of_nonneg (roundDouble_nonneg (by linarith)), ← truncToInt_neg,
          ← roundDouble_neg, neg_neg]
      have e2 : truncToInt (roundDouble ((l2 : ℚ) * x)) =
          -⌊roundDouble (-((l2 : ℚ) * x))⌋ := by
        rw [← truncToInt_of_nonneg (roundDouble_nonneg ha), ← truncToInt_neg,
          ← roundDouble_neg, neg_neg]
      rw [e1, e2]
      omega
    · have hl1 : (l1 : ℚ) ≤ -1 := by exact_mod_cast (show l1 ≤ -1 by omega)
      have hl2 : (1 : ℚ) ≤ (l2 : ℚ) := by exact_mod_cast (show 1 ≤ l2 by omega)
      have ha : (l1 : ℚ) * x ≤ ((-1 : Int) : ℚ) := by push_cast; nlinarith
      have hb : ((1 : Int) : ℚ) ≤ (l2 : ℚ) * x := by push_cast; nlinarith
      have h1 := truncToInt_mono (roundDouble_mono ha)
      have h2 := truncToInt_mono (roundDouble_mono hb)
      rw [roundDouble_natLit (by norm_num)] at h1 h2
      omega

/-! #### Effective power of the three classes -/

theorem upgrade_fields (s : Skill) :
    s.upgrade.level = s.level + 1 ∧ s.upgrade.basePower = s.basePower + 2 ∧
    s.upgrade.name = s.name ∧ s.upgrade.kind = s.kind :=
  ⟨rfl, rfl, rfl, rfl⟩

theorem threePercent_power (l : Int) (h : |((l * 3 : Int) : ℚ)| < 2 ^ 53) :
    truncToInt (roundDouble ((l : ℚ) * roundDouble (roundDouble (3 / 100) * 100))) = l * 3 := by
  rw [roundDouble_three_hundredths_mul]
  have := roundDouble_natLit h
  push_cast at this
  exact this

/-- C14, as amended: `upgrade()` raises the level by 1 and the base power by 2 and
changes nothing else; for every active and every ultimate skill, and for every
passive skill whose modifier is not negative, `effectivePower()` after one
`upgrade()` is strictly greater than before it. (`effectivePower` is a function of
the skill alone, so a call of it changes no state.) The passive case is the
`double` computation of the code: both products rounded, then the conversion to
`int`. -/
theorem effectivePower_upgrade_lt (s : Skill)
    (h : ∀ modifier, s.kind = SkillKind.passive modifier → 0 ≤ modifier) :
    s.upgrade.level = s.level + 1 ∧ s.upgrade.basePower = s.basePower + 2 ∧
    s.upgrade.name = s.name ∧ s.upgrade.kind = s.kind ∧
    s.effectivePower < s.upgrade.effectivePower := by
  refine ⟨rfl, rfl, rfl, rfl, ?_⟩
  cases hk : s.kind with
  | active c =>
    simp only [Skill.effectivePower, Skill.upgrade, hk]
    omega
  | ultimate c cd =>
    simp only [Skill.effectivePower, Skill.upgrade, hk]
    omega
  | passive m =>
    have hm := h m hk
    have hx : 0 ≤ roundDouble (m * 100) := roundDouble_nonneg (by linarith)
    simp only [Skill.effectivePower, Skill.upgrade, hk]
    have hle : s.level ≤ s.level + 1 := by omega
    have hmono := passivePart_mono hx hle
    omega

/-- C14, witness: the amended statement at the passive skill whose modifier is the
literal `0.03`. The product `modifier * 100` is rounded to 3.0, so the power is
5 + 3 = 8 and after the upgrade 7 + 6 = 13. -/
theorem effectivePower_upgrade_lt_witness :
    (∀ modifier, threePercent.kind = SkillKind.passive modifier → 0 ≤ modifier) ∧
    threePercent.effectivePower = 8 ∧ threePercent.upgrade.effectivePower = 13 ∧
    threePercent.effectivePower < threePercent.upgrade.effectivePower := by
  have hm : ∀ modifier, threePercent.kind = SkillKind.passive modifier → 0 ≤ modifier := by
    intro m hk
    simp only [threePercent, passiveSkill, SkillKind.passive.injEq] at hk
    rw [← hk]
    exact roundDouble_nonneg (by norm_num)
  have h1 : threePercent.effectivePower = 8 := by
    simp only [threePercent, passiveSkill, Skill.effectivePower]
    rw [threePercent_power 1 (by norm_num [abs_of_pos])]
    decide
  have h2 : threePercent.upgrade.effectivePower = 13 := by
    simp only [threePercent, passiveSkill, Skill.upgrade, Skill.effectivePower]
    rw [show ((1 : Int) + 1) = 2 by decide, threePercent_power 2 (by norm_num [abs_of_pos])]
    decide
  exact ⟨hm, h1, h2, (effectivePower_upgrade_lt threePercent hm).2.2.2.2⟩

/-- C14, counterexample: the passive skill with modifier -1 (level 1, base power
5) has effective power -95, and after one `upgrade()` (level 2, base power 7) it
has effective power -193, which is smaller. All the values met are integers, on
which the `double` arithmetic is exact. -/
theorem effectivePower_upgrade_passive_drops :
    (passiveSkill (-1)).effectivePower = -95 ∧
    (passiveSkill (-1)).upgrade.effectivePower = -193 ∧
    ¬ ((passiveSkill (-1)).effectivePower < (passiveSkill (-1)).upgrade.effectivePower) := by
  have e0 : roundDouble (-1 * 100) = -100 := by
    have := roundDouble_intCast (n := -100) (by norm_num [abs_of_neg])
    push_cast at this
    norm_num at this ⊢
    exact this
  have e1 : truncToInt (roundDouble (((1 : Int) : ℚ) * -100)) = -100 := by
    have := roundDouble_natLit (n := -100) (by norm_num [abs_of_neg])
    push_cast at this
    norm_num at this ⊢
    exact this
  have e2 : truncToInt (roundDouble ((((1 : Int) + 1 : Int) : ℚ) * -100)) = -200 := by
    have := roundDouble_natLit (n := -200) (by norm_num [abs_of_neg])
    push_cast at this
    norm_num at this ⊢
    exact this
  have h1 : (passiveSkill (-1)).effectivePower = -95 := by
    simp only [passiveSkill, Skill.effectivePower]
    rw [e0, e1]
    decide
  have h2 : (passiveSkill (-1)).upgrade.effectivePower = -193 := by
    simp only [passiveSkill, Skill.upgrade, Skill.effectivePower]
    rw [e0, e2]
    decide
  refine ⟨h1, h2, ?_⟩
  rw [h1, h2]
  decide

/-- C15, as amended: with the base power (and the modifier) held fixed, the
effective power of an active and of an ultimate skill is strictly increasing in
the level; that of a passive skill is non-decreasing in the level when the
modifier is not negative, and strictly increasing when `modifier * 100`, as the
code computes it in `double`, is at least 1 and the conversion to `int` is defined
at both levels. The rounded product is at least 1 whenever the exact product
is. -/
theorem effectivePower_level_mono (s : Skill) (l1 l2 : Int) (h : l1 < l2) :
    ((∃ c, s.kind = SkillKind.active c) ∨ (∃ c cd, s.kind = SkillKind.ultimate c cd) →
      ({ s with level := l1 } : Skill).effectivePower <
        ({ s with level := l2 } : Skill).effectivePower) ∧
    (∀ m, s.kind = SkillKind.passive m → 0 ≤ m →
      ({ s with level := l1 } : Skill).effectivePower ≤
        ({ s with level := l2 } : Skill).effectivePower) ∧
    (∀ m, s.kind = SkillKind.passive m → 1 ≤ roundDouble (m * 100) →
      castDefined (roundDouble ((l1 : ℚ) * roundDouble (m * 100))) →
      castDefined (roundDouble ((l2 : ℚ) * roundDouble (m * 100))) →
      ({ s with level := l1 } : Skill).effectivePower <
        ({ s with level := l2 } : Skill).effectivePower) ∧
    (∀ m : ℚ, 1 ≤ m * 100 → 1 ≤ roundDouble (m * 100)) := by
  refine ⟨?_, ?_, ?_, ?_⟩
  · rintro (⟨c, hk⟩ | ⟨c, cd, hk⟩)
    · simp only [Skill.effectivePower, hk]; omega
    · simp only [Skill.effectivePower, hk]; omega
  · intro m hk hm
    have hx : 0 ≤ roundDouble (m * 100) := roundDouble_nonneg (by linarith)
    simp only [Skill.effectivePower, hk]
    have hle : l1 ≤ l2 := by omega
    have := passivePart_mono hx hle
    omega
  · intro m hk hm hd1 hd2
    simp only [Skill.effectivePower, hk]
    have := passivePart_strict hm h hd1 hd2
    omega
  · intro m hm
    have h1 : ((1 : Int) : ℚ) ≤ m * 100 := by push_cast; exact hm
    have := roundDouble_mono h1
    rw [roundDouble_intCast (by norm_num)] at this
    exact_mod_cast this

/-- C15, witness: the amended statement at the passive skill whose modifier is the
literal `0.03` and the levels 1 and 2: `modifier * 100` is rounded to 3.0, the
powers are 5 + 3 = 8 and 5 + 6 = 11. -/
theorem effectivePower_level_mono_witness :
    (1 : Int) < 2 ∧
    ({ threePercent with level := 1 } : Skill).effectivePower = 8 ∧
    ({ threePercent with level := 2 } : Skill).effectivePower = 11 ∧
    ({ threePercent with level := 1 } : Skill).effectivePower <
      ({ threePercent with level := 2 } : Skill).effectivePower := by
  have h1 : ({ threePercent with level := 1 } : Skill).effectivePower = 8 := by
    simp only [threePercent, passiveSkill, Skill.effectivePower]
    rw [threePercent_power 1 (by norm_num [abs_of_pos])]
    decide
  have h2 : ({ threePercent with level := 2 } : Skill).effectivePower = 11 := by
    simp only [threePercent, passiveSkill, Skill.effectivePower]
    rw [threePercent_power 2 (by norm_num [abs_of_pos])]
    decide
  have hx : roundDouble (roundDouble (3 / 100) * 100) = 3 := roundDouble_three_hundredths_mul
  have e3 : roundDouble 3 = 3 := by
    have := roundDouble_intCast (n := 3) (by norm_num [abs_of_pos])
    push_cast at this
    exact this
  have e6 : roundDouble 6 = 6 := by
    have := roundDouble_intCast (n := 6) (by norm_num [abs_of_pos])
    push_cast at this
    exact this
  refine ⟨by decide, h1, h2,
    (effectivePower_level_mono threePercent 1 2 (by decide)).2.2.1 (roundDouble (3 / 100)) rfl
      (by rw [hx]; norm_num) ?_ ?_⟩
  · rw [hx]
    norm_num [castDefined, e3]
  · rw [hx]
    norm_num [castDefined, e6]

/-- C15, counterexample: the passive skill with modifier 0 and base power 5 has
effective power 5 at level 1 and at level 2. -/
theorem effectivePower_passive_level_flat :
    (1 : Int) < 2 ∧
    ({ passiveSkill 0 with level := 1 } : Skill).effectivePower = 5 ∧
    ({ passiveSkill 0 with level := 2 } : Skill).effectivePower = 5 ∧
    ¬ (({ passiveSkill 0 with level := 1 } : Skill).effectivePower <
      ({ passiveSkill 0 with level := 2 } : Skill).effectivePower) := by
  have e : ∀ l : Int, truncToInt (roundDouble ((l : ℚ) * roundDouble (0 * 100))) = 0 := by
    intro l
    rw [zero_mul, roundDouble_zero, mul_zero, roundDouble_zero]
    simp [truncToInt]
  have h1 : ({ passiveSkill 0 with level := 1 } : Skill).effectivePower = 5 := by
    simp only [passiveSkill, Skill.effectivePower]
    rw [e 1]
    decide
  have h2 : ({ passiveSkill 0 with level := 2 } : Skill).effectivePower = 5 := by
    simp only [passiveSkill, Skill.effectivePower]
    rw [e 2]
    decide
  refine ⟨by decide, h1, h2, ?_⟩
  rw [h1, h2]
  decide

/-- C16: `ActiveSkill::apply` hands `max(1, effectivePower + v - target.defense)`
to the target's `takeDamage`, with `v = rand() % 5` in `0..4`, so at least 1;
`UltimateSkill::apply` hands `max(5, effectivePower - target.defense)`, so at
least 5; in both the target is left with HP `max(0, oldHP - damage)` and every
other member as before. The virtual call `apply` runs these bodies for the active
and the ultimate class and leaves the target untouched for the passive class. -/
theorem skill_apply_damage (s : Skill) (target : Character) (g : Rng) :
    (0 ≤ Int.tmod (g.stream g.pos : Int) 5 ∧ Int.tmod (g.stream g.pos : Int) 5 ≤ 4) ∧
    (s.applyActive target g).2.1 =
      max 1 (s.effectivePower + Int.tmod (g.stream g.pos : Int) 5 - target.defense) ∧
    1 ≤ (s.applyActive target g).2.1 ∧
    (s.applyActive target g).1 =
      { target with hp := max 0 (target.hp - (s.applyActive target g).2.1) } ∧
    (s.applyUltimate target).2 = max 5 (s.effectivePower - target.defense) ∧
    5 ≤ (s.applyUltimate target).2 ∧
    (s.applyUltimate target).1 =
      { target with hp := max 0 (target.hp - (s.applyUltimate target).2) } ∧
    (∀ c, s.kind = SkillKind.active c →
      s.apply target g = ((s.applyActive target g).1, g.rand.2)) ∧
    (∀ c cd, s.kind = SkillKind.ultimate c cd →
      s.apply target g = ((s.applyUltimate target).1, g)) ∧
    (∀ m, s.kind = SkillKind.passive m → s.apply target g = (target, g)) := by
  have h1 := Int.tmod_nonneg (5 : Int) (Int.ofNat_nonneg (g.stream g.pos))
  have h2 := Int.tmod_lt_of_pos (g.stream g.pos : Int) (show (0 : Int) < 5 by decide)
  refine ⟨⟨h1, by omega⟩, rfl, ?_, ?_, rfl, ?_, ?_, ?_, ?_, ?_⟩
  · simp only [Skill.applyActive, Rng.rand]
    exact le_max_left _ _
  · simp only [Skill.applyActive, Rng.rand]
    exact takeDamage_eq _ _
  · simp only [Skill.applyUltimate]
    exact le_max_left _ _
  · simp only [Skill.applyUltimate]
    exact takeDamage_eq _ _
  · intro c hk
    simp only [Skill.apply, hk]
    rfl
  · intro c cd hk
    simp only [Skill.apply, hk]
  · intro m hk
    simp only [Skill.apply, hk]

/-! ### Inventory -/

theorem filter_length_eq_iff {α : Type} (p : α → Bool) (l : List α) :
    (l.filter p).length = l.length ↔ ∀ x ∈ l, p x = true := by
  exact List.filter_length_eq_length

theorem findFrom_eq_none (n : String) (l : List Item) :
    ∀ i, Inventory.findFrom n l i = none ↔ ∀ it ∈ l, it.getName ≠ n := by
  induction l with
  | nil => intro i; simp [Inventory.findFrom]
  | cons x xs ih =>
    intro i
    simp only [Inventory.findFrom]
    by_cases hx : x.getName = n
    · simp [hx]
    · simp [hx, ih (i + 1)]

theorem removeIfName_eq (inv : Inventory) (n : String) :
    inv.removeIfName n =
      (decide (∃ it ∈ inv.items, it.getName = n),
        { inv with items := inv.items.filter (fun it => !(it.getName == n)) }) := by
  simp only [Inventory.removeIfName, Inventory.removeIfKept, List.take_length]
  by_cases h : (inv.items.filter (fun it => !(it.getName == n))).length = inv.items.length
  · rw [if_pos h]
    have hall := (filter_length_eq_iff _ _).mp h
    have hno : ¬ ∃ it ∈ inv.items, it.getName = n := by
      rintro ⟨it, hit, hn⟩
      have := hall it hit
      simp [hn] at this
    have hself : inv.items.filter (fun it => !(it.getName == n)) = inv.items :=
      List.filter_eq_self.mpr hall
    simp only [hno, decide_False, hself]
  · rw [if_neg h]
    have hex : ∃ it ∈ inv.items, it.getName = n := by
      by_contra hno
      apply h
      rw [filter_length_eq_iff]
      intro x hx
      have : x.getName ≠ n := fun hn => hno ⟨x, hx, hn⟩
      simp [this]
    simp only [hex, decide_True]

/-- C17: `add` returns true and appends the item at the end (the size grows by
exactly one) when the size is below the capacity, and returns false and leaves the
inventory unchanged when the size has reached the capacity; so, starting from an
empty inventory of capacity `c`, after any sequence of `add` / `removeIfName` calls
the capacity is still `c` and the size is at most `c`. -/
theorem inventory_add_bounded (inv : Inventory) (it : Item) (c : Nat)
    (ops : List InventoryOp) :
    (inv.items.length < inv.capacity →
      inv.add it = (true, { inv with items := inv.items ++ [it] }) ∧
      (inv.add it).2.snapshot.length = inv.snapshot.length + 1) ∧
    (inv.items.length ≥ inv.capacity → inv.add it = (false, inv)) ∧
    (ops.foldl InventoryOp.run (Inventory.new c)).capacity = c ∧
    (ops.foldl InventoryOp.run (Inventory.new c)).snapshot.length ≤ c := by
  refine ⟨?_, ?_, ?_⟩
  · intro h
    have h1 : ¬ (inv.items.length ≥ inv.capacity) := by omega
    simp [Inventory.add, h1, Inventory.snapshot]
  · intro h
    simp only [Inventory.add, h, if_true]
  · induction ops using List.reverseRecOn with
    | nil => exact ⟨rfl, Nat.zero_le _⟩
    | append_singleton ops op ih =>
      rw [List.foldl_append]
      simp only [List.foldl_cons, List.foldl_nil]
      generalize ops.foldl InventoryOp.run (Inventory.new c) = cur at ih ⊢
      obtain ⟨hc, hl⟩ := ih
      simp only [Inventory.snapshot] at hl ⊢
      cases op with
      | add x =>
        simp only [InventoryOp.run, Inventory.add]
        split
        · exact ⟨hc, hl⟩
        · refine ⟨hc, ?_⟩
          simp only [List.length_append, List.length_singleton]
          omega
      | removeIfName n =>
        simp only [InventoryOp.run, removeIfName_eq]
        refine ⟨hc, le_trans (List.length_filter_le _ _) hl⟩

/-- C17, witness: the calls of the unit test; the fourth `add` on the inventory
of capacity 3 returns false and changes nothing. -/
theorem inventory_add_bounded_witness :
    fullInventory.items.length ≥ fullInventory.capacity ∧
    fullInventory.add ⟨"Extra", 40⟩ = (false, fullInventory) ∧
    ((Inventory.new 3).add ⟨"Sword", 10⟩).1 = true ∧
    ((Inventory.new 3).add ⟨"Sword", 10⟩).2.snapshot.length = 1 :=
  ⟨by decide,
    (inventory_add_bounded fullInventory ⟨"Extra", 40⟩ 3 []).2.1 (by decide),
    by decide, by decide⟩

/-- C18: `removeIfName(n)` returns true if and only if some stored item is named
`n`; afterwards `findByName(n)` returns the null pointer, the contents are exactly
the items whose name differs from `n`, in their original order, and the capacity
is as before; when it returns false the inventory is unchanged. -/
theorem removeIfName_spec (inv : Inventory) (n : String) :
    ((inv.removeIfName n).1 = true ↔ ∃ it ∈ inv.items, it.getName = n) ∧
    (inv.removeIfName n).2.findByName n = none ∧
    (inv.removeIfName n).2.items = inv.items.filter (fun it => it.getName ≠ n) ∧
    (inv.removeIfName n).2.capacity = inv.capacity ∧
    ((inv.removeIfName n).1 = false → (inv.removeIfName n).2 = inv) := by
  have hfilter : inv.items.filter (fun it => !(it.getName == n)) =
      inv.items.filter (fun it => it.getName ≠ n) := by
    apply List.filter_congr
    intro x _
    by_cases hx : x.getName = n <;> simp [hx]
  rw [removeIfName_eq]
  refine ⟨by simp, ?_, hfilter, rfl, ?_⟩
  · simp only [Inventory.findByName]
    rw [findFrom_eq_none]
    intro it hit
    have := (List.mem_filter.mp hit).2
    simpa using this
  · intro h
    simp only [decide_eq_false_iff_not] at h
    have hall : ∀ x ∈ inv.items, (!(x.getName == n)) = true := by
      intro x hx
      have : x.getName ≠ n := fun hn => h ⟨x, hx, hn⟩
      simp [this]
    simp only [List.filter_eq_self.mpr hall]

/-- C18, witness: the removal of the unit test; "Shield" is stored, `removeIfName`
returns true and `findByName` then finds nothing. -/
theorem removeIfName_spec_witness :
    (∃ it ∈ fullInventory.items, it.getName = "Shield") ∧
    (fullInventory.removeIfName "Shield").1 = true ∧
    (fullInventory.removeIfName "Shield").2.findByName "Shield" = none ∧
    (fullInventory.removeIfName "Shield").2.items = [⟨"Sword", 10⟩, ⟨"Potion", 30⟩] :=
  ⟨⟨⟨"Shield", 20⟩, by decide, by decide⟩,
    (removeIfName_spec fullInventory "Shield").1.mpr ⟨⟨"Shield", 20⟩, by decide, by decide⟩,
    (removeIfName_spec fullInventory "Shield").2.1, by decide⟩

/-! ### Random generation: invariants of the two loops -/

theorem addChildrenLoop_invariant (skillFactory : Nat → Option Skill) (node : NodePath)
    (depth : Int) (P : Nat → GenState → Prop)
    (hstep : ∀ i st, P i st →
      P (i + 1) { st with root := (addChildAt st.root node (skillFactory st.made)).1,
                          queue := st.queue ++
                            [((addChildAt st.root node (skillFactory st.made)).2, depth + 1)],
                          made := st.made + 1 })
    (count : Nat) :
    ∀ i st, P i st → P (i + count) (addChildrenLoop skillFactory node depth count st) := by
  induction count with
  | zero => intro i st h; simpa [addChildrenLoop] using h
  | succ count ih =>
    intro i st h
    have := ih (i + 1) _ (hstep i st h)
    rw [addChildrenLoop]
    have e : i + (count + 1) = i + 1 + count := by omega
    rw [e]
    exact this

theorem generateLoop_invariant (skillFactory : Nat → Option Skill)
    (distChildren : Int → Int → Nat → Int) (maxDepth maxChildren : Int)
    (P : GenState → Prop)
    (hskip : ∀ st node depth rest, st.queue = (node, depth) :: rest → depth ≥ maxDepth →
      P st → P { st with queue := rest })
    (hexpand : ∀ st node depth rest, st.queue = (node, depth) :: rest → depth < maxDepth →
      P st → P (addChildrenLoop skillFactory node depth
        (distChildren 0 maxChildren st.drawn).toNat
        { st with queue := rest, drawn := st.drawn + 1 }))
    (fuel : Nat) :
    ∀ st st1, generateLoop skillFactory distChildren maxDepth maxChildren fuel st = some st1 →
      P st → P st1 ∧ st1.queue = [] := by
  induction fuel with
  | zero => intro st st1 h; simp [generateLoop] at h
  | succ fuel ih =>
    intro st st1 h hP
    cases hq : st.queue with
    | nil =>
      simp only [generateLoop, hq, Option.some.injEq] at h
      subst h
      exact ⟨hP, hq⟩
    | cons e rest =>
      obtain ⟨node, depth⟩ := e
      by_cases hge : depth ≥ maxDepth
      · simp only [generateLoop, hq, hge, if_true] at h
        exact ih _ _ h (hskip st node depth rest hq hge hP)
      · simp only [generateLoop, hq, hge, if_false] at h
        exact ih _ _ h (hexpand st node depth rest hq (by omega) hP)

theorem addChildrenLoop_made (skillFactory : Nat → Option Skill) (node : NodePath)
    (depth : Int) (count : Nat) (st : GenState) :
    (addChildrenLoop skillFactory node depth count st).made = st.made + count ∧
    (addChildrenLoop skillFactory node depth count st).drawn = st.drawn ∧
    ∃ added : List (NodePath × Int),
      (addChildrenLoop skillFactory node depth count st).queue = st.queue ++ added ∧
      added.length = count ∧ ∀ e ∈ added, e.2 = depth + 1 := by
  have h := addChildrenLoop_invariant skillFactory node depth
    (fun i s => s.made = st.made + i ∧ s.drawn = st.drawn ∧
      ∃ added : List (NodePath × Int), s.queue = st.queue ++ added ∧
        added.length = i ∧ ∀ e ∈ added, e.2 = depth + 1)
    (by
      rintro i s ⟨h1, h2, added, h3, h4, h5⟩
      refine ⟨by simp only [h1]; omega, h2, added ++ [((addChildAt s.root node
        (skillFactory s.made)).2, depth + 1)], by simp [h3], by simp [h4], ?_⟩
      intro e he
      rcases List.mem_append.mp he with he | he
      · exact h5 e he
      · simp only [List.mem_singleton] at he
        rw [he])
    count 0 st ⟨rfl, rfl, [], by simp, rfl, by simp⟩
  simpa using h

/-! ### The number of nodes -/

theorem sizeChildren_append (a b : List SkillTreeNode) :
    sizeChildren (a ++ b) = sizeChildren a + sizeChildren b := by
  induction a with
  | nil => simp [sizeChildren]
  | cons c cs ih =>
    rw [List.cons_append]
    simp only [sizeChildren]
    rw [ih]
    omega

theorem sizeChildren_set (ch : List SkillTreeNode) :
    ∀ (i : Nat) (c d : SkillTreeNode), ch[i]? = some c →
      sizeChildren (ch.set i d) + c.size = sizeChildren ch + d.size := by
  induction ch with
  | nil => intro i c d h; simp at h
  | cons x xs ih =>
    intro i c d h
    cases i with
    | zero =>
      simp only [List.getElem?_cons_zero, Option.some.injEq] at h
      subst h
      simp only [List.set_cons_zero, sizeChildren]
      omega
    | succ i =>
      simp only [List.getElem?_cons_succ] at h
      have := ih i c d h
      simp only [List.set_cons_succ, sizeChildren]
      omega

theorem size_updateAt_addChild (s : Option Skill) (p : NodePath) :
    ∀ (r n : SkillTreeNode), r.nodeAt p = some n →
      (r.updateAt (fun m => (m.addChild s).1) p).size = r.size + 1 := by
  induction p with
  | nil =>
    intro r n _
    cases r with
    | mk sk ch =>
      simp only [SkillTreeNode.updateAt, SkillTreeNode.addChild, getSkill_mk, getChildren_mk,
        SkillTreeNode.size, sizeChildren_append, SkillTreeNode.new, sizeChildren]
      omega
  | cons i p ih =>
    intro r n h
    cases r with
    | mk sk ch =>
      rw [nodeAt_cons] at h
      simp only [getChildren_mk] at h
      cases hc : ch[i]? with
      | none => simp [hc] at h
      | some c =>
        simp only [hc, Option.some_bind] at h
        have h1 := ih c n h
        have h2 := sizeChildren_set ch i c (c.updateAt (fun m => (m.addChild s).1) p) hc
        simp only [SkillTreeNode.updateAt, getChildren_mk, hc, getSkill_mk, SkillTreeNode.size]
        omega

theorem addChildAt_size (r : SkillTreeNode) (node : NodePath) (s sk : Option Skill) (i : Nat)
    (h : (r.nodeAt node).map SkillTreeNode.view = some (sk, i)) :
    (addChildAt r node s).1.size = r.size + 1 := by
  cases hn : r.nodeAt node with
  | none => rw [hn] at h; cases h
  | some n =>
    simp only [addChildAt, hn]
    exact size_updateAt_addChild s node r n hn

mutual
theorem preorder_length :
    ∀ (t : SkillTreeNode) (base : NodePath), (t.preorder base).length = t.size
  | .mk sk ch, base => by
    simp only [SkillTreeNode.preorder, SkillTreeNode.size, List.length_cons]
    rw [preorderChildren_length ch base 0]
    omega
theorem preorderChildren_length :
    ∀ (ch : List SkillTreeNode) (base : NodePath) (i : Nat),
      (preorderChildren ch base i).length = sizeChildren ch
  | [], _, _ => by simp [preorderChildren, sizeChildren]
  | c :: cs, base, i => by
    simp only [preorderChildren, sizeChildren, List.length_append]
    rw [preorder_length c, preorderChildren_length cs]
end

theorem genWeight_eq_sum (mc : Nat) (k : Nat) :
    genWeight mc k = Finset.sum (Finset.range (k + 1)) (fun i => mc ^ i) := by
  induction k with
  | zero => simp [genWeight]
  | succ k ih =>
    rw [genWeight, ih, Finset.sum_range_succ' _ (k + 1), Finset.mul_sum]
    simp only [pow_succ, pow_zero]
    rw [Nat.add_comm]
    congr 1
    apply Finset.sum_congr rfl
    intro x _
    ring

theorem addChildrenLoop_size (skillFactory : Nat → Option Skill) (node : NodePath)
    (depth : Int) (count : Nat) (st : GenState) (sk : Option Skill) (k : Nat)
    (h : (st.root.nodeAt node).map SkillTreeNode.view = some (sk, k)) :
    (addChildrenLoop skillFactory node depth count st).root.size = st.root.size + count := by
  have := addChildrenLoop_invariant skillFactory node depth
    (fun i s => s.root.size = st.root.size + i ∧
      (s.root.nodeAt node).map SkillTreeNode.view = some (sk, k + i))
    (by
      rintro i s ⟨h1, h2⟩
      refine ⟨?_, ?_⟩
      · simp only [addChildAt_size s.root node _ sk (k + i) h2, h1]
        omega
      · have := (addChildAt_view s.root node (skillFactory s.made) sk (k + i) h2).2 node
        simpa using this)
    count 0 st ⟨rfl, h⟩
  simpa using this.1

theorem sum_map_const_depth (F : Int → Nat) (d : Int) (added : List (NodePath × Int))
    (h : ∀ e ∈ added, e.2 = d) :
    (added.map (fun e => F e.2)).sum = added.length * F d := by
  induction added with
  | nil => simp
  | cons e es ih =>
    have he : e.2 = d := h e (List.mem_cons_self _ _)
    have := ih (fun x hx => h x (List.mem_cons_of_mem _ hx))
    simp only [List.map_cons, List.sum_cons, List.length_cons, this, he]
    ring

theorem generateLoop_count (skillFactory : Nat → Option Skill)
    (distChildren : Int → Int → Nat → Int) (maxDepth maxChildren : Int)
    (hmc : 0 ≤ maxChildren)
    (hdraw : ∀ k, 0 ≤ distChildren 0 maxChildren k ∧ distChildren 0 maxChildren k ≤ maxChildren)
    (fuel : Nat) (st st1 : GenState)
    (hrun : generateLoop skillFactory distChildren maxDepth maxChildren fuel st = some st1)
    (hinv : GenInv maxDepth maxChildren st.root st.queue)
    (hcount : CountInv maxDepth maxChildren st) :
    GenInv maxDepth maxChildren st1.root st1.queue ∧ CountInv maxDepth maxChildren st1 ∧
      st1.queue = [] := by
  have h := generateLoop_invariant skillFactory distChildren maxDepth maxChildren
    (fun s => GenInv maxDepth maxChildren s.root s.queue ∧ CountInv maxDepth maxChildren s)
    (by
      rintro s node depth rest hq _ ⟨⟨hI1, hI2, hI3⟩, hc1, hc2⟩
      rw [hq] at hI2 hI3 hc2
      refine ⟨⟨hI1, fun e he => hI2 e (List.mem_cons_of_mem _ he), ?_⟩, hc1, ?_⟩
      · simp only [List.map_cons, List.nodup_cons] at hI3
        exact hI3.2
      · simp only [List.map_cons, List.sum_cons] at hc2
        simp only
        omega)
    (by
      rintro s node depth rest hq hlt ⟨⟨hI1, hI2, hI3⟩, hc1, hc2⟩
      rw [hq] at hI2 hI3 hc2
      have hrest : GenInv maxDepth maxChildren s.root rest := by
        refine ⟨hI1, fun e he => hI2 e (List.mem_cons_of_mem _ he), ?_⟩
        simp only [List.map_cons, List.nodup_cons] at hI3
        exact hI3.2
      obtain ⟨⟨sk, hview⟩, hdepth⟩ := hI2 (node, depth) (List.mem_cons_self _ _)
      simp only at hview hdepth
      have hnotin : node ∉ rest.map Prod.fst := by
        simp only [List.map_cons, List.nodup_cons] at hI3
        exact hI3.1
      obtain ⟨hd0, hd1⟩ := hdraw s.drawn
      have hcnt : ((0 + (distChildren 0 maxChildren s.drawn).toNat : Nat) : Int)
          ≤ maxChildren := by
        rw [Nat.zero_add, Int.toNat_of_nonneg hd0]
        exact hd1
      obtain ⟨hinv2, _⟩ := addChildrenLoop_spec skillFactory node depth maxDepth maxChildren
        hmc hdepth hlt (distChildren 0 maxChildren s.drawn).toNat
        { s with queue := rest, drawn := s.drawn + 1 } sk 0 hrest hview hcnt hnotin
      refine ⟨hinv2, ?_, ?_⟩
      · have hs := addChildrenLoop_size skillFactory node depth
          (distChildren 0 maxChildren s.drawn).toNat
          { s with queue := rest, drawn := s.drawn + 1 } sk 0 hview
        have hm := (addChildrenLoop_made skillFactory node depth
          (distChildren 0 maxChildren s.drawn).toNat
          { s with queue := rest, drawn := s.drawn + 1 }).1
        rw [hs, hm]
        simp only [hc1]
      · obtain ⟨hmade, _, added, hqueue, hlen, hdep⟩ := addChildrenLoop_made skillFactory node
          depth (distChildren 0 maxChildren s.drawn).toNat
          { s with queue := rest, drawn := s.drawn + 1 }
        rw [hmade, hqueue]
        simp only [List.map_append, List.sum_append]
        rw [sum_map_const_depth
          (fun d => genWeight maxChildren.toNat (maxDepth - d).toNat - 1) (depth + 1) added hdep,
          hlen]
        simp only [List.map_cons, List.sum_cons] at hc2
        have hk : (maxDepth - depth).toNat = (maxDepth - (depth + 1)).toNat + 1 := by omega
        rw [hk, genWeight] at hc2
        obtain ⟨g1, hg1⟩ : ∃ g1, genWeight maxChildren.toNat (maxDepth - (depth + 1)).toNat
            = g1 + 1 := ⟨_, (Nat.sub_add_cancel (genWeight_pos _ _)).symm⟩
        rw [hg1] at hc2 ⊢
        have hnc : (distChildren 0 maxChildren s.drawn).toNat ≤ maxChildren.toNat := by omega
        have hmul := Nat.mul_le_mul_right g1 hnc
        have e1 : maxChildren.toNat * (g1 + 1) = maxChildren.toNat * g1 + maxChildren.toNat := by
          ring
        rw [e1] at hc2
        simp only [Nat.add_sub_cancel] at hc2 ⊢
        omega)
    fuel st st1 hrun ⟨hinv, hcount⟩
  exact ⟨h.1.1, h.1.2, h.2⟩

theorem generateStart_count (skillFactory : Nat → Option Skill) (maxDepth maxChildren : Int) :
    CountInv maxDepth maxChildren (generateStart skillFactory) := by
  have hpos := genWeight_pos maxChildren.toNat (maxDepth - 1).toNat
  refine ⟨?_, ?_⟩
  · simp [generateStart, SkillTreeNode.new, SkillTreeNode.size, sizeChildren]
  · simp only [generateStart, List.map_cons, List.map_nil, List.sum_cons, List.sum_nil]
    omega

theorem generateLoop_shallow (skillFactory : Nat → Option Skill)
    (distChildren : Int → Int → Nat → Int) (maxDepth maxChildren : Int) (h : maxDepth ≤ 1)
    (fuel : Nat) :
    generateLoop skillFactory distChildren maxDepth maxChildren (fuel + 2)
      (generateStart skillFactory) = some { generateStart skillFactory with queue := [] } := by
  have hge : (1 : Int) ≥ maxDepth := h
  simp only [generateLoop, generateStart, hge, if_true]

/-- C20, as amended: counting the root as depth 0, for every `maxDepth`, every
`maxChildren >= 0` and every sequence of child-count draws in `[0, maxChildren]`,
`generateRandom` finishes and every node of the tree it builds lies at depth at
most `max(0, maxDepth - 1)`; for `maxDepth <= 1` the tree is the single root; for
`maxDepth >= 1` no node sits exactly `maxDepth` levels below the root; and the
number of nodes is at most the sum of `maxChildren^k` for
`k = 0..max(1, maxDepth) - 1`. -/
theorem generateRandom_depth_and_count (skillFactory : Nat → Option Skill)
    (distChildren : Int → Int → Nat → Int) (maxDepth maxChildren : Int)
    (hmc : 0 ≤ maxChildren)
    (hdraw : ∀ k, 0 ≤ distChildren 0 maxChildren k ∧ distChildren 0 maxChildren k ≤ maxChildren)
    (fuel : Nat) (hfuel : genFuel maxDepth maxChildren ≤ fuel) :
    ∃ t root,
      SkillTree.generateRandom skillFactory distChildren maxDepth maxChildren fuel = some t ∧
      t.root = some root ∧
      (∀ p n, root.nodeAt p = some n → (p.length : Int) ≤ max 0 (maxDepth - 1)) ∧
      (maxDepth ≤ 1 → root = SkillTreeNode.new (skillFactory 0)) ∧
      (maxDepth ≠ 0 → ∀ p n, root.nodeAt p = some n → (p.length : Int) ≠ maxDepth) ∧
      t.nodes.length = root.size ∧
      root.size ≤ Finset.sum (Finset.range ((max 1 maxDepth).toNat))
        (fun k => maxChildren.toNat ^ k) := by
  have hw : queueWeight maxDepth maxChildren.toNat (generateStart skillFactory).queue + 1
      ≤ fuel := by
    have : queueWeight maxDepth maxChildren.toNat (generateStart skillFactory).queue =
        genWeight maxChildren.toNat (maxDepth - 1).toNat := by
      simp [queueWeight, generateStart]
    rw [this]
    exact hfuel
  obtain ⟨st1, hst1, _⟩ := generateLoop_spec skillFactory distChildren maxDepth
    maxChildren hmc hdraw fuel (generateStart skillFactory)
    (generateStart_inv skillFactory maxDepth maxChildren hmc) hw
  obtain ⟨⟨hI1, _, _⟩, ⟨hsize, hpot⟩, hq⟩ := generateLoop_count skillFactory distChildren maxDepth
    maxChildren hmc hdraw fuel _ st1 hst1
    (generateStart_inv skillFactory maxDepth maxChildren hmc)
    (generateStart_count skillFactory maxDepth maxChildren)
  have hdepth : ∀ p n, st1.root.nodeAt p = some n →
      (p.length : Int) + 1 ≤ max 1 maxDepth := by
    intro p n hp
    exact (hI1 p n.getSkill n.getChildren.length (by rw [hp]; rfl)).2
  refine ⟨⟨some st1.root⟩, st1.root, ?_, rfl, ?_, ?_, ?_, ?_, ?_⟩
  · simp only [SkillTree.generateRandom, hst1, Option.map_some']
  · intro p n hp
    have := hdepth p n hp
    rcases le_total (1 : Int) maxDepth with h | h
    · rw [max_eq_right h] at this
      rw [max_eq_right (by omega)]
      omega
    · rw [max_eq_left h] at this
      have : (0 : Int) ≤ max 0 (maxDepth - 1) := le_max_left _ _
      omega
  · intro h
    have hfuel2 : 2 ≤ fuel := by
      have := genWeight_pos maxChildren.toNat (maxDepth - 1).toNat
      simp only [genFuel] at hfuel
      omega
    obtain ⟨f2, rfl⟩ : ∃ f2, fuel = f2 + 2 := ⟨fuel - 2, by omega⟩
    rw [generateLoop_shallow skillFactory distChildren maxDepth maxChildren h f2] at hst1
    simp only [Option.some.injEq] at hst1
    rw [← hst1]
    rfl
  · intro h p n hp
    have := hdepth p n hp
    rcases le_total (1 : Int) maxDepth with h1 | h1
    · rw [max_eq_right h1] at this
      omega
    · omega
  · simp only [SkillTree.nodes]
    exact preorder_length st1.root []
  · rw [hq] at hpot
    simp only [List.map_nil, List.sum_nil, Nat.add_zero] at hpot
    rw [hsize]
    refine le_trans hpot ?_
    rw [genWeight_eq_sum]
    have : (maxDepth - 1).toNat + 1 = (max 1 maxDepth).toNat := by
      rcases le_total (1 : Int) maxDepth with h | h
      · rw [max_eq_right h]; omega
      · rw [max_eq_left h]
        have : (maxDepth - 1).toNat = 0 := by omega
        rw [this]
        rfl
    rw [this]

/-- C20, witness: the amended statement at `maxDepth = 3`, `maxChildren = 2` with
every draw equal to 2; the bound on the number of nodes is `1 + 2 + 4`. -/
theorem generateRandom_depth_and_count_witness :
    (0 : Int) ≤ 2 ∧ (∀ k, 0 ≤ drawMax 0 2 k ∧ drawMax 0 2 k ≤ 2) ∧ genFuel 3 2 ≤ 8 ∧
    ∃ t root,
      SkillTree.generateRandom countingFactory drawMax 3 2 8 = some t ∧
      t.root = some root ∧
      (∀ p n, root.nodeAt p = some n → (p.length : Int) ≤ max 0 (3 - 1)) ∧
      (∀ p n, root.nodeAt p = some n → (p.length : Int) ≠ 3) ∧
      t.nodes.length = root.size ∧
      root.size ≤ Finset.sum (Finset.range ((max 1 3 : Int).toNat)) (fun k => (2 : Int).toNat ^ k) := by
  obtain ⟨t, root, h1, h2, h3, _, h5, h6, h7⟩ :=
    generateRandom_depth_and_count countingFactory drawMax 3 2 (by decide)
      (fun _ => ⟨(by decide : (0 : Int) ≤ 2), (by decide : (2 : Int) ≤ 2)⟩) 8 (by decide)
  exact ⟨by decide, fun _ => ⟨(by decide : (0 : Int) ≤ 2), (by decide : (2 : Int) ≤ 2)⟩,
    by decide, t, root, h1, h2, h3, h5 (by decide), h6, h7⟩

/-- C20, counterexample: with `maxDepth = 0` (and `maxChildren = 2`, draws within
`[0, 2]`) `generateRandom` builds the single root: the tree has one node, which
is more than the empty sum over `k = 0..maxDepth - 1`, and this node lies exactly
`maxDepth = 0` levels below the root. -/
theorem generateRandom_zero_maxDepth :
    (0 : Int) ≤ 2 ∧ (∀ k, 0 ≤ drawMax 0 2 k ∧ drawMax 0 2 k ≤ 2) ∧ genFuel 0 2 ≤ 2 ∧
    ∃ t root, SkillTree.generateRandom countingFactory drawMax 0 2 2 = some t ∧
      t.root = some root ∧ root.size = 1 ∧ t.nodes.length = 1 ∧
      ¬ (root.size ≤ Finset.sum (Finset.range ((0 : Int).toNat)) (fun k => (2 : Int).toNat ^ k)) ∧
      ∃ p n, root.nodeAt p = some n ∧ (p.length : Int) = 0 :=
  ⟨by decide, fun _ => ⟨(by decide : (0 : Int) ≤ 2), (by decide : (2 : Int) ≤ 2)⟩, by decide,
    ⟨some (SkillTreeNode.new (countingFactory 0))⟩, SkillTreeNode.new (countingFactory 0),
    rfl, rfl, by decide, by decide, by decide, [], _, rfl, rfl⟩

/-! ### The order of the level order listing -/

theorem pathLexLt_irrefl : ∀ p : NodePath, ¬ pathLexLt p p
  | [] => by simp [pathLexLt]
  | a :: p => by
    simp only [pathLexLt, lt_self_iff_false, true_and, false_or]
    exact pathLexLt_irrefl p

theorem pathLexLt_asymm : ∀ p q : NodePath, pathLexLt p q → ¬ pathLexLt q p
  | [], [], h => by simp [pathLexLt] at h
  | [], _ :: _, _ => by simp [pathLexLt]
  | _ :: _, [], h => by simp [pathLexLt] at h
  | a :: p, b :: q, h => by
    simp only [pathLexLt] at h ⊢
    rintro (h2 | ⟨h2, h3⟩)
    · rcases h with h | ⟨h, _⟩ <;> omega
    · rcases h with h | ⟨_, h⟩
      · omega
      · exact pathLexLt_asymm p q h h3

theorem pathLexLt_snoc_of_lt (a b : Nat) (h : a < b) :
    ∀ q : NodePath, pathLexLt (q ++ [a]) (q ++ [b])
  | [] => by simp [pathLexLt, h]
  | x :: q => by
    simp only [List.cons_append, pathLexLt, lt_self_iff_false, true_and, false_or]
    exact pathLexLt_snoc_of_lt a b h q

theorem pathLexLt_snoc_of_lex (a b : Nat) :
    ∀ p q : NodePath, p.length = q.length → pathLexLt p q → pathLexLt (p ++ [a]) (q ++ [b])
  | [], [], _, h => by simp [pathLexLt] at h
  | [], _ :: _, hl, _ => by simp at hl
  | _ :: _, [], hl, _ => by simp at hl
  | x :: p, y :: q, hl, h => by
    simp only [List.length_cons, Nat.add_right_cancel_iff] at hl
    simp only [List.cons_append, pathLexLt] at h ⊢
    rcases h with h | ⟨h1, h2⟩
    · exact Or.inl h
    · exact Or.inr ⟨h1, pathLexLt_snoc_of_lex a b p q hl h2⟩

theorem levelOrderLt_irrefl (p : NodePath) : ¬ levelOrderLt p p := by
  rintro (h | ⟨_, h⟩)
  · omega
  · exact pathLexLt_irrefl p h

theorem levelOrderLt_asymm (p q : NodePath) (h : levelOrderLt p q) : ¬ levelOrderLt q p := by
  rintro (h2 | ⟨h2, h3⟩)
  · rcases h with h | ⟨h, _⟩ <;> omega
  · rcases h with h | ⟨_, h⟩
    · omega
    · exact pathLexLt_asymm p q h h3

theorem levelOrderLt_snoc (p q : NodePath) (a b : Nat) (h : levelOrderLt p q) :
    levelOrderLt (p ++ [a]) (q ++ [b]) := by
  rcases h with h | ⟨h1, h2⟩
  · left; simp; omega
  · right
    exact ⟨by simp [h1], pathLexLt_snoc_of_lex a b p q h1 h2⟩

theorem levelOrderLt_snoc_of_lt (q : NodePath) (a b : Nat) (h : a < b) :
    levelOrderLt (q ++ [a]) (q ++ [b]) :=
  Or.inr ⟨by simp, pathLexLt_snoc_of_lt a b h q⟩

/-! ### Levels of a tree -/

theorem mem_bindIdx {α β : Type} (f : Nat → α → List β) (x : β) :
    ∀ (cs : List α) (start : Nat),
      x ∈ bindIdx f cs start ↔ ∃ i c, cs[i]? = some c ∧ x ∈ f (start + i) c := by
  intro cs
  induction cs with
  | nil => intro start; simp [bindIdx]
  | cons d ds ih =>
    intro start
    simp only [bindIdx, List.mem_append, ih]
    constructor
    · rintro (h | ⟨i, c, hc, hx⟩)
      · exact ⟨0, d, by simp, by simpa using h⟩
      · refine ⟨i + 1, c, by simpa using hc, ?_⟩
        have : start + (i + 1) = start + 1 + i := by omega
        rw [this]
        exact hx
    · rintro ⟨i, c, hc, hx⟩
      cases i with
      | zero =>
        simp only [List.getElem?_cons_zero, Option.some.injEq] at hc
        subst hc
        exact Or.inl (by simpa using hx)
      | succ i =>
        right
        refine ⟨i, c, by simpa using hc, ?_⟩
        have : start + 1 + i = start + (i + 1) := by omega
        rw [this]
        exact hx

theorem mem_atDepth (k : Nat) :
    ∀ (t : SkillTreeNode) (p : NodePath) (n : SkillTreeNode),
      (p, n) ∈ t.atDepth k ↔ p.length = k ∧ t.nodeAt p = some n := by
  induction k with
  | zero =>
    intro t p n
    simp only [SkillTreeNode.atDepth, List.mem_singleton, Prod.mk.injEq, List.length_eq_zero]
    constructor
    · rintro ⟨rfl, rfl⟩
      exact ⟨rfl, rfl⟩
    · rintro ⟨rfl, h⟩
      simp only [SkillTreeNode.nodeAt, Option.some.injEq] at h
      exact ⟨rfl, h.symm⟩
  | succ k ih =>
    intro t p n
    simp only [SkillTreeNode.atDepth, mem_bindIdx, Nat.zero_add, List.mem_map,
      Prod.mk.injEq, Prod.exists]
    constructor
    · rintro ⟨i, c, hc, q, m, hq, rfl, rfl⟩
      obtain ⟨hlen, hn⟩ := (ih c q m).mp hq
      refine ⟨by simp [hlen], ?_⟩
      rw [nodeAt_cons, hc]
      exact hn
    · rintro ⟨hlen, hn⟩
      cases p with
      | nil => simp at hlen
      | cons i q =>
        rw [nodeAt_cons] at hn
        cases hc : t.getChildren[i]? with
        | none => simp [hc] at hn
        | some c =>
          simp only [hc, Option.some_bind] at hn
          refine ⟨i, c, hc, q, n, (ih c q n).mpr ⟨by simpa using hlen, hn⟩, rfl, rfl⟩

theorem pairwise_bindIdx_cons (g : SkillTreeNode → List (NodePath × SkillTreeNode))
    (hg : ∀ c, (g c).Pairwise (fun x y => pathLexLt x.1 y.1)) :
    ∀ (cs : List SkillTreeNode) (start : Nat),
      (bindIdx (fun i c => (g c).map (fun x => (i :: x.1, x.2))) cs start).Pairwise
        (fun x y => pathLexLt x.1 y.1) := by
  intro cs
  induction cs with
  | nil => intro start; simp [bindIdx]
  | cons d ds ih =>
    intro start
    simp only [bindIdx, List.pairwise_append]
    refine ⟨?_, ih (start + 1), ?_⟩
    · rw [List.pairwise_map]
      refine (hg d).imp ?_
      intro a b hab
      simp only [pathLexLt, lt_self_iff_false, true_and, false_or]
      exact hab
    · intro x hx y hy
      obtain ⟨a, _, rfl⟩ := List.mem_map.mp hx
      obtain ⟨i, c, _, hy2⟩ := (mem_bindIdx _ y ds (start + 1)).mp hy
      obtain ⟨b, _, rfl⟩ := List.mem_map.mp hy2
      simp only [pathLexLt]
      left
      omega

theorem atDepth_sorted (k : Nat) :
    ∀ t : SkillTreeNode, (t.atDepth k).Pairwise (fun x y => pathLexLt x.1 y.1) := by
  induction k with
  | zero => intro t; simp [SkillTreeNode.atDepth]
  | succ k ih =>
    intro t
    simp only [SkillTreeNode.atDepth]
    exact pairwise_bindIdx_cons (fun c => c.atDepth k) ih t.getChildren 0

theorem height_child (ch : List SkillTreeNode) :
    ∀ (i : Nat) (c : SkillTreeNode), ch[i]? = some c → c.height + 1 ≤ heightChildren ch := by
  induction ch with
  | nil => intro i c h; simp at h
  | cons d ds ih =>
    intro i c h
    simp only [heightChildren]
    cases i with
    | zero =>
      simp only [List.getElem?_cons_zero, Option.some.injEq] at h
      subst h
      exact le_max_left _ _
    | succ i =>
      simp only [List.getElem?_cons_succ] at h
      exact le_trans (ih i c h) (le_max_right _ _)

theorem length_le_height (p : NodePath) :
    ∀ (t n : SkillTreeNode), t.nodeAt p = some n → p.length ≤ t.height := by
  induction p with
  | nil => intro t n _; simp
  | cons i p ih =>
    intro t n h
    cases t with
    | mk sk ch =>
      rw [nodeAt_cons] at h
      simp only [getChildren_mk] at h
      cases hc : ch[i]? with
      | none => simp [hc] at h
      | some c =>
        simp only [hc, Option.some_bind] at h
        have h1 := ih c n h
        have h2 := height_child ch i c hc
        simp only [SkillTreeNode.height, List.length_cons]
        omega

theorem mem_levelOrder (t : SkillTreeNode) (p : NodePath) (n : SkillTreeNode) :
    (p, n) ∈ t.levelOrder ↔ t.nodeAt p = some n := by
  simp only [SkillTreeNode.levelOrder, List.mem_flatMap, List.mem_range, mem_atDepth]
  constructor
  · rintro ⟨k, _, _, h⟩
    exact h
  · intro h
    exact ⟨p.length, by have := length_le_height p t n h; omega, rfl, h⟩

theorem levelOrder_sorted (t : SkillTreeNode) :
    (t.levelOrder.map Prod.fst).Pairwise levelOrderLt := by
  rw [List.pairwise_map]
  simp only [SkillTreeNode.levelOrder]
  rw [List.pairwise_flatMap]
  refine ⟨?_, ?_⟩
  · intro k _
    have h1 := atDepth_sorted k t
    have h2 : ∀ x ∈ t.atDepth k, x.1.length = k := by
      intro x hx
      exact ((mem_atDepth k t x.1 x.2).mp hx).1
    have h3 : (t.atDepth k).Pairwise (fun x y => x.1.length = k ∧ y.1.length = k) := by
      rw [List.pairwise_iff_forall_sublist]
      intro a b hab
      have ha : a ∈ t.atDepth k := hab.subset (by simp)
      have hb : b ∈ t.atDepth k := hab.subset (by simp)
      exact ⟨h2 a ha, h2 b hb⟩
    refine (h1.and h3).imp ?_
    rintro a b ⟨hlex, ha, hb⟩
    exact Or.inr ⟨by rw [ha, hb], hlex⟩
  · refine (List.pairwise_lt_range (t.height + 1)).imp ?_
    intro k1 k2 hk x hx y hy
    have h1 := ((mem_atDepth k1 t x.1 x.2).mp hx).1
    have h2 := ((mem_atDepth k2 t y.1 y.2).mp hy).1
    left
    omega

/-! ### Random generation: breadth-first order -/

theorem view_parent (r : SkillTreeNode) (x0 : NodePath) (a : Nat)
    (h : (r.nodeAt (x0 ++ [a])).map SkillTreeNode.view ≠ none) :
    ∃ sk0 k0, (r.nodeAt x0).map SkillTreeNode.view = some (sk0, k0) ∧ a < k0 := by
  rw [nodeAt_append] at h
  cases hn : r.nodeAt x0 with
  | none => simp [hn] at h
  | some n0 =>
    refine ⟨n0.getSkill, n0.getChildren.length, rfl, ?_⟩
    by_contra hlt
    apply h
    simp only [hn, Option.some_bind, nodeAt_cons]
    rw [List.getElem?_eq_none (by omega)]
    rfl

theorem getElem?_append_of_some {α : Type} (l l2 : List α) (j : Nat) (x : α)
    (h : l[j]? = some x) : (l ++ l2)[j]? = some x := by
  have hj : j < l.length := by
    by_contra hge
    rw [List.getElem?_eq_none (by omega)] at h
    cases h
  rw [List.getElem?_append_left hj]
  exact h

theorem BfsInv_pop (skillFactory : Nat → Option Skill) (root : SkillTreeNode)
    (q : NodePath) (d : Int) (rest : List (NodePath × Int)) (made : Nat) (done : List NodePath)
    (h : BfsInv skillFactory root ((q, d) :: rest) made done) :
    BfsInv skillFactory root rest made (done ++ [q]) ∧
    ∃ sk, (root.nodeAt q).map SkillTreeNode.view = some (sk, 0) := by
  obtain ⟨h1, h2, h3, h4, h5, h6⟩ := h
  have e : (done ++ [q]) ++ rest.map Prod.fst = done ++ ((q, d) :: rest).map Prod.fst := by
    simp
  refine ⟨⟨?_, ?_, ?_, ?_, ?_, ?_⟩, h5 q (by simp)⟩
  · rw [e]; exact h1
  · rw [e]; exact h2
  · rw [e]; exact h3
  · rw [e]; exact h4
  · intro p hp
    exact h5 p (by simp only [List.map_cons, List.mem_cons]; exact Or.inr hp)
  · rw [e]; exact h6

theorem BfsInv_new_child_last (skillFactory : Nat → Option Skill) (root : SkillTreeNode)
    (queue : List (NodePath × Int)) (made : Nat) (done : List NodePath) (q : NodePath)
    (sk : Option Skill) (i : Nat)
    (h : BfsInv skillFactory root queue made (done ++ [q]))
    (hview : (root.nodeAt q).map SkillTreeNode.view = some (sk, i)) :
    ∀ x ∈ (done ++ [q]) ++ queue.map Prod.fst, levelOrderLt x (q ++ [i]) := by
  obtain ⟨_, h2, _, h4, h5, _⟩ := h
  intro x hx
  rcases List.eq_nil_or_concat x with rfl | ⟨x0, a, rfl⟩
  · left; simp
  · rw [List.concat_eq_append] at hx ⊢
    obtain ⟨sk0, k0, hv0, hak⟩ := view_parent root x0 a ((h2 _).mpr hx)
    have hx0 : x0 ∈ (done ++ [q]) ++ queue.map Prod.fst := (h2 x0).mp (by rw [hv0]; simp)
    rcases List.mem_append.mp hx0 with hx0 | hx0
    · rcases List.mem_append.mp hx0 with hx0 | hx0
      · apply levelOrderLt_snoc
        rw [List.append_assoc, List.pairwise_append] at h4
        exact h4.2.2 x0 hx0 q (by simp)
      · simp only [List.mem_singleton] at hx0
        subst hx0
        rw [hview] at hv0
        simp only [Option.some.injEq, Prod.mk.injEq] at hv0
        apply levelOrderLt_snoc_of_lt
        omega
    · obtain ⟨sk1, hv1⟩ := h5 x0 hx0
      rw [hv1] at hv0
      simp only [Option.some.injEq, Prod.mk.injEq] at hv0
      omega

theorem BfsInv_add_child (skillFactory : Nat → Option Skill) (root : SkillTreeNode)
    (queue : List (NodePath × Int)) (made : Nat) (done : List NodePath) (q : NodePath)
    (d : Int) (sk : Option Skill) (i m0 : Nat)
    (h : BfsInv skillFactory root queue made (done ++ [q]))
    (hview : (root.nodeAt q).map SkillTreeNode.view = some (sk, i))
    (hmade : made = m0 + i)
    (htrack : ∀ a, a < i → ((done ++ [q]) ++ queue.map Prod.fst)[m0 + a]? = some (q ++ [a])) :
    BfsInv skillFactory (addChildAt root q (skillFactory made)).1
      (queue ++ [((addChildAt root q (skillFactory made)).2, d + 1)]) (made + 1) (done ++ [q]) ∧
    ((addChildAt root q (skillFactory made)).1.nodeAt q).map SkillTreeNode.view
      = some (sk, i + 1) ∧
    (∀ a, a < i + 1 →
      ((done ++ [q]) ++ (queue ++ [((addChildAt root q (skillFactory made)).2, d + 1)]).map
        Prod.fst)[m0 + a]? = some (q ++ [a])) := by
  have hlast := BfsInv_new_child_last skillFactory root queue made done q sk i h hview
  obtain ⟨h1, h2, h3, h4, h5, h6⟩ := h
  obtain ⟨hchild, hviews⟩ := addChildAt_view root q (skillFactory made) sk i hview
  have hnone := view_past_last_child root q sk i hview
  have hcnot : q ++ [i] ∉ (done ++ [q]) ++ queue.map Prod.fst := by
    intro hc
    exact (h2 _).mpr hc hnone
  have hne : q ++ [i] ≠ q := by
    intro hh
    have := congrArg List.length hh
    simp at this
  have hC : (done ++ [q]) ++ (queue ++ [(q ++ [i], d + 1)]).map Prod.fst =
      ((done ++ [q]) ++ queue.map Prod.fst) ++ [q ++ [i]] := by
    simp
  have hlenC : ((done ++ [q]) ++ queue.map Prod.fst).length = m0 + i := by
    rw [h1, hmade]
  have htrack1 : ∀ a, a < i + 1 →
      (((done ++ [q]) ++ queue.map Prod.fst) ++ [q ++ [i]])[m0 + a]? = some (q ++ [a]) := by
    intro a ha
    rcases Nat.lt_succ_iff_lt_or_eq.mp ha with ha | ha
    · exact getElem?_append_of_some _ _ _ _ (htrack a ha)
    · subst ha
      rw [List.getElem?_append_right (by omega), hlenC]
      simp
  rw [hchild]
  unfold BfsInv
  rw [hC]
  refine ⟨⟨?_, ?_, ?_, ?_, ?_, ?_⟩, ?_, htrack1⟩
  · simp only [List.length_append, List.length_singleton] at h1 ⊢
    omega
  · intro p
    rw [hviews p]
    by_cases hp1 : p = q
    · subst hp1
      simp
    · rw [if_neg hp1]
      by_cases hp2 : p = q ++ [i]
      · subst hp2
        simp
      · rw [if_neg hp2, h2 p]
        simp only [List.mem_append, List.mem_singleton, hp2, or_false]
  · intro j p hj
    rw [hviews p]
    by_cases hjl : j < ((done ++ [q]) ++ queue.map Prod.fst).length
    · rw [List.getElem?_append_left hjl] at hj
      obtain ⟨k, hk⟩ := h3 j p hj
      have hpC : p ∈ (done ++ [q]) ++ queue.map Prod.fst := List.getElem?_mem hj
      by_cases hp1 : p = q
      · subst hp1
        rw [hview] at hk
        simp only [Option.some.injEq, Prod.mk.injEq] at hk
        exact ⟨i + 1, by simp [hk.1]⟩
      · rw [if_neg hp1]
        have hp2 : p ≠ q ++ [i] := fun hh => hcnot (hh ▸ hpC)
        rw [if_neg hp2]
        exact ⟨k, hk⟩
    · rw [List.getElem?_append_right (by omega)] at hj
      have hj0 : j - ((done ++ [q]) ++ queue.map Prod.fst).length = 0 := by
        by_contra hh
        rw [List.getElem?_eq_none (by simp only [List.length_singleton]; omega)] at hj
        cases hj
      rw [hj0] at hj
      simp only [List.getElem?_cons_zero, Option.some.injEq] at hj
      subst hj
      have hjm : j = made := by omega
      subst hjm
      rw [if_neg hne, if_pos rfl]
      exact ⟨0, rfl⟩
  · rw [List.pairwise_append]
    refine ⟨h4, by simp, ?_⟩
    intro x hx y hy
    simp only [List.mem_singleton] at hy
    subst hy
    exact hlast x hx
  · intro p hp
    simp only [List.map_append, List.map_cons, List.map_nil, List.mem_append,
      List.mem_singleton] at hp
    rw [hviews p]
    rcases hp with hp | hp
    · have hpq : p ≠ q := by
        intro hh
        subst hh
        rw [List.pairwise_append] at h4
        exact levelOrderLt_irrefl p (h4.2.2 p (by simp) p hp)
      have hpc : p ≠ q ++ [i] := by
        intro hh
        apply hcnot
        rw [← hh]
        exact List.mem_append_right _ hp
      rw [if_neg hpq, if_neg hpc]
      exact h5 p hp
    · subst hp
      rw [if_neg hne, if_pos rfl]
      exact ⟨_, rfl⟩
  · intro p sk1 k hp
    rw [hviews p] at hp
    by_cases hp1 : p = q
    · subst hp1
      rw [if_pos rfl] at hp
      simp only [Option.some.injEq, Prod.mk.injEq] at hp
      obtain ⟨_, hk⟩ := hp
      subst hk
      exact ⟨m0, htrack1⟩
    · rw [if_neg hp1] at hp
      by_cases hp2 : p = q ++ [i]
      · rw [if_pos hp2] at hp
        simp only [Option.some.injEq, Prod.mk.injEq] at hp
        obtain ⟨_, hk⟩ := hp
        subst hk
        exact ⟨0, fun a ha => absurd ha (Nat.not_lt_zero a)⟩
      · rw [if_neg hp2] at hp
        obtain ⟨m, hm⟩ := h6 p sk1 k hp
        exact ⟨m, fun a ha => getElem?_append_of_some _ _ _ _ (hm a ha)⟩
  · rw [hviews q, if_pos rfl]

theorem generateLoop_bfs (skillFactory : Nat → Option Skill)
    (distChildren : Int → Int → Nat → Int) (maxDepth maxChildren : Int)
    (fuel : Nat) (st st1 : GenState)
    (hrun : generateLoop skillFactory distChildren maxDepth maxChildren fuel st = some st1)
    (hinv : ∃ done, BfsInv skillFactory st.root st.queue st.made done) :
    ∃ done, BfsInv skillFactory st1.root [] st1.made done := by
  have h := generateLoop_invariant skillFactory distChildren maxDepth maxChildren
    (fun s => ∃ done, BfsInv skillFactory s.root s.queue s.made done)
    (by
      rintro s node depth rest hq _ ⟨done, hb⟩
      rw [hq] at hb
      exact ⟨done ++ [node], (BfsInv_pop skillFactory s.root node depth rest s.made done hb).1⟩)
    (by
      rintro s node depth rest hq _ ⟨done, hb⟩
      rw [hq] at hb
      obtain ⟨hb1, sk, hview⟩ := BfsInv_pop skillFactory s.root node depth rest s.made done hb
      have hin := addChildrenLoop_invariant skillFactory node depth
        (fun i x => BfsInv skillFactory x.root x.queue x.made (done ++ [node]) ∧
          (x.root.nodeAt node).map SkillTreeNode.view = some (sk, i) ∧
          x.made = s.made + i ∧
          ∀ a, a < i →
            ((done ++ [node]) ++ x.queue.map Prod.fst)[s.made + a]? = some (node ++ [a]))
        (by
          rintro i x ⟨hx1, hx2, hx3, hx4⟩
          obtain ⟨r1, r2, r3⟩ := BfsInv_add_child skillFactory x.root x.queue x.made done node
            depth sk i s.made hx1 hx2 hx3 hx4
          exact ⟨r1, r2, by simp only [hx3]; omega, r3⟩)
        (distChildren 0 maxChildren s.drawn).toNat 0
        { s with queue := rest, drawn := s.drawn + 1 }
        ⟨hb1, hview, rfl, fun a ha => absurd ha (Nat.not_lt_zero a)⟩
      exact ⟨done ++ [node], hin.1⟩)
    fuel st st1 hrun hinv
  obtain ⟨⟨done, hb⟩, hq⟩ := h
  rw [hq] at hb
  exact ⟨done, hb⟩

theorem generateStart_bfs (skillFactory : Nat → Option Skill) :
    BfsInv skillFactory (generateStart skillFactory).root (generateStart skillFactory).queue
      (generateStart skillFactory).made [] := by
  have hvalid : ∀ p : NodePath,
      ((SkillTreeNode.new (skillFactory 0)).nodeAt p).map SkillTreeNode.view ≠ none ↔ p = [] := by
    intro p
    cases p with
    | nil => simp [SkillTreeNode.nodeAt]
    | cons i p => simp [nodeAt_cons, SkillTreeNode.new, getChildren_mk]
  refine ⟨rfl, ?_, ?_, ?_, ?_, ?_⟩
  · intro p
    simp only [generateStart, List.map_cons, List.map_nil, List.nil_append, List.mem_singleton]
    exact hvalid p
  · intro i p hi
    simp only [generateStart, List.map_cons, List.map_nil, List.nil_append] at hi ⊢
    cases i with
    | zero =>
      simp only [List.getElem?_cons_zero, Option.some.injEq] at hi
      subst hi
      exact ⟨0, rfl⟩
    | succ i => simp at hi
  · simp [generateStart]
  · intro p hp
    simp only [generateStart, List.map_cons, List.map_nil, List.mem_singleton] at hp
    subst hp
    exact ⟨skillFactory 0, rfl⟩
  · intro p sk k hp
    have hp0 : p = [] := (hvalid p).mp (by simp only [generateStart] at hp; rw [hp]; simp)
    subst hp0
    simp only [generateStart, SkillTreeNode.new, SkillTreeNode.nodeAt, Option.map_some',
      SkillTreeNode.view, getChildren_mk, List.length_nil, Option.some.injEq,
      Prod.mk.injEq] at hp
    obtain ⟨_, hk⟩ := hp
    subst hk
    exact ⟨0, fun a ha => absurd ha (Nat.not_lt_zero a)⟩

/-! ### Random generation: the loop comes to its end for every draw -/

theorem GenTerminates_nil (skillFactory : Nat → Option Skill)
    (distChildren : Int → Int → Nat → Int) (maxDepth maxChildren : Int) (st : GenState)
    (hq : st.queue = []) :
    GenTerminates skillFactory distChildren maxDepth maxChildren st := by
  refine ⟨1, ?_⟩
  intro fuel hf
  obtain ⟨f, rfl⟩ : ∃ f, fuel = f + 1 := ⟨fuel - 1, by omega⟩
  simp [generateLoop, hq]

theorem GenTerminates_skip (skillFactory : Nat → Option Skill)
    (distChildren : Int → Int → Nat → Int) (maxDepth maxChildren : Int) (st : GenState)
    (node : NodePath) (depth : Int) (rest : List (NodePath × Int))
    (hq : st.queue = (node, depth) :: rest) (hge : depth ≥ maxDepth)
    (h : GenTerminates skillFactory distChildren maxDepth maxChildren { st with queue := rest }) :
    GenTerminates skillFactory distChildren maxDepth maxChildren st := by
  obtain ⟨N, hN⟩ := h
  refine ⟨N + 1, ?_⟩
  intro fuel hf
  obtain ⟨f, rfl⟩ : ∃ f, fuel = f + 1 := ⟨fuel - 1, by omega⟩
  simp only [generateLoop, hq, hge, if_true]
  exact hN f (by omega)

theorem GenTerminates_expand (skillFactory : Nat → Option Skill)
    (distChildren : Int → Int → Nat → Int) (maxDepth maxChildren : Int) (st : GenState)
    (node : NodePath) (depth : Int) (rest : List (NodePath × Int))
    (hq : st.queue = (node, depth) :: rest) (hlt : depth < maxDepth)
    (h : GenTerminates skillFactory distChildren maxDepth maxChildren
      (addChildrenLoop skillFactory node depth (distChildren 0 maxChildren st.drawn).toNat
        { st with queue := rest, drawn := st.drawn + 1 })) :
    GenTerminates skillFactory distChildren maxDepth maxChildren st := by
  obtain ⟨N, hN⟩ := h
  refine ⟨N + 1, ?_⟩
  intro fuel hf
  obtain ⟨f, rfl⟩ : ∃ f, fuel = f + 1 := ⟨fuel - 1, by omega⟩
  have hge : ¬ (depth ≥ maxDepth) := by omega
  simp only [generateLoop, hq, hge, if_false]
  exact hN f (by omega)

theorem GenTerminates_level (skillFactory : Nat → Option Skill)
    (distChildren : Int → Int → Nat → Int) (maxDepth maxChildren : Int) (k : Nat)
    (hS : ∀ st : GenState, (∀ e ∈ st.queue, maxDepth - e.2 ≤ (k : Int)) →
      GenTerminates skillFactory distChildren maxDepth maxChildren st)
    (front : List (NodePath × Int)) :
    ∀ (back : List (NodePath × Int)) (st : GenState), st.queue = front ++ back →
      (∀ e ∈ front, maxDepth - e.2 ≤ (k : Int) + 1) → (∀ e ∈ back, maxDepth - e.2 ≤ (k : Int)) →
      GenTerminates skillFactory distChildren maxDepth maxChildren st := by
  induction front with
  | nil =>
    intro back st hq _ hback
    apply hS st
    rw [hq]
    simpa using hback
  | cons e front ih =>
    intro back st hq hfront hback
    obtain ⟨node, depth⟩ := e
    have hq1 : st.queue = (node, depth) :: (front ++ back) := by simpa using hq
    have hfront1 : ∀ e ∈ front, maxDepth - e.2 ≤ (k : Int) + 1 :=
      fun e he => hfront e (List.mem_cons_of_mem _ he)
    by_cases hge : depth ≥ maxDepth
    · apply GenTerminates_skip skillFactory distChildren maxDepth maxChildren st node depth
        (front ++ back) hq1 hge
      exact ih back _ rfl hfront1 hback
    · apply GenTerminates_expand skillFactory distChildren maxDepth maxChildren st node depth
        (front ++ back) hq1 (by omega)
      obtain ⟨_, _, added, hqueue, _, hdep⟩ := addChildrenLoop_made skillFactory node depth
        (distChildren 0 maxChildren st.drawn).toNat
        { st with queue := front ++ back, drawn := st.drawn + 1 }
      apply ih (back ++ added) _ (by rw [hqueue, List.append_assoc]) hfront1
      intro e he
      rcases List.mem_append.mp he with he | he
      · exact hback e he
      · have h1 := hdep e he
        have h2 := hfront (node, depth) (List.mem_cons_self _ _)
        simp only at h2
        omega

theorem GenTerminates_all (skillFactory : Nat → Option Skill)
    (distChildren : Int → Int → Nat → Int) (maxDepth maxChildren : Int) (k : Nat) :
    ∀ st : GenState, (∀ e ∈ st.queue, maxDepth - e.2 ≤ (k : Int)) →
      GenTerminates skillFactory distChildren maxDepth maxChildren st := by
  induction k with
  | zero =>
    intro st
    generalize hq : st.queue = queue
    induction queue generalizing st with
    | nil =>
      intro _
      exact GenTerminates_nil skillFactory distChildren maxDepth maxChildren st hq
    | cons e rest ih =>
      intro h
      obtain ⟨node, depth⟩ := e
      have h1 := h (node, depth) (List.mem_cons_self _ _)
      simp only [Nat.cast_zero] at h1
      apply GenTerminates_skip skillFactory distChildren maxDepth maxChildren st node depth
        rest hq (by omega)
      exact ih _ rfl (fun e he => h e (List.mem_cons_of_mem _ he))
  | succ k ih =>
    intro st h
    apply GenTerminates_level skillFactory distChildren maxDepth maxChildren k ih st.queue []
      st (by simp)
    · intro e he
      have := h e he
      push_cast at this
      exact this
    · intro e he
      simp at he

theorem generateStart_terminates (skillFactory : Nat → Option Skill)
    (distChildren : Int → Int → Nat → Int) (maxDepth maxChildren : Int) :
    GenTerminates skillFactory distChildren maxDepth maxChildren (generateStart skillFactory) := by
  apply GenTerminates_all skillFactory distChildren maxDepth maxChildren (maxDepth - 1).toNat
  intro e he
  simp only [generateStart, List.mem_singleton] at he
  subst he
  simp only
  omega

theorem sorted_paths_unique (l1 l2 : List NodePath) (h1 : l1.Pairwise levelOrderLt)
    (h2 : l2.Pairwise levelOrderLt) (hmem : ∀ p, p ∈ l1 ↔ p ∈ l2) : l1 = l2 := by
  haveI : IsIrrefl NodePath levelOrderLt := ⟨levelOrderLt_irrefl⟩
  haveI : IsAntisymm NodePath levelOrderLt :=
    ⟨fun a b hab hba => absurd hba (levelOrderLt_asymm a b hab)⟩
  have hp : l1.Perm l2 := (List.perm_ext_iff_of_nodup h1.nodup h2.nodup).mpr hmem
  exact List.eq_of_perm_of_sorted hp h1 h2

theorem levelOrder_head (t : SkillTreeNode) :
    t.levelOrder[0]? = some ([], t) := by
  simp [SkillTreeNode.levelOrder, List.range_succ_eq_map, SkillTreeNode.atDepth]

theorem levelOrder_of_bfs (skillFactory : Nat → Option Skill) (root : SkillTreeNode)
    (made : Nat) (done : List NodePath) (h : BfsInv skillFactory root [] made done) :
    root.levelOrder.length = made ∧
    root.levelOrder.map (fun x => x.2.getSkill) = (List.range made).map skillFactory ∧
    (∀ p node, root.nodeAt p = some node →
      ∃ m, ∀ i, i < node.getChildren.length →
        (root.nodeAt (p ++ [i])).map SkillTreeNode.getSkill = some (skillFactory (m + i))) := by
  obtain ⟨h1, h2, h3, h4, _, h6⟩ := h
  simp only [List.map_nil, List.append_nil] at h1 h2 h3 h4 h6
  have hL : root.levelOrder.map Prod.fst = done := by
    apply sorted_paths_unique _ _ (levelOrder_sorted root) h4
    intro p
    rw [← h2 p]
    constructor
    · intro hp
      obtain ⟨x, hx, rfl⟩ := List.mem_map.mp hp
      have := (mem_levelOrder root x.1 x.2).mp hx
      rw [this]
      simp
    · intro hp
      cases hn : root.nodeAt p with
      | none => rw [hn] at hp; simp at hp
      | some n => exact List.mem_map.mpr ⟨(p, n), (mem_levelOrder root p n).mpr hn, rfl⟩
  have hlen : root.levelOrder.length = made := by
    rw [← h1, ← hL, List.length_map]
  refine ⟨hlen, ?_, ?_⟩
  · apply List.ext_getElem?
    intro j
    rw [List.getElem?_map, List.getElem?_map]
    by_cases hj : j < made
    · rw [List.getElem?_range hj]
      have hj2 : j < root.levelOrder.length := by omega
      rw [List.getElem?_eq_getElem hj2]
      simp only [Option.map_some', Option.some.injEq]
      have hx : root.nodeAt (root.levelOrder[j]).1 = some (root.levelOrder[j]).2 :=
        (mem_levelOrder root _ _).mp (List.getElem_mem hj2)
      have hd : done[j]? = some (root.levelOrder[j]).1 := by
        rw [← hL, List.getElem?_map, List.getElem?_eq_getElem hj2]
        rfl
      obtain ⟨k, hk⟩ := h3 j _ hd
      rw [hx] at hk
      simp only [Option.map_some', SkillTreeNode.view, Option.some.injEq, Prod.mk.injEq] at hk
      exact hk.1
    · rw [List.getElem?_eq_none (by omega), List.getElem?_eq_none (by simp; omega)]
      rfl
  · intro p node hp
    obtain ⟨m, hm⟩ := h6 p node.getSkill node.getChildren.length (by rw [hp]; rfl)
    refine ⟨m, ?_⟩
    intro i hi
    obtain ⟨k, hk⟩ := h3 (m + i) (p ++ [i]) (hm i hi)
    cases hn : root.nodeAt (p ++ [i]) with
    | none => rw [hn] at hk; simp at hk
    | some c =>
      rw [hn] at hk
      simp only [Option.map_some', SkillTreeNode.view, Option.some.injEq, Prod.mk.injEq] at hk
      simp only [Option.map_some', hk.1]

/-- C19: `generateRandom` expands breadth-first. For every skill factory, every
`maxDepth` and `maxChildren` and every sequence of child-count draws the loop
comes to its end, and the level order listing (breadth-first, children left to
right) of the tree it builds lists every node once and shows the skills in the
order the factory handed them out: entry number `i` (from 0) holds the skill of
call number `i`, so with a factory that hands out the labels 1, 2, 3, ... the
listing reads 1, 2, ..., n. The root holds the skill of the first call, and the
children of a node hold skills of consecutive calls. -/
theorem generateRandom_level_order (skillFactory : Nat → Option Skill)
    (distChildren : Int → Int → Nat → Int) (maxDepth maxChildren : Int) :
    ∃ N, ∀ fuel, N ≤ fuel →
      ∃ t root n,
        SkillTree.generateRandom skillFactory distChildren maxDepth maxChildren fuel = some t ∧
        t.root = some root ∧
        (∀ p node, (p, node) ∈ root.levelOrder ↔ root.nodeAt p = some node) ∧
        (root.levelOrder.map Prod.fst).Nodup ∧
        root.levelOrder.length = n ∧
        root.levelOrder.map (fun x => x.2.getSkill) = (List.range n).map skillFactory ∧
        root.getSkill = skillFactory 0 ∧
        (∀ p node, root.nodeAt p = some node →
          ∃ m, ∀ i, i < node.getChildren.length →
            (root.nodeAt (p ++ [i])).map SkillTreeNode.getSkill
              = some (skillFactory (m + i))) := by
  obtain ⟨N, hN⟩ := generateStart_terminates skillFactory distChildren maxDepth maxChildren
  refine ⟨N, ?_⟩
  intro fuel hf
  have hsome := hN fuel hf
  obtain ⟨st1, hst1⟩ := Option.isSome_iff_exists.mp hsome
  obtain ⟨done, hb⟩ := generateLoop_bfs skillFactory distChildren maxDepth maxChildren fuel
    (generateStart skillFactory) st1 hst1 ⟨[], generateStart_bfs skillFactory⟩
  obtain ⟨hlen, hmap, hchildren⟩ := levelOrder_of_bfs skillFactory st1.root st1.made done hb
  haveI : IsIrrefl NodePath levelOrderLt := ⟨levelOrderLt_irrefl⟩
  refine ⟨⟨some st1.root⟩, st1.root, st1.made, ?_, rfl, ?_, ?_, hlen, hmap, ?_, hchildren⟩
  · simp only [SkillTree.generateRandom, hst1, Option.map_some']
  · intro p node
    exact mem_levelOrder st1.root p node
  · exact (levelOrder_sorted st1.root).nodup
  · have h0 := levelOrder_head st1.root
    have h1 := congrArg (fun l => l[0]?) hmap
    simp only [List.getElem?_map, h0, Option.map_some'] at h1
    have hpos : 0 < st1.made := by
      rw [← hlen]
      by_contra hz
      rw [List.getElem?_eq_none (by omega)] at h0
      cases h0
    rw [List.getElem?_range hpos] at h1
    simpa using h1

/-- C19, witness: with `maxDepth = 3`, the draws 2, 1, 0 and the factory that hands
out the labels 1, 2, 3, ..., the root gets two children and the first child one;
the level order listing reads 1, 2, 3, 4, while the pre-order listing reads
1, 2, 4, 3. -/
theorem generateRandom_level_order_witness :
    (∃ N, ∀ fuel, N ≤ fuel →
      ∃ t root n,
        SkillTree.generateRandom labelFactory drawTwoOne 3 2 fuel = some t ∧
        t.root = some root ∧
        root.levelOrder.map (fun x => x.2.getSkill) = (List.range n).map labelFactory) ∧
    ((SkillTree.generateRandom labelFactory drawTwoOne 3 2 8).bind (fun t => t.root)).map
      (fun r => r.levelOrder.map (fun x => labelOf x.2)) =
        some [some 1, some 2, some 3, some 4] ∧
    (SkillTree.generateRandom labelFactory drawTwoOne 3 2 8).map
      (fun t => t.nodes.map (fun x => labelOf x.2)) =
        some [some 1, some 2, some 4, some 3] := by
  refine ⟨?_, by decide, by decide⟩
  obtain ⟨N, hN⟩ := generateRandom_level_order labelFactory drawTwoOne 3 2
  refine ⟨N, fun fuel hf => ?_⟩
  obtain ⟨t, root, n, h1, h2, _, _, _, h6, _⟩ := hN fuel hf
  exact ⟨t, root, n, h1, h2, h6⟩

/-! ### The rage bonus of a warrior and the critical hit of an archer -/

theorem attack_warrior_step (w target : Character) (g : Rng) (k : Nat)
    (hw : w.cls = CharacterClass.warrior (10 * ((k % 5 : Nat) : Int))) :
    (w.attack target g).1 =
      { w with cls := CharacterClass.warrior (10 * (((k + 1) % 5 : Nat) : Int)) } ∧
    ((k + 1) % 5 = 0 →
      (w.attack target g).2.1 = ((w.attackBase target g).1).takeDamage (5 + w.level) ∧
      (w.attack target g).2.2.1 = (w.attackBase target g).2.1 + (5 + w.level)) ∧
    ((k + 1) % 5 ≠ 0 →
      (w.attack target g).2.1 = (w.attackBase target g).1 ∧
      (w.attack target g).2.2.1 = (w.attackBase target g).2.1) := by
  simp only [Character.attack, hw]
  by_cases h : (k + 1) % 5 = 0
  · have hfire : 50 ≤ min 100 (10 * ((k % 5 : Nat) : Int) + 10) := by omega
    obtain ⟨h1, h2, h3⟩ := (attackWarrior_rage w target _ g).1 hfire
    have e : (10 * (((k + 1) % 5 : Nat) : Int)) = 0 := by omega
    refine ⟨by rw [h1, e], fun _ => ⟨h2, h3⟩, fun hne => absurd h hne⟩
  · have hno : min 100 (10 * ((k % 5 : Nat) : Int) + 10) < 50 := by omega
    obtain ⟨h1, h2, h3⟩ := (attackWarrior_rage w target _ g).2 hno
    have e : min 100 (10 * ((k % 5 : Nat) : Int) + 10) = 10 * (((k + 1) % 5 : Nat) : Int) := by
      omega
    refine ⟨by rw [h1, e], fun h0 => absurd h0 h, fun _ => ⟨h2, h3⟩⟩

theorem attackSequence_warrior (n : String) (attacks : List (Character × Rng)) :
    attackSequence (Warrior.new n) attacks =
      { Warrior.new n with
        cls := CharacterClass.warrior (10 * ((attacks.length % 5 : Nat) : Int)) } := by
  induction attacks using List.reverseRecOn with
  | nil => rfl
  | append_singleton attacks a ih =>
    simp only [attackSequence] at ih ⊢
    rw [List.foldl_append, ih]
    simp only [List.foldl_cons, List.foldl_nil, List.length_append, List.length_singleton]
    rw [(attack_warrior_step _ a.1 a.2 attacks.length rfl).1]

/-- C21: after any sequence of attacks of a freshly constructed warrior (any
targets, any draws) the warrior is as constructed except for its rage counter,
which is 10 times the number of attacks modulo 5, so one of 0, 10, 20, 30, 40. The
rage bonus fires in the next attack exactly when its 1-based index is a multiple
of 5; then the returned damage is the base damage plus `5 + level`, the target
takes `5 + level` as a second `takeDamage` and the rage is back to 0; otherwise
the attack returns the base damage, the target only takes the base damage and
the rage goes up by 10. -/
theorem warrior_rage_every_fifth (n : String) (attacks : List (Character × Rng))
    (target : Character) (g : Rng) :
    attackSequence (Warrior.new n) attacks =
      { Warrior.new n with
        cls := CharacterClass.warrior (10 * ((attacks.length % 5 : Nat) : Int)) } ∧
    (attackSequence (Warrior.new n) attacks).rage = 10 * ((attacks.length % 5 : Nat) : Int) ∧
    ((attackSequence (Warrior.new n) attacks).rage = 0 ∨
      (attackSequence (Warrior.new n) attacks).rage = 10 ∨
      (attackSequence (Warrior.new n) attacks).rage = 20 ∨
      (attackSequence (Warrior.new n) attacks).rage = 30 ∨
      (attackSequence (Warrior.new n) attacks).rage = 40) ∧
    (rageBonusFires (attackSequence (Warrior.new n) attacks) = true ↔
      (attacks.length + 1) % 5 = 0) ∧
    ((attacks.length + 1) % 5 = 0 →
      ((attackSequence (Warrior.new n) attacks).attack target g).2.2.1 =
        ((attackSequence (Warrior.new n) attacks).attackBase target g).2.1 +
          (5 + (attackSequence (Warrior.new n) attacks).level) ∧
      ((attackSequence (Warrior.new n) attacks).attack target g).2.1 =
        (((attackSequence (Warrior.new n) attacks).attackBase target g).1).takeDamage
          (5 + (attackSequence (Warrior.new n) attacks).level) ∧
      (((attackSequence (Warrior.new n) attacks).attack target g).1).rage = 0) ∧
    ((attacks.length + 1) % 5 ≠ 0 →
      ((attackSequence (Warrior.new n) attacks).attack target g).2.2.1 =
        ((attackSequence (Warrior.new n) attacks).attackBase target g).2.1 ∧
      ((attackSequence (Warrior.new n) attacks).attack target g).2.1 =
        ((attackSequence (Warrior.new n) attacks).attackBase target g).1 ∧
      (((attackSequence (Warrior.new n) attacks).attack target g).1).rage =
        10 * (((attacks.length + 1) % 5 : Nat) : Int)) := by
  have hseq := attackSequence_warrior n attacks
  have hcls : (attackSequence (Warrior.new n) attacks).cls =
      CharacterClass.warrior (10 * ((attacks.length % 5 : Nat) : Int)) := by
    rw [hseq]
  have hrage : (attackSequence (Warrior.new n) attacks).rage =
      10 * ((attacks.length % 5 : Nat) : Int) := by
    simp only [Character.rage, hcls]
  obtain ⟨hstep, hfire, hplain⟩ := attack_warrior_step
    (attackSequence (Warrior.new n) attacks) target g attacks.length hcls
  have hafter : (((attackSequence (Warrior.new n) attacks).attack target g).1).rage =
      10 * (((attacks.length + 1) % 5 : Nat) : Int) := by
    rw [hstep]
    rfl
  refine ⟨hseq, hrage, ?_, ?_, ?_, ?_⟩
  · rw [hrage]
    omega
  · simp only [rageBonusFires, hrage, decide_eq_true_eq]
    omega
  · intro h
    obtain ⟨h1, h2⟩ := hfire h
    refine ⟨h2, h1, ?_⟩
    rw [hafter]
    omega
  · intro h
    obtain ⟨h1, h2⟩ := hplain h
    exact ⟨h2, h1, hafter⟩

/-- C21, witness: a fresh warrior after four attacks has rage 40; the fifth attack
fires the bonus, returns 12 + 6 against a target of defense 5 and leaves the rage
at 0. -/
theorem warrior_rage_every_fifth_witness :
    (fourAttacks.length + 1) % 5 = 0 ∧
    (attackSequence (Warrior.new "Thorin") fourAttacks).rage = 40 ∧
    rageBonusFires (attackSequence (Warrior.new "Thorin") fourAttacks) = true ∧
    ((attackSequence (Warrior.new "Thorin") fourAttacks).attack (fighter "Orc" 1000)
      zeroRng).2.2.1 =
      ((attackSequence (Warrior.new "Thorin") fourAttacks).attackBase (fighter "Orc" 1000)
        zeroRng).2.1 + (5 + (attackSequence (Warrior.new "Thorin") fourAttacks).level) ∧
    ((attackSequence (Warrior.new "Thorin") fourAttacks).attack (fighter "Orc" 1000)
      zeroRng).2.2.1 = 18 ∧
    (((attackSequence (Warrior.new "Thorin") fourAttacks).attack (fighter "Orc" 1000)
      zeroRng).1).rage = 0 :=
  ⟨by decide, by decide,
    (warrior_rage_every_fifth "Thorin" fourAttacks (fighter "Orc" 1000) zeroRng).2.2.2.1.mpr
      (by decide),
    ((warrior_rage_every_fifth "Thorin" fourAttacks (fighter "Orc" 1000) zeroRng).2.2.2.2.1
      (by decide)).1,
    by decide,
    ((warrior_rage_every_fifth "Thorin" fourAttacks (fighter "Orc" 1000) zeroRng).2.2.2.2.1
      (by decide)).2.2⟩

theorem attackBase_same_draw (self target : Character) (g g1 : Rng)
    (h : g1.stream g1.pos = g.stream g.pos) :
    (self.attackBase target g1).1 = (self.attackBase target g).1 ∧
    (self.attackBase target g1).2.1 = (self.attackBase target g).2.1 := by
  simp only [Character.attackBase, Rng.rand, h, and_self]

/-- C22: `Archer::attack` draws `r = rand() % 100` in `0..99` and is critical
exactly when `r < min(50, agility + level)`. Critical or not, the attacker is
unchanged and the target is what `Character::attack` leaves with the next draw as
variance: its HP is `max(0, oldHP - base)` for the base damage without the bonus.
A critical hit returns the base damage plus 7, a plain hit returns the base
damage. So for the same variance draw the target after a critical attack equals
the target after a non-critical one: the +7 never reaches `takeDamage`. -/
theorem archer_critical_only_returned (self target : Character) (agility : Int) (g : Rng) :
    (0 ≤ Int.tmod (g.stream g.pos : Int) 100 ∧ Int.tmod (g.stream g.pos : Int) 100 ≤ 99) ∧
    (self.attackArcher target agility g).1 = self ∧
    (self.attackArcher target agility g).2.1 = (self.attackBase target g.rand.2).1 ∧
    (self.attackArcher target agility g).2.1 =
      { target with hp := max 0 (target.hp - (self.attackBase target g.rand.2).2.1) } ∧
    (Int.tmod (g.stream g.pos : Int) 100 < min 50 (agility + self.level) →
      (self.attackArcher target agility g).2.2.1 = (self.attackBase target g.rand.2).2.1 + 7) ∧
    (¬ Int.tmod (g.stream g.pos : Int) 100 < min 50 (agility + self.level) →
      (self.attackArcher target agility g).2.2.1 = (self.attackBase target g.rand.2).2.1) ∧
    (self.cls = CharacterClass.archer agility →
      self.attack target g = self.attackArcher target agility g) ∧
    (∀ g1 : Rng, g1.stream (g1.pos + 1) = g.stream (g.pos + 1) →
      (self.attackArcher target agility g1).2.1 = (self.attackArcher target agility g).2.1) := by
  have h1 := Int.tmod_nonneg (100 : Int) (Int.ofNat_nonneg (g.stream g.pos))
  have h2 := Int.tmod_lt_of_pos (g.stream g.pos : Int) (show (0 : Int) < 100 by decide)
  have htarget : ∀ g0 : Rng,
      (self.attackArcher target agility g0).2.1 = (self.attackBase target g0.rand.2).1 := by
    intro g0
    simp only [Character.attackArcher]
    split <;> rfl
  refine ⟨⟨h1, by omega⟩, ?_, htarget g, ?_, ?_, ?_, ?_, ?_⟩
  · simp only [Character.attackArcher]
    split <;> rfl
  · rw [htarget g]
    simp only [Character.attackBase, Rng.rand]
    exact takeDamage_eq _ _
  · intro h
    simp only [Character.attackArcher, Rng.rand] at h ⊢
    simp only [h, if_true]
  · intro h
    simp only [Character.attackArcher, Rng.rand] at h ⊢
    simp only [h, if_false]
  · intro h
    simp only [Character.attack, h]
  · intro g1 hg
    rw [htarget g1, htarget g]
    exact (attackBase_same_draw self target g.rand.2 g1.rand.2 hg).1

/-- C22, witness: a fresh archer (critical chance 13) with the draws 0 (critical)
and 99 (not critical) and the same variance draw 3: the critical attack returns
19 instead of 12, and both leave the target with the same 88 HP. -/
theorem archer_critical_only_returned_witness :
    criticalRng.stream (criticalRng.pos + 1) = plainRng.stream (plainRng.pos + 1) ∧
    ((Archer.new "Legolas").attackArcher (fighter "Orc" 100) 12 criticalRng).2.1 =
      ((Archer.new "Legolas").attackArcher (fighter "Orc" 100) 12 plainRng).2.1 ∧
    ((Archer.new "Legolas").attack (fighter "Orc" 100) criticalRng).2.2.1 = 19 ∧
    ((Archer.new "Legolas").attack (fighter "Orc" 100) plainRng).2.2.1 = 12 ∧
    ((Archer.new "Legolas").attack (fighter "Orc" 100) criticalRng).2.1.getHP = 88 ∧
    ((Archer.new "Legolas").attack (fighter "Orc" 100) plainRng).2.1.getHP = 88 :=
  ⟨by decide,
    (archer_critical_only_returned (Archer.new "Legolas") (fighter "Orc" 100) 12
      plainRng).2.2.2.2.2.2.2 criticalRng (by decide),
    by decide, by decide, by decide, by decide⟩

end SkillGame
